import Mathlib

/-!
# Verification of the arrow2 IPC serializer and parquet page deserializer

This development embeds, in Lean, the serialization core of the `arrow2`
columnar library:

* the IPC writer (`src/io/ipc/write/serialize.rs`): field nodes, buffer
  table, body bytes, 8-byte alignment, optional compression framing,
  endianness handling, offset normalization;
* an IPC reader modelled from the specification (the reader's leaf
  implementations under `src/io/ipc/read/array/` are not part of the
  provided sources; only the dispatcher `deserialize.rs` is);
* the parquet nested-reassembly engine
  (`src/io/parquet/read/deserialize/nested_utils.rs`);
* the parquet binary dictionary decoder
  (`src/io/parquet/read/deserialize/binary/basic.rs`).

Machine integers are modelled as `Nat`/`Int` with explicit wrapping where
the source can overflow; Rust panics (`unwrap`, `todo!()`, out-of-bounds
slice indexing, arithmetic underflow) are modelled by `Option`/`Except`
`none`/error results that the corresponding Rust function cannot actually
return as values.
-/

namespace Arrow2

/-! ## Byte-level encoding primitives

`encLE w x` are the `w` little-endian base-256 digits of `x`, mirroring
`to_le_bytes` on a `w`-byte machine integer (the value stored is the bit
pattern, i.e. `x % 256^w`).  Big-endian bytes are the reverse, mirroring
`to_be_bytes`. -/

def encLE : Nat → Nat → List Nat
  | 0, _ => []
  | w + 1, x => x % 256 :: encLE w (x / 256)

def decLE (bs : List Nat) : Nat :=
  bs.foldr (fun b acc => b % 256 + 256 * acc) 0

@[simp] theorem encLE_length (w x : Nat) : (encLE w x).length = w := by
  induction w generalizing x with
  | zero => rfl
  | succ w ih => simp [encLE, ih]

theorem decLE_encLE (w x : Nat) : decLE (encLE w x) = x % 256 ^ w := by
  induction w generalizing x with
  | zero => simp [encLE, decLE, Nat.mod_one]
  | succ w ih =>
    have h : decLE (encLE w (x / 256)) = x / 256 % 256 ^ w := ih (x / 256)
    have hmod : x % 256 % 256 = x % 256 := by omega
    calc decLE (encLE (w + 1) x)
        = x % 256 + 256 * (x / 256 % 256 ^ w) := by
          simp [encLE, decLE] at h ⊢
          simp [h, hmod]
      _ = x % (256 * 256 ^ w) := (Nat.mod_mul).symm
      _ = x % 256 ^ (w + 1) := by rw [pow_succ, mul_comm]

/-- One element's bytes with the requested endianness (`to_le_bytes` /
`to_be_bytes` of the source's `NativeType`). -/
def encElem (le : Bool) (w x : Nat) : List Nat :=
  if le then encLE w x else (encLE w x).reverse

def decElem (le : Bool) (bs : List Nat) : Nat :=
  if le then decLE bs else decLE bs.reverse

@[simp] theorem encElem_length (le : Bool) (w x : Nat) :
    (encElem le w x).length = w := by
  cases le <;> simp [encElem]

theorem decElem_encElem (le : Bool) (w x : Nat) :
    decElem le (encElem le w x) = x % 256 ^ w := by
  cases le <;> simp [encElem, decElem, decLE_encLE]

/-- The byte stream of a typed slice (element-wise encoding). -/
def encodeElems (le : Bool) (w : Nat) (xs : List Nat) : List Nat :=
  (xs.map (encElem le w)).flatten

@[simp] theorem encodeElems_nil (le : Bool) (w : Nat) :
    encodeElems le w [] = [] := rfl

@[simp] theorem encodeElems_cons (le : Bool) (w x : Nat) (xs : List Nat) :
    encodeElems le w (x :: xs) = encElem le w x ++ encodeElems le w xs := rfl

@[simp] theorem encodeElems_length (le : Bool) (w : Nat) (xs : List Nat) :
    (encodeElems le w xs).length = w * xs.length := by
  induction xs with
  | nil => simp
  | cons x xs ih => simp [ih]; ring

/-- Decode `count` elements of byte width `w` from the front of a byte
stream. -/
def decElems (le : Bool) (w : Nat) : Nat → List Nat → List Nat
  | 0, _ => []
  | count + 1, bs => decElem le (bs.take w) :: decElems le w count (bs.drop w)

theorem decElems_encodeElems (le : Bool) (w : Nat) (xs rest : List Nat)
    (h : ∀ x ∈ xs, x < 256 ^ w) :
    decElems le w xs.length (encodeElems le w xs ++ rest) = xs := by
  induction xs generalizing rest with
  | nil => simp [decElems]
  | cons x xs ih =>
    have hx : x < 256 ^ w := h x (by simp)
    have hlen : (encElem le w x).length = w := encElem_length ..
    have htake : ((encElem le w x ++ (encodeElems le w xs ++ rest)).take w)
        = encElem le w x := List.take_left' hlen
    have hdrop : ((encElem le w x ++ (encodeElems le w xs ++ rest)).drop w)
        = encodeElems le w xs ++ rest := List.drop_left' hlen
    simp only [List.length_cons, decElems, encodeElems_cons, List.append_assoc,
      htake, hdrop]
    rw [decElem_encElem, Nat.mod_eq_of_lt hx,
      ih rest (fun y hy => h y (by simp [hy]))]

@[simp] theorem decElems_length (le : Bool) (w count : Nat) (bs : List Nat) :
    (decElems le w count bs).length = count := by
  induction count generalizing bs with
  | zero => rfl
  | succ n ih => simp [decElems, ih]

/-! ## Bitmap packing

`bitsToBytes` packs validity bits LSB-first into bytes (the layout of
`arrow2::bitmap::Bitmap` when the bit offset is zero); `bytesToBits` reads
the first `len` bits back. -/

def byteOfBits (bits : List Bool) : Nat :=
  bits.foldr (fun b acc => (cond b 1 0) + 2 * acc) 0

def bitsToBytes (bs : List Bool) : List Nat :=
  match bs with
  | [] => []
  | b :: rest => byteOfBits ((b :: rest).take 8) :: bitsToBytes ((b :: rest).drop 8)
  termination_by bs.length
  decreasing_by simp [List.drop]; omega

def byteBits (n : Nat) (b : Nat) : List Bool :=
  (List.range n).map b.testBit

def bytesToBits : List Nat → Nat → List Bool
  | _, 0 => []
  | [], len => List.replicate len false
  | b :: rest, len => byteBits (min len 8) b ++ bytesToBits rest (len - 8)

@[simp] theorem bitsToBytes_nil : bitsToBytes [] = [] := by
  rw [bitsToBytes]

theorem bitsToBytes_cons (b : Bool) (rest : List Bool) :
    bitsToBytes (b :: rest)
      = byteOfBits ((b :: rest).take 8) :: bitsToBytes ((b :: rest).drop 8) := by
  rw [bitsToBytes]

@[simp] theorem bytesToBits_zero (cs : List Nat) : bytesToBits cs 0 = [] := by
  cases cs <;> rfl

theorem bytesToBits_cons (c : Nat) (cs : List Nat) (len : Nat) (h : len ≠ 0) :
    bytesToBits (c :: cs) len
      = byteBits (min len 8) c ++ bytesToBits cs (len - 8) := by
  cases len with
  | zero => exact absurd rfl h
  | succ n => rfl

theorem byteOfBits_testBit (bits : List Bool) (i : Nat) (hi : i < bits.length) :
    (byteOfBits bits).testBit i = bits.get ⟨i, hi⟩ := by
  induction bits generalizing i with
  | nil => cases hi
  | cons b rest ih =>
    cases i with
    | zero =>
      have hmod : (byteOfBits (b :: rest)) % 2 = (cond b 1 0) % 2 := by
        show ((cond b 1 0) + 2 * byteOfBits rest) % 2 = _
        exact Nat.add_mul_mod_self_left ..
      rw [Nat.testBit_zero, hmod]
      cases b <;> rfl
    | succ i =>
      have hdiv : (byteOfBits (b :: rest)) / 2 = byteOfBits rest := by
        show ((cond b 1 0) + 2 * byteOfBits rest) / 2 = _
        cases b <;> simp <;> omega
      rw [Nat.testBit_add_one, hdiv]
      exact ih i (Nat.lt_of_succ_lt_succ hi)

theorem byteBits_byteOfBits (bits : List Bool) (h : bits.length ≤ 8) :
    byteBits bits.length (byteOfBits bits) = bits := by
  apply List.ext_get
  · simp [byteBits]
  · intro i h1 h2
    simp only [byteBits, List.get_eq_getElem, List.getElem_map, List.getElem_range]
    exact byteOfBits_testBit bits i h2

theorem bytesToBits_bitsToBytes (bs : List Bool) :
    bytesToBits (bitsToBytes bs) bs.length = bs := by
  induction bs using bitsToBytes.induct with
  | case1 => simp
  | case2 b rest ih =>
    rw [bitsToBytes_cons, bytesToBits_cons _ _ _ (by simp)]
    have htl : ((b :: rest).take 8).length = min (b :: rest).length 8 := by
      simp [Nat.min_comm]
      omega
    have hbb : byteBits (min (b :: rest).length 8) (byteOfBits ((b :: rest).take 8))
        = (b :: rest).take 8 := by
      have := byteBits_byteOfBits ((b :: rest).take 8)
        (by rw [htl]; exact Nat.min_le_right ..)
      rwa [htl] at this
    have hdl : ((b :: rest).drop 8).length = (b :: rest).length - 8 := by simp
    rw [hbb, ← hdl, ih, List.take_append_drop]

theorem bitsToBytes_length (bs : List Bool) :
    (bitsToBytes bs).length = (bs.length + 7) / 8 := by
  induction bs using bitsToBytes.induct with
  | case1 => simp
  | case2 b rest ih =>
    rw [bitsToBytes_cons]
    have hdl : ((b :: rest).drop 8).length = (b :: rest).length - 8 := by simp
    rw [hdl] at ih
    simp only [List.length_cons, ih] at *
    omega

/-! ## IPC write: buffer-level primitives

Embedding of `src/io/ipc/write/serialize.rs` (lines 633-827): `pad_to_8`,
`finish_buffer`, `write_bytes`, `write_bitmap`, `_write_buffer`,
`_write_compressed_buffer`, `write_buffer`, `write_buffer_from_iter`.

The compression codecs (LZ4/ZSTD) are external collaborators invoked
through a `compress`/`decompress` interface (spec §1); they are modelled
as an abstract `Codec` record.  The native endianness
(`is_native_little_endian()`, from `src/io/ipc/endianess.rs`, a compile
time constant not in the provided sources) is threaded as an explicit
argument `nle`; `bytemuck::cast_slice` on a native-endian machine yields
the native-endian byte stream, i.e. `encodeElems nle`. -/

structure Codec where
  compress : List Nat → List Nat
  decompress : List Nat → List Nat

/-- `arrow_format::ipc::Buffer`: `{offset, length}` record of the buffer
table. -/
structure IpcBuffer where
  offset : Nat
  length : Nat
  deriving DecidableEq, Repr

/-- `arrow_format::ipc::FieldNode`: `{length, null_count}`. -/
structure FieldNode where
  length : Nat
  null_count : Nat
  deriving DecidableEq, Repr

/-- The writer's output state: the buffer table, the body bytes
(`arrow_data`), the field nodes, and the running offset, all of which the
Rust functions mutate in place. -/
structure WriterState where
  buffers : List IpcBuffer
  arrow_data : List Nat
  nodes : List FieldNode
  offset : Nat
  deriving Repr

def emptyWriter : WriterState := ⟨[], [], [], 0⟩

/-- Modelled from the spec: `pad_to_8` lives in `src/io/ipc/write/common.rs`,
which is not among the provided sources; §4.1 step 4 requires padding with
zeros until the written length is a multiple of 8. -/
def pad_to_8 (length : Nat) : Nat := (8 - length % 8) % 8

def pad_buffer_to_8 (buffer : List Nat) (length : Nat) : List Nat :=
  buffer ++ List.replicate (pad_to_8 length) 0

/-- `finish_buffer` (serialize.rs:815): records the unpadded length, pads the
body to 8 bytes, emits the `Buffer` record at the running offset and
advances the offset by the padded size. -/
def finish_buffer (arrow_data : List Nat) (start : Nat) (offset : Nat) :
    List Nat × Nat × IpcBuffer :=
  let buffer_len := arrow_data.length - start
  let arrow_data2 := pad_buffer_to_8 arrow_data (arrow_data.length - start)
  let total_len := arrow_data2.length - start
  (arrow_data2, offset + total_len, ⟨offset, buffer_len⟩)

/-- Append `payload` bytes to the body starting at `start`, then run
`finish_buffer`, updating the state (common tail of `write_bytes`,
`write_buffer` and `write_buffer_from_iter`). -/
def finishInto (s : WriterState) (payload : List Nat) : WriterState :=
  let start := s.arrow_data.length
  let r := finish_buffer (s.arrow_data ++ payload) start s.offset
  { s with arrow_data := r.1, offset := r.2.1, buffers := s.buffers ++ [r.2.2] }

/-- `write_bytes` (serialize.rs:640): raw bytes, with optional
`le_i64(len) ‖ compress(bytes)` framing. -/
def write_bytes (bytes : List Nat) (compression : Option Codec)
    (s : WriterState) : WriterState :=
  match compression with
  | some c => finishInto s (encLE 8 bytes.length ++ c.compress bytes)
  | none => finishInto s bytes

/-- `write_bitmap` (serialize.rs:665).  A `Bitmap` is its list of bits; the
non-zero `slice_offset` branch repacks the bits tightly, which produces the
same byte stream `bitsToBytes bitmap` as the aligned branch.  The
`assert_eq!(bitmap.len(), length)` panic is modelled as `none`.  A missing
validity pushes a `Buffer{offset, length: 0}` without touching the body. -/
def write_bitmap (bitmap : Option (List Bool)) (length : Nat)
    (compression : Option Codec) (s : WriterState) : Option WriterState :=
  match bitmap with
  | some bits =>
      if bits.length = length then
        some (write_bytes (bitsToBytes bits) compression s)
      else none
  | none =>
      some { s with buffers := s.buffers ++ [⟨s.offset, 0⟩] }

/-- `_write_buffer` (serialize.rs:762): native path is a `cast_slice`
memcpy (native-endian bytes), otherwise element-wise byte swapping. -/
def _write_buffer (w : Nat) (nle le : Bool) (buffer : List Nat) : List Nat :=
  if le = nle then encodeElems nle w buffer
  else encodeElems le w buffer

/-- `_write_compressed_buffer` (serialize.rs:772): native path prefixes the
uncompressed byte length and compresses; the non-native path is `todo!()`,
a panic, modelled as `none`. -/
def _write_compressed_buffer (w : Nat) (nle le : Bool) (buffer : List Nat)
    (c : Codec) : Option (List Nat) :=
  if le = nle then
    some (encLE 8 (w * buffer.length) ++ c.compress (encodeElems nle w buffer))
  else none

/-- `_write_buffer_from_iter` (serialize.rs:715): element-wise
`to_le_bytes`/`to_be_bytes` according to the requested endianness. -/
def _write_buffer_from_iter (w : Nat) (le : Bool) (buffer : List Nat) :
    List Nat :=
  if le then encodeElems true w buffer else encodeElems false w buffer

/-- `_write_compressed_buffer_from_iter` (serialize.rs:734): swaps into a
staging buffer, prefixes its length, compresses.  Defined for both
endiannesses. -/
def _write_compressed_buffer_from_iter (w : Nat) (le : Bool)
    (buffer : List Nat) (c : Codec) : List Nat :=
  encLE 8 (w * buffer.length) ++ c.compress (_write_buffer_from_iter w le buffer)

/-- `write_buffer` (serialize.rs:696). -/
def write_buffer (w : Nat) (nle le : Bool) (buffer : List Nat)
    (compression : Option Codec) (s : WriterState) : Option WriterState :=
  match compression with
  | some c =>
      match _write_compressed_buffer w nle le buffer c with
      | some payload => some (finishInto s payload)
      | none => none
  | none => some (finishInto s (_write_buffer w nle le buffer))

/-- `write_buffer_from_iter` (serialize.rs:796). -/
def write_buffer_from_iter (w : Nat) (le : Bool) (buffer : List Nat)
    (compression : Option Codec) (s : WriterState) : WriterState :=
  match compression with
  | some c => finishInto s (_write_compressed_buffer_from_iter w le buffer c)
  | none => finishInto s (_write_buffer_from_iter w le buffer)

/-! ## C4: alignment and buffer-table invariants -/

/-- A single buffer-producing write operation of serialize.rs. -/
inductive WriteOp where
  | opBuffer (w : Nat) (vals : List Nat)
  | opBufferIter (w : Nat) (vals : List Nat)
  | opBitmap (bitmap : Option (List Bool)) (length : Nat)
  | opBytes (bytes : List Nat)

def applyOp (nle le : Bool) (comp : Option Codec) (s : WriterState) :
    WriteOp → Option WriterState
  | .opBuffer w vals => write_buffer w nle le vals comp s
  | .opBufferIter w vals => some (write_buffer_from_iter w le vals comp s)
  | .opBitmap bitmap length => write_bitmap bitmap length comp s
  | .opBytes bytes => some (write_bytes bytes comp s)

def applyOps (nle le : Bool) (comp : Option Codec) (ops : List WriteOp)
    (s : WriterState) : Option WriterState :=
  match ops with
  | [] => some s
  | op :: rest =>
      match applyOp nle le comp s op with
      | some s' => applyOps nle le comp rest s'
      | none => none

/-- The unpadded payload size of one write operation, as the claim
describes it: the raw byte count when uncompressed, and the 8-byte
uncompressed-size prefix plus the codec payload when compressed; a missing
bitmap contributes nothing. -/
def unpaddedSize (nle le : Bool) (comp : Option Codec) : WriteOp → Nat
  | .opBuffer w vals =>
      match comp with
      | none => w * vals.length
      | some c => 8 + (c.compress (encodeElems nle w vals)).length
  | .opBufferIter w vals =>
      match comp with
      | none => w * vals.length
      | some c => 8 + (c.compress (encodeElems le w vals)).length
  | .opBitmap none _ => 0
  | .opBitmap (some bits) _ =>
      match comp with
      | none => (bits.length + 7) / 8
      | some c => 8 + (c.compress (bitsToBytes bits)).length
  | .opBytes bytes =>
      match comp with
      | none => bytes.length
      | some c => 8 + (c.compress bytes).length

theorem finishInto_data (s : WriterState) (payload : List Nat) :
    (finishInto s payload).arrow_data
      = s.arrow_data ++ payload ++ List.replicate (pad_to_8 payload.length) 0 := by
  simp [finishInto, finish_buffer, pad_buffer_to_8]

theorem finishInto_goal (s : WriterState) (payload : List Nat) (U : Nat)
    (hU : payload.length = U) :
    (finishInto s payload).buffers = s.buffers ++ [⟨s.offset, U⟩]
    ∧ (finishInto s payload).arrow_data.length
        = s.arrow_data.length + U + pad_to_8 U
    ∧ (finishInto s payload).offset = s.offset + U + pad_to_8 U
    ∧ (finishInto s payload).nodes = s.nodes := by
  subst hU
  refine ⟨?_, ?_, ?_, ?_⟩
  · simp [finishInto, finish_buffer, pad_buffer_to_8]
  · rw [finishInto_data]; simp; omega
  · simp [finishInto, finish_buffer, pad_buffer_to_8]; omega
  · rfl

theorem applyOp_char (nle le : Bool) (comp : Option Codec) (s : WriterState)
    (op : WriteOp) (s' : WriterState)
    (h : applyOp nle le comp s op = some s') :
    s'.buffers = s.buffers ++ [⟨s.offset, unpaddedSize nle le comp op⟩]
    ∧ s'.arrow_data.length
        = s.arrow_data.length + unpaddedSize nle le comp op
          + pad_to_8 (unpaddedSize nle le comp op)
    ∧ s'.offset
        = s.offset + unpaddedSize nle le comp op
          + pad_to_8 (unpaddedSize nle le comp op)
    ∧ s'.nodes = s.nodes := by
  cases op with
  | opBuffer w vals =>
      cases comp with
      | none =>
          simp only [applyOp, write_buffer, Option.some.injEq] at h
          subst h
          apply finishInto_goal
          unfold _write_buffer unpaddedSize
          by_cases hle : le = nle <;> simp [hle]
      | some c =>
          simp only [applyOp, write_buffer, _write_compressed_buffer] at h
          by_cases hle : le = nle
          · subst hle
            simp only [if_pos rfl, eq_self_iff_true, if_true,
              Option.some.injEq] at h
            subst h
            apply finishInto_goal
            simp [unpaddedSize]
          · simp [if_neg hle] at h
  | opBufferIter w vals =>
      simp only [applyOp, write_buffer_from_iter, Option.some.injEq] at h
      cases comp with
      | none =>
          subst h
          apply finishInto_goal
          unfold _write_buffer_from_iter unpaddedSize
          cases le <;> simp
      | some c =>
          subst h
          apply finishInto_goal
          unfold _write_compressed_buffer_from_iter _write_buffer_from_iter
            unpaddedSize
          cases le <;> simp
  | opBitmap bitmap length =>
      cases bitmap with
      | none =>
          simp only [applyOp, write_bitmap, Option.some.injEq] at h
          subst h
          refine ⟨rfl, ?_, ?_, rfl⟩ <;> simp [unpaddedSize, pad_to_8]
      | some bits =>
          simp only [applyOp, write_bitmap] at h
          by_cases hl : bits.length = length
          · simp only [if_pos hl, Option.some.injEq] at h
            subst h
            cases comp with
            | none =>
                apply finishInto_goal
                simp [unpaddedSize, bitsToBytes_length]
            | some c =>
                apply finishInto_goal
                simp [unpaddedSize]
          · simp [if_neg hl] at h
  | opBytes bytes =>
      simp only [applyOp, Option.some.injEq] at h
      subst h
      cases comp with
      | none =>
          apply finishInto_goal
          simp [unpaddedSize]
      | some c =>
          apply finishInto_goal
          simp [unpaddedSize]

/-- The alignment invariant maintained by every buffer write. -/
def WriterInv (s : WriterState) : Prop :=
  s.offset = s.arrow_data.length ∧ s.arrow_data.length % 8 = 0
    ∧ ∀ b ∈ s.buffers, b.offset % 8 = 0

theorem pad_to_8_total (n : Nat) : (n + pad_to_8 n) % 8 = 0 := by
  simp only [pad_to_8]; omega

theorem applyOp_inv (nle le : Bool) (comp : Option Codec) (s : WriterState)
    (op : WriteOp) (s' : WriterState)
    (h : applyOp nle le comp s op = some s') (hinv : WriterInv s) :
    WriterInv s' := by
  obtain ⟨hb, hd, ho, _⟩ := applyOp_char nle le comp s op s' h
  obtain ⟨h1, h2, h3⟩ := hinv
  refine ⟨by rw [ho, hd, h1], ?_, ?_⟩
  · rw [hd]
    have := pad_to_8_total (unpaddedSize nle le comp op)
    omega
  · intro b hbmem
    rw [hb] at hbmem
    rcases List.mem_append.1 hbmem with hmem | hmem
    · exact h3 b hmem
    · simp at hmem
      subst hmem
      simp only [h1]
      exact h2

theorem applyOps_inv (nle le : Bool) (comp : Option Codec) (ops : List WriteOp)
    (s s' : WriterState)
    (h : applyOps nle le comp ops s = some s') (hinv : WriterInv s) :
    WriterInv s' := by
  induction ops generalizing s with
  | nil => simp only [applyOps, Option.some.injEq] at h; rwa [← h]
  | cons op rest ih =>
      simp only [applyOps] at h
      cases hstep : applyOp nle le comp s op with
      | none => rw [hstep] at h; cases h
      | some s1 =>
          rw [hstep] at h
          exact ih s1 h (applyOp_inv nle le comp s op s1 hstep hinv)

theorem emptyWriter_inv : WriterInv emptyWriter := by
  refine ⟨rfl, rfl, ?_⟩
  intro b hb
  cases hb

/-- **C4** (confirmed).  For every sequence of buffer, bitmap or bytes
writes starting from an empty body, and every further write `op`: the body
length stays a multiple of 8 after each write; every `Buffer` record is
pushed at an 8-aligned offset with `length` equal to the unpadded payload
size (under compression, the 8-byte uncompressed-size prefix plus the
codec payload, excluding pad bytes); and the running offset advances by
the padded size (`pad_to_8` is modelled from the spec, §4.1 step 4, as
`write/common.rs` is not among the provided sources). -/
theorem c4_buffer_write_alignment (nle le : Bool) (comp : Option Codec)
    (ops : List WriteOp) (op : WriteOp) (s s' : WriterState)
    (h1 : applyOps nle le comp ops emptyWriter = some s)
    (h2 : applyOp nle le comp s op = some s') :
    s'.arrow_data.length % 8 = 0
    ∧ s'.offset = s'.arrow_data.length
    ∧ (∀ b ∈ s'.buffers, b.offset % 8 = 0)
    ∧ s'.buffers = s.buffers ++ [⟨s.offset, unpaddedSize nle le comp op⟩]
    ∧ s'.arrow_data.length
        = s.arrow_data.length + unpaddedSize nle le comp op
          + pad_to_8 (unpaddedSize nle le comp op)
    ∧ s'.offset
        = s.offset + unpaddedSize nle le comp op
          + pad_to_8 (unpaddedSize nle le comp op) := by
  have hinv : WriterInv s := applyOps_inv nle le comp ops emptyWriter s h1
    emptyWriter_inv
  have hinv' : WriterInv s' := applyOp_inv nle le comp s op s' h2 hinv
  obtain ⟨hb, hd, ho, _⟩ := applyOp_char nle le comp s op s' h2
  exact ⟨hinv'.2.1, hinv'.1, hinv'.2.2, hb, hd, ho⟩

/-- Witness for C4 at a concrete input: one bitmap write then a bytes
write, uncompressed. -/
theorem c4_buffer_write_alignment_witness :
    (applyOps true true none [.opBitmap (some [true, false, true]) 3]
        emptyWriter = some ⟨[⟨0, 1⟩], [5, 0, 0, 0, 0, 0, 0, 0], [], 8⟩)
    ∧ ((⟨[⟨0, 1⟩], [5, 0, 0, 0, 0, 0, 0, 0, 1, 2, 3, 0, 0, 0, 0, 0],
          [], 16⟩ : WriterState).arrow_data.length % 8 = 0) := by
  have h1 : applyOps true true none [.opBitmap (some [true, false, true]) 3]
      emptyWriter = some ⟨[⟨0, 1⟩], [5, 0, 0, 0, 0, 0, 0, 0], [], 8⟩ := by
    simp [applyOps, applyOp, write_bitmap, write_bytes, finishInto,
      finish_buffer, pad_buffer_to_8, pad_to_8, bitsToBytes_cons, byteOfBits,
      emptyWriter]
  have h2 : applyOp true true none
      (⟨[⟨0, 1⟩], [5, 0, 0, 0, 0, 0, 0, 0], [], 8⟩ : WriterState)
      (.opBytes [1, 2, 3])
      = some ⟨[⟨0, 1⟩, ⟨8, 3⟩], [5, 0, 0, 0, 0, 0, 0, 0, 1, 2, 3, 0, 0, 0, 0, 0],
          [], 16⟩ := by
    simp [applyOp, write_bytes, finishInto, finish_buffer, pad_buffer_to_8,
      pad_to_8]
  exact ⟨h1, (c4_buffer_write_alignment true true none _ _ _ _ h1 h2).1⟩

/-! ## C7: compressed big-endian buffer writes -/

/-- The identity codec: a concrete `compress`/`decompress` pair. -/
def identityCodec : Codec := ⟨fun x => x, fun x => x⟩

/-- **C7 counterexample.**  The claim states that a typed-buffer write with
a compression codec and a requested endianness different from the native
one reports `NotYetImplemented` as a returned `Result` value.  In the
source, `_write_compressed_buffer` (serialize.rs:772-792) has no error
channel at all (it returns `()`), and the non-native branch is `todo!()`,
i.e. a panic — modelled as `none`.  At the concrete input below the write
therefore produces no value (and a fortiori no `NotYetImplemented`
`Result`): it panics. -/
theorem c7_counterexample :
    write_buffer 4 true false [5] (some identityCodec) emptyWriter = none
    ∧ _write_compressed_buffer 4 true false [5] identityCodec = none := by
  constructor
  · simp [write_buffer, _write_compressed_buffer]
  · simp [_write_compressed_buffer]

/-- **C7** (corrected).  For every typed-buffer write with a compression
codec configured and a requested endianness different from the native
endianness, the write panics (`todo!()`, modelled as `none`) instead of
returning: no state and no error value is produced. -/
theorem c7_compressed_nonnative_panics (w : Nat) (nle le : Bool)
    (buffer : List Nat) (c : Codec) (s : WriterState) (h : le ≠ nle) :
    write_buffer w nle le buffer (some c) s = none
    ∧ _write_compressed_buffer w nle le buffer c = none := by
  have hcb : _write_compressed_buffer w nle le buffer c = none := by
    simp [_write_compressed_buffer, h]
  exact ⟨by simp [write_buffer, hcb], hcb⟩

/-- Witness for C7 at a concrete input. -/
theorem c7_compressed_nonnative_panics_witness :
    write_buffer 8 false true [1, 2] (some identityCodec) emptyWriter = none := by
  exact (c7_compressed_nonnative_panics 8 false true [1, 2] identityCodec
    emptyWriter (by simp)).1

/-! ## Parquet nested reassembly (`nested_utils.rs`)

The `Nested` trait objects (`NestedPrimitive`, `NestedOptional`,
`NestedValid`, `NestedStruct`, `NestedStructValid`) become one inductive;
`MutableBitmap` is a list of bits and offset vectors are `Int` lists
(`i64`).  The `as usize` cast in `num_values` wraps an `i64` modulo
`2^64`. -/

inductive NestedL where
  | primitive (is_nullable : Bool) (length : Nat)
  | optional (validity : List Bool) (offsets : List Int)
  | valid (offsets : List Int)
  | structNullable (validity : List Bool)
  | structValid (length : Nat)
  deriving DecidableEq, Repr

namespace NestedL

/-- `Nested::push`. -/
def push : NestedL → Int → Bool → NestedL
  | primitive n l, _, _ => primitive n (l + 1)
  | optional v o, value, is_valid => optional (v ++ [is_valid]) (o ++ [value])
  | valid o, value, _ => valid (o ++ [value])
  | structNullable v, _, is_valid => structNullable (v ++ [is_valid])
  | structValid l, _, _ => structValid (l + 1)

/-- `Nested::len`. -/
def len : NestedL → Nat
  | primitive _ l => l
  | optional _ o => o.length
  | valid o => o.length
  | structNullable v => v.length
  | structValid l => l

/-- `Nested::is_nullable` (note: `NestedStruct` returns `false` in the
source even though it tracks a validity bitmap). -/
def is_nullable : NestedL → Bool
  | primitive n _ => n
  | optional _ _ => true
  | valid _ => false
  | structNullable _ => false
  | structValid _ => false

/-- `offsets.last().copied().unwrap_or(0) as usize`: the cast of an `i64`
to `usize` wraps modulo `2^64`. -/
def lastOffsetAsUsize (o : List Int) : Nat :=
  ((o.getLast?.getD 0).emod (2 ^ 64)).toNat

/-- `Nested::num_values`. -/
def num_values : NestedL → Nat
  | primitive _ l => l
  | optional _ o => lastOffsetAsUsize o
  | valid o => lastOffsetAsUsize o
  | structNullable v => v.length
  | structValid l => l

end NestedL

/-! ### C10: `NestedOptional` / `NestedValid` invariants -/

/-- The offsets vector of a list-shaped layer (empty for the others). -/
def nestedOffsets : NestedL → List Int
  | .optional _ o => o
  | .valid o => o
  | _ => []

/-- The validity bitmap of a bitmap-carrying layer (empty for the
others). -/
def nestedValidity : NestedL → List Bool
  | .optional v _ => v
  | .structNullable v => v
  | _ => []

theorem foldl_push_optional (ps : List (Int × Bool)) (v : List Bool)
    (o : List Int) :
    ps.foldl (fun n p => n.push p.1 p.2) (NestedL.optional v o)
      = NestedL.optional (v ++ ps.map Prod.snd) (o ++ ps.map Prod.fst) := by
  induction ps generalizing v o with
  | nil => simp
  | cons p rest ih =>
      rw [List.foldl_cons,
        show (NestedL.optional v o).push p.1 p.2
          = NestedL.optional (v ++ [p.2]) (o ++ [p.1]) from rfl, ih]
      simp

theorem foldl_push_valid (ps : List (Int × Bool)) (o : List Int) :
    ps.foldl (fun n p => n.push p.1 p.2) (NestedL.valid o)
      = NestedL.valid (o ++ ps.map Prod.fst) := by
  induction ps generalizing o with
  | nil => simp
  | cons p rest ih =>
      rw [List.foldl_cons,
        show (NestedL.valid o).push p.1 p.2
          = NestedL.valid (o ++ [p.1]) from rfl, ih]
      simp

theorem lastOffsetAsUsize_char (ps : List (Int × Bool))
    (h : ∀ p ∈ ps, 0 ≤ p.1 ∧ p.1 < 2 ^ 64) :
    NestedL.lastOffsetAsUsize (ps.map Prod.fst)
      = (ps.getLast?.map (fun p => p.1.toNat)).getD 0 := by
  cases hl : ps.getLast? with
  | none =>
      have : ps = [] := List.getLast?_eq_none_iff.mp hl
      subst this
      simp only [List.map_nil, NestedL.lastOffsetAsUsize, List.getLast?_nil,
        Option.getD_none, Option.map_none', Option.getD]
      norm_num
  | some p =>
      have hmem : p ∈ ps := List.mem_of_getLast?_eq_some hl
      obtain ⟨h0, h1⟩ := h p hmem
      have hmap : (ps.map Prod.fst).getLast? = some p.1 := by
        rw [List.getLast?_map, hl]; rfl
      simp only [NestedL.lastOffsetAsUsize, hmap, Option.getD_some,
        Option.map_some', Option.getD]
      rw [show p.1.emod (2 ^ 64) = p.1 from Int.emod_eq_of_lt h0
        (by norm_num at h1 ⊢; exact h1)]

/-- **C10** (confirmed).  Every `NestedOptional` layer keeps
`offsets.len() == validity.len()` after every sequence of pushes, and for
`NestedOptional` and `NestedValid` layers `num_values()` is the most
recently pushed offset (as `usize`), or `0` when nothing was pushed.  The
hypothesis restricts pushed offsets to the non-negative `i64` values that
the reassembly engine actually pushes (`nest.len() as i64`), for which the
`as usize` cast is the identity. -/
theorem c10_nested_layer_invariants (ps : List (Int × Bool))
    (h : ∀ p ∈ ps, 0 ≤ p.1 ∧ p.1 < 2 ^ 64) :
    (nestedOffsets (ps.foldl (fun n p => n.push p.1 p.2)
          (NestedL.optional [] []))).length
      = (nestedValidity (ps.foldl (fun n p => n.push p.1 p.2)
          (NestedL.optional [] []))).length
    ∧ (ps.foldl (fun n p => n.push p.1 p.2)
          (NestedL.optional [] [])).num_values
        = (ps.getLast?.map (fun p => p.1.toNat)).getD 0
    ∧ (ps.foldl (fun n p => n.push p.1 p.2)
          (NestedL.valid [])).num_values
        = (ps.getLast?.map (fun p => p.1.toNat)).getD 0 := by
  rw [foldl_push_optional, foldl_push_valid]
  refine ⟨by simp [nestedOffsets, nestedValidity], ?_, ?_⟩ <;>
    simpa [NestedL.num_values] using lastOffsetAsUsize_char ps h

/-- Witness for C10 at a concrete push sequence. -/
theorem c10_nested_layer_invariants_witness :
    ((0 : Int), true) ∈ ([((0 : Int), true), ((2 : Int), false)]) ∧
    (nestedOffsets ([((0 : Int), true), ((2 : Int), false)].foldl
        (fun n p => n.push p.1 p.2) (NestedL.optional [] []))).length
      = (nestedValidity ([((0 : Int), true), ((2 : Int), false)].foldl
          (fun n p => n.push p.1 p.2) (NestedL.optional [] []))).length := by
  refine ⟨by decide, ?_⟩
  exact (c10_nested_layer_invariants [((0 : Int), true), ((2 : Int), false)]
    (by decide)).1

/-! ### `extend_offsets2` (nested_utils.rs:402-441) -/

/-- The `values_count` vector: `values_count[depth - 1] = nested[depth].len()`
for `depth ≥ 1`, and `values_count[n - 1] = nested[n - 1].len()` (recomputed
from the current layers before each pair and after each push). -/
def valuesCount (nested : List NestedL) : List Int :=
  (List.range nested.length).map fun i =>
    if i + 1 < nested.length then ((nested.getD (i + 1) (.valid [])).len : Int)
    else ((nested.getD i (.valid [])).len : Int)

/-- The `cum_sum` vector built by the source's loop:
`cum_sum[0] = 0`, `cum_sum[i+1] = cum_sum[i] + (2 if nullable else 1)`. -/
def cumSumVec (nested : List NestedL) : List Nat :=
  nested.foldl
    (fun acc nest =>
      acc ++ [acc.getLast?.getD 0 + (if nest.is_nullable then 2 else 1)])
    [0]

/-- The body of the per-pair loop over depths
(`for (depth, (nest, length)) in nested.iter_mut().zip(values_count.iter()).enumerate()`):
push into layer `depth` iff `depth ≥ rep && def ≥ cum_sum[depth]`, with
`is_valid = nest.is_nullable() && def != cum_sum[depth]`. -/
def pushStep (cum : List Nat) (vc : List Int) (rep dl : Nat)
    (nested : List NestedL) : List NestedL :=
  ((nested.zip vc).enum).map fun pr =>
    if rep ≤ pr.1 ∧ cum.getD pr.1 0 ≤ dl then
      pr.2.1.push pr.2.2 (pr.2.1.is_nullable && (dl != cum.getD pr.1 0))
    else pr.2.1

/-- The `while let Some((rep, def))` loop of `extend_offsets2`, returning
the final layers and the unconsumed pairs.  `cum_sum` is computed once
before the loop; `values_count` is recomputed from the current layers for
each pair. -/
def extendLoop (cum : List Nat) :
    List (Nat × Nat) → List NestedL → Nat → Nat → List NestedL × List (Nat × Nat)
  | [], nested, _, _ => (nested, [])
  | (rep, dl) :: rest, nested, rows, additional =>
    let rows2 := if rep = 0 then rows + 1 else rows
    let nested2 := pushStep cum (valuesCount nested) rep dl nested
    let next_rep := (rest.head?.map Prod.fst).getD 0
    if next_rep = 0 ∧ rows2 = additional + 1 then (nested2, rest)
    else extendLoop cum rest nested2 rows2 additional

/-- `extend_offsets2` (nested_utils.rs:402). -/
def extend_offsets2 (page : List (Nat × Nat)) (nested : List NestedL)
    (additional : Nat) : List NestedL × List (Nat × Nat) :=
  extendLoop (cumSumVec nested) page nested 0 additional

/-- The claim's description of `cum_sum[d]`: the running sum over the
first `d` layers of `+2` per nullable level else `+1`. -/
def cumSumSpec : List NestedL → Nat → Nat
  | _, 0 => 0
  | [], _ + 1 => 0
  | nest :: rest, d + 1 =>
      (if nest.is_nullable then 2 else 1) + cumSumSpec rest d

/-- Partial sums of the per-layer deltas starting from `x`. -/
def deltaSums (x : Nat) : List NestedL → List Nat
  | [] => []
  | nest :: rest =>
      (x + (if nest.is_nullable then 2 else 1))
        :: deltaSums (x + (if nest.is_nullable then 2 else 1)) rest

theorem cumSum_foldl (nested : List NestedL) (acc : List Nat) (x : Nat)
    (hx : acc.getLast? = some x) :
    nested.foldl
        (fun acc nest =>
          acc ++ [acc.getLast?.getD 0 + (if nest.is_nullable then 2 else 1)])
        acc
      = acc ++ deltaSums x nested := by
  induction nested generalizing acc x with
  | nil => simp [deltaSums]
  | cons nest rest ih =>
      rw [List.foldl_cons]
      have hx2 : (acc ++ [acc.getLast?.getD 0
          + (if nest.is_nullable then 2 else 1)]).getLast?
          = some (x + (if nest.is_nullable then 2 else 1)) := by
        simp [hx]
      rw [ih _ _ hx2, deltaSums]
      simp [hx]

theorem deltaSums_eq_map (x : Nat) (nested : List NestedL) :
    deltaSums x nested
      = (List.range nested.length).map (fun i => x + cumSumSpec nested (i + 1)) := by
  induction nested generalizing x with
  | nil => simp [deltaSums]
  | cons nest rest ih =>
      rw [deltaSums, ih]
      rw [List.length_cons, List.range_succ_eq_map]
      simp only [List.map_cons, List.map_map]
      refine List.cons_eq_cons.mpr ⟨by simp [cumSumSpec], ?_⟩
      apply List.map_congr_left
      intro i _
      simp only [Function.comp_apply, cumSumSpec, Nat.succ_eq_add_one]
      omega

theorem cumSumVec_getD (nested : List NestedL) (d : Nat)
    (hd : d ≤ nested.length) :
    (cumSumVec nested).getD d 0 = cumSumSpec nested d := by
  unfold cumSumVec
  rw [cumSum_foldl nested [0] 0 rfl, deltaSums_eq_map]
  cases d with
  | zero => simp [cumSumSpec]
  | succ d =>
      have hd2 : d < nested.length := by omega
      rw [List.getD_eq_getElem?_getD]
      rw [List.getElem?_append_right
        (by simp : ([(0 : Nat)]).length ≤ d + 1)]
      simp only [List.length_singleton, Nat.add_sub_cancel]
      rw [List.getElem?_map, List.getElem?_range hd2]
      simp

theorem pushStep_length (cum : List Nat) (vc : List Int) (rep dl : Nat)
    (nested : List NestedL) (hv : vc.length = nested.length) :
    (pushStep cum vc rep dl nested).length = nested.length := by
  simp [pushStep, hv]

theorem pushStep_getD (cum : List Nat) (vc : List Int) (rep dl : Nat)
    (nested : List NestedL) (d : Nat) (dflt : NestedL)
    (hd : d < nested.length) (hv : vc.length = nested.length) :
    (pushStep cum vc rep dl nested).getD d dflt
      = if rep ≤ d ∧ cum.getD d 0 ≤ dl then
          (nested.getD d dflt).push (vc.getD d 0)
            ((nested.getD d dflt).is_nullable && (dl != cum.getD d 0))
        else nested.getD d dflt := by
  have hzl : (nested.zip vc).length = nested.length := by simp [hv]
  have hel : ((nested.zip vc).enum).length = nested.length := by simp [hzl]
  have hd2 : d < (pushStep cum vc rep dl nested).length := by
    rw [pushStep_length _ _ _ _ _ hv]; exact hd
  have hdz : d < (nested.zip vc).length := by rw [hzl]; exact hd
  have hde : d < ((nested.zip vc).enum).length := by rw [hel]; exact hd
  have hn : nested.getD d dflt = nested.get ⟨d, hd⟩ := by
    rw [List.getD_eq_getElem?_getD, List.getElem?_eq_getElem hd]; rfl
  have hvd : vc.getD d 0 = vc.get ⟨d, by rw [hv]; exact hd⟩ := by
    rw [List.getD_eq_getElem?_getD, List.getElem?_eq_getElem (by rw [hv]; exact hd)]
    rfl
  rw [List.getD_eq_getElem?_getD, List.getElem?_eq_getElem hd2]
  show ((((nested.zip vc).enum).map _).get ⟨d, hd2⟩) = _
  rw [List.get_eq_getElem, List.getElem_map, List.getElem_enum,
    List.getElem_zip]
  simp only [hn, hvd]
  rfl

/-- **C3** (confirmed).  During nested reassembly, for every `(rep, def)`
pair and every schema depth `d`: an entry is pushed into layer `d` iff
`d ≥ rep` and `def ≥ cum_sum[d]`, where `cum_sum` is the running sum of
`+2` per nullable level else `+1` (`cumSumSpec`); the pushed length is the
current value-count snapshot of the child layer (`nested[d+1].len()`, and
the layer's own length at the leaf); and the pushed validity bit is
`is_nullable && def != cum_sum[d]`. -/
theorem c3_reassembly_push_rule (nested : List NestedL) (rep dl d : Nat)
    (dflt : NestedL) (hd : d < nested.length) :
    (cumSumVec nested).getD d 0 = cumSumSpec nested d
    ∧ (pushStep (cumSumVec nested) (valuesCount nested) rep dl nested).getD d dflt
        = if rep ≤ d ∧ cumSumSpec nested d ≤ dl then
            (nested.getD d dflt).push
              (if d + 1 < nested.length
               then ((nested.getD (d + 1) (.valid [])).len : Int)
               else ((nested.getD d (.valid [])).len : Int))
              ((nested.getD d dflt).is_nullable && (dl != cumSumSpec nested d))
          else nested.getD d dflt := by
  have hcs : (cumSumVec nested).getD d 0 = cumSumSpec nested d :=
    cumSumVec_getD nested d (Nat.le_of_lt hd)
  refine ⟨hcs, ?_⟩
  have hv : (valuesCount nested).length = nested.length := by simp [valuesCount]
  rw [pushStep_getD _ _ _ _ _ _ _ hd hv, hcs]
  have hvc : (valuesCount nested).getD d 0
      = (if d + 1 < nested.length
         then ((nested.getD (d + 1) (.valid [])).len : Int)
         else ((nested.getD d (.valid [])).len : Int)) := by
    unfold valuesCount
    rw [List.getD_eq_getElem?_getD,
      List.getElem?_eq_getElem (by simp; exact hd)]
    simp
  rw [hvc]

/-- Witness for C3 at a concrete state and pair. -/
theorem c3_reassembly_push_rule_witness :
    (0 : Nat) < ([NestedL.optional [] [], NestedL.primitive true 0]).length
    ∧ (pushStep (cumSumVec [NestedL.optional [] [], NestedL.primitive true 0])
        (valuesCount [NestedL.optional [] [], NestedL.primitive true 0])
        0 3 [NestedL.optional [] [], NestedL.primitive true 0]).getD 0
          (.valid [])
      = (NestedL.optional [] []).push 0 true := by
  refine ⟨by decide, ?_⟩
  have h := (c3_reassembly_push_rule
    [NestedL.optional [] [], NestedL.primitive true 0] 0 3 0 (.valid [])
    (by decide)).2
  rw [h]
  decide

/-! ### C8: leaf `num_values` after reassembly -/

theorem pushStep_getLastPrim (cum : List Nat) (vc : List Int) (rep dl : Nat)
    (nested : List NestedL) (b : Bool) (l : Nat)
    (hv : vc.length = nested.length)
    (hlast : nested.getLast? = some (.primitive b l)) :
    (pushStep cum vc rep dl nested).getLast?
      = some (.primitive b
          (if rep ≤ nested.length - 1 ∧ cum.getD (nested.length - 1) 0 ≤ dl
           then l + 1 else l)) := by
  have hne : nested ≠ [] := by
    intro h; rw [h] at hlast; cases hlast
  have hpos : 0 < nested.length := List.length_pos.mpr hne
  have hd : nested.length - 1 < nested.length := by omega
  have hgl : nested.getD (nested.length - 1) (.valid []) = .primitive b l := by
    rw [List.getD_eq_getElem?_getD, ← List.getLast?_eq_getElem?, hlast]; rfl
  have hlen : (pushStep cum vc rep dl nested).length = nested.length :=
    pushStep_length _ _ _ _ _ hv
  have hx : nested.length - 1 < (pushStep cum vc rep dl nested).length := by
    omega
  have h1 : (pushStep cum vc rep dl nested).getLast?
      = (pushStep cum vc rep dl nested)[nested.length - 1]? := by
    rw [List.getLast?_eq_getElem?, hlen]
  have h2 : (pushStep cum vc rep dl nested)[nested.length - 1]?
      = some ((pushStep cum vc rep dl nested).getD (nested.length - 1)
          (.valid [])) := by
    rw [List.getD_eq_getElem?_getD, List.getElem?_eq_getElem hx]
    rfl
  rw [h1, h2, pushStep_getD cum vc rep dl nested (nested.length - 1)
    (.valid []) hd hv, hgl]
  by_cases hc : rep ≤ nested.length - 1 ∧ cum.getD (nested.length - 1) 0 ≤ dl
  · simp only [if_pos hc]
    rfl
  · simp only [if_neg hc]

/-- The predicate under which the leaf layer receives a slot for the pair
`(rep, def)`: `rep ≤ leaf depth` and `def ≥ cum_sum[leaf depth]`. -/
def leafHit (n : Nat) (cum : List Nat) (p : Nat × Nat) : Bool :=
  decide (p.1 ≤ n - 1) && decide (cum.getD (n - 1) 0 ≤ p.2)

theorem extendLoop_leaf (cum : List Nat) (pairs : List (Nat × Nat))
    (nested : List NestedL) (rows additional : Nat) (b : Bool) (l : Nat)
    (hlast : nested.getLast? = some (.primitive b l)) :
    ∃ consumed,
      pairs = consumed ++ (extendLoop cum pairs nested rows additional).2
      ∧ (extendLoop cum pairs nested rows additional).1.getLast?
          = some (.primitive b
              (l + (consumed.filter (leafHit nested.length cum)).length)) := by
  induction pairs generalizing nested rows l with
  | nil =>
      exact ⟨[], by simp [extendLoop], by simpa [extendLoop] using hlast⟩
  | cons p rest ih =>
      obtain ⟨rep, dl⟩ := p
      have hv : (valuesCount nested).length = nested.length := by
        simp [valuesCount]
      have hstep := pushStep_getLastPrim cum (valuesCount nested) rep dl nested
        b l hv hlast
      have hlen : (pushStep cum (valuesCount nested) rep dl nested).length
          = nested.length := pushStep_length _ _ _ _ _ hv
      rw [extendLoop]
      set rows2 := if rep = 0 then rows + 1 else rows with hrows
      set nested2 := pushStep cum (valuesCount nested) rep dl nested with hn2
      set next_rep := (rest.head?.map Prod.fst).getD 0 with hnr
      have hiff : (rep ≤ nested.length - 1
            ∧ cum.getD (nested.length - 1) 0 ≤ dl)
          ↔ leafHit nested.length cum (rep, dl) = true := by
        simp [leafHit]
      by_cases hbr : next_rep = 0 ∧ rows2 = additional + 1
      · refine ⟨[(rep, dl)], by simp [hbr], ?_⟩
        simp only [if_pos hbr]
        rw [hstep]
        by_cases hc : rep ≤ nested.length - 1
            ∧ cum.getD (nested.length - 1) 0 ≤ dl
        · rw [if_pos hc]
          simp [List.filter_cons, hiff.mp hc]
        · rw [if_neg hc]
          have hnh : ¬(leafHit nested.length cum (rep, dl) = true) :=
            fun hx => hc (hiff.mpr hx)
          simp [List.filter_cons, hnh]
      · by_cases hc : rep ≤ nested.length - 1
            ∧ cum.getD (nested.length - 1) 0 ≤ dl
        · have hstep2 : nested2.getLast?
              = some (NestedL.primitive b (l + 1)) := by
            rw [hstep, if_pos hc]
          obtain ⟨consumed, hc1, hc2⟩ := ih nested2 rows2 (l + 1) hstep2
          rw [hlen] at hc2
          refine ⟨(rep, dl) :: consumed, ?_, ?_⟩
          · simp only [if_neg hbr]
            rw [List.cons_append, ← hc1]
          · simp only [if_neg hbr]
            rw [hc2, List.filter_cons, if_pos (hiff.mp hc)]
            simp only [List.length_cons, Option.some.injEq,
              NestedL.primitive.injEq]
            exact ⟨trivial, by omega⟩
        · have hstep2 : nested2.getLast? = some (NestedL.primitive b l) := by
            rw [hstep, if_neg hc]
          obtain ⟨consumed, hc1, hc2⟩ := ih nested2 rows2 l hstep2
          rw [hlen] at hc2
          refine ⟨(rep, dl) :: consumed, ?_, ?_⟩
          · simp only [if_neg hbr]
            rw [List.cons_append, ← hc1]
          · simp only [if_neg hbr]
            have hnh : ¬(leafHit nested.length cum (rep, dl) = true) :=
              fun hx => hc (hiff.mpr hx)
            rw [hc2, List.filter_cons, if_neg hnh]

/-- **C8 counterexample.**  Schema: nullable list of nullable primitive
(`list<item?>?`), so `cum_sum = [0, 2, 4]`, max repetition level 1 and
max definition level 3.  The stripe `[(0,3), (1,2)]` encodes one row
`[v, null]`: the pair `(1, 2)` has `def = 2 = max_def - 1` (a null leaf
slot), which still pushes into the leaf layer because
`def ≥ cum_sum[1] = 2`.  The leaf's `num_values` is therefore `2`, while
only one pair has `def = max_def = 3` — refuting the claim that
`num_values` equals the number of pairs whose definition level equals
`max_def`. -/
theorem c8_counterexample :
    ((extend_offsets2 [(0, 3), (1, 2)]
        [.optional [] [], .primitive true 0] 10).1.getLast?.map
          NestedL.num_values) = some 2
    ∧ (([((0 : Nat), (3 : Nat)), (1, 2)]).filter
        (fun p => p.2 == 3)).length = 1
    ∧ (2 : Nat) ≠ 1 := by decide

/-- **C8** (corrected).  After `extend_offsets2`, the leaf layer's
`num_values` equals its previous length plus the number of *consumed*
`(rep, def)` pairs with `rep ≤ leaf depth` and `def ≥ cum_sum[leaf depth]`
— i.e. the pairs whose definition level is `max_def` or, when the leaf is
nullable, `max_def - 1` (null leaf slots also occupy a leaf slot); the
unconsumed suffix of the page is returned untouched. -/
theorem c8_leaf_num_values (page : List (Nat × Nat)) (nested : List NestedL)
    (additional : Nat) (b : Bool) (l : Nat)
    (hlast : nested.getLast? = some (.primitive b l)) :
    ∃ consumed,
      page = consumed ++ (extend_offsets2 page nested additional).2
      ∧ ((extend_offsets2 page nested additional).1.getLast?.map
            NestedL.num_values)
          = some (l + (consumed.filter
              (leafHit nested.length (cumSumVec nested))).length) := by
  obtain ⟨consumed, h1, h2⟩ := extendLoop_leaf (cumSumVec nested) page nested
    0 additional b l hlast
  exact ⟨consumed, h1, by rw [show extend_offsets2 page nested additional
    = extendLoop (cumSumVec nested) page nested 0 additional from rfl, h2]; rfl⟩

/-- Witness for C8's amended statement at the counterexample input. -/
theorem c8_leaf_num_values_witness :
    ∃ consumed,
      ([((0 : Nat), (3 : Nat)), (1, 2)] : List (Nat × Nat))
          = consumed ++ (extend_offsets2 [(0, 3), (1, 2)]
              [.optional [] [], .primitive true 0] 10).2
      ∧ ((extend_offsets2 [(0, 3), (1, 2)]
            [.optional [] [], .primitive true 0] 10).1.getLast?.map
              NestedL.num_values)
          = some (0 + (consumed.filter
              (leafHit ([NestedL.optional [] [],
                  NestedL.primitive true 0]).length
                (cumSumVec [NestedL.optional [] [],
                  NestedL.primitive true 0]))).length) :=
  c8_leaf_num_values [(0, 3), (1, 2)] [.optional [] [], .primitive true 0]
    10 true 0 (by decide)

/-! ### C2: `read_optional_values` (nested_utils.rs:206-233) -/

/-- `read_optional_values`.  `new_values.next().unwrap()` on an exhausted
iterator and the `remaining -= 1` underflow are Rust panics, modelled as
`none` (neither is reachable from the library's call sites). -/
def read_optional_values {α : Type} [Inhabited α] :
    List Nat → Nat → List α → List α → List Bool → Nat →
    Option (List α × List Bool × Nat)
  | [], _, _, values, validity, remaining => some (values, validity, remaining)
  | d :: rest, max_def, new_values, values, validity, remaining =>
    if d = max_def then
      match new_values with
      | [] => none
      | v :: vs =>
        if remaining = 0 then none
        else if remaining - 1 = 0 then
          some (values ++ [v], validity ++ [true], 0)
        else
          read_optional_values rest max_def vs (values ++ [v])
            (validity ++ [true]) (remaining - 1)
    else if d = max_def - 1 then
      if remaining = 0 then none
      else if remaining - 1 = 0 then
        some (values ++ [default], validity ++ [false], 0)
      else
        read_optional_values rest max_def new_values (values ++ [default])
          (validity ++ [false]) (remaining - 1)
    else
      if remaining = 0 then some (values, validity, remaining)
      else read_optional_values rest max_def new_values values validity remaining

/-- **C2 counterexample.**  With `max_def = 2` the definition level `0` is
strictly below `max_def`, yet `read_optional_values` appends *nothing*
(no default value, no validity bit): the source only pushes a null slot
when `def == max_def - 1`.  The claim that "every level strictly below
max_def appends one default (null) slot with a false validity bit" is
false at this input. -/
theorem c2_counterexample :
    read_optional_values (α := Nat) [0] 2 [] [] [] 5 = some ([], [], 5) := by
  decide

/-- The amended claim's slot production, stated as its own definition for
comparison with the source function: a level equal to `max_def` consumes
one value from the values iterator and emits a `true` validity bit; a
level equal to `max_def - 1` emits one default (null) slot with a `false`
bit; any lower level emits nothing and consumes nothing. -/
def optionalSlotsSpec {α : Type} [Inhabited α] (max_def : Nat) :
    List Nat → List α → Option (List α × List Bool)
  | [], _ => some ([], [])
  | d :: rest, vs =>
    if d = max_def then
      match vs with
      | [] => none
      | v :: vs2 =>
          (optionalSlotsSpec max_def rest vs2).map
            (fun r => (v :: r.1, true :: r.2))
    else if d = max_def - 1 then
      (optionalSlotsSpec max_def rest vs).map
        (fun r => ((default : α) :: r.1, false :: r.2))
    else optionalSlotsSpec max_def rest vs

/-- Number of slot-producing definition levels (`max_def` or
`max_def - 1`). -/
def slotCount (max_def : Nat) (defs : List Nat) : Nat :=
  (defs.filter (fun d => (d == max_def) || (d == max_def - 1))).length

/-- **C2** (corrected).  A definition level equal to `max_def` appends one
value taken from the values iterator with a `true` validity bit; a level
equal to `max_def - 1` appends one default (null) slot with a `false`
bit; levels strictly below `max_def - 1` append nothing (their nulls
belong to outer nesting levels); and the values iterator advances only on
levels equal to `max_def`.  `remaining` decreases by one per appended
slot. -/
theorem rov_present {α : Type} [Inhabited α] (rest : List Nat)
    (max_def : Nat) (v : α) (vs values : List α) (validity : List Bool)
    (remaining : Nat) (h0 : remaining ≠ 0) (h1 : remaining - 1 ≠ 0) :
    read_optional_values (max_def :: rest) max_def (v :: vs) values validity
        remaining
      = read_optional_values rest max_def vs (values ++ [v])
          (validity ++ [true]) (remaining - 1) := by
  rw [read_optional_values.eq_def]
  simp [h0, h1]

theorem rov_null {α : Type} [Inhabited α] (rest : List Nat) (max_def : Nat)
    (vs values : List α) (validity : List Bool) (remaining : Nat)
    (hne : max_def - 1 ≠ max_def) (h0 : remaining ≠ 0)
    (h1 : remaining - 1 ≠ 0) :
    read_optional_values ((max_def - 1) :: rest) max_def vs values validity
        remaining
      = read_optional_values rest max_def vs (values ++ [(default : α)])
          (validity ++ [false]) (remaining - 1) := by
  rw [read_optional_values.eq_def]
  simp [hne, h0, h1]

theorem rov_skip {α : Type} [Inhabited α] (d : Nat) (rest : List Nat)
    (max_def : Nat) (vs values : List α) (validity : List Bool)
    (remaining : Nat) (hd : d ≠ max_def) (hd1 : d ≠ max_def - 1)
    (h0 : remaining ≠ 0) :
    read_optional_values (d :: rest) max_def vs values validity remaining
      = read_optional_values rest max_def vs values validity remaining := by
  rw [read_optional_values.eq_def]
  simp [hd, hd1, h0]

theorem spec_present {α : Type} [Inhabited α] (rest : List Nat)
    (max_def : Nat) (v : α) (vs : List α) :
    optionalSlotsSpec max_def (max_def :: rest) (v :: vs)
      = (optionalSlotsSpec max_def rest vs).map
          (fun r => (v :: r.1, true :: r.2)) := by
  rw [optionalSlotsSpec.eq_def]
  simp

theorem spec_null {α : Type} [Inhabited α] (rest : List Nat) (max_def : Nat)
    (vs : List α) (hne : max_def - 1 ≠ max_def) :
    optionalSlotsSpec max_def ((max_def - 1) :: rest) vs
      = (optionalSlotsSpec max_def rest vs).map
          (fun r => ((default : α) :: r.1, false :: r.2)) := by
  rw [optionalSlotsSpec.eq_def]
  simp [hne]

theorem spec_skip {α : Type} [Inhabited α] (d : Nat) (rest : List Nat)
    (max_def : Nat) (vs : List α) (hd : d ≠ max_def)
    (hd1 : d ≠ max_def - 1) :
    optionalSlotsSpec max_def (d :: rest) vs
      = optionalSlotsSpec max_def rest vs := by
  rw [optionalSlotsSpec.eq_def]
  simp [hd, hd1]

theorem c2_read_optional_values {α : Type} [Inhabited α]
    (defs : List Nat) (max_def : Nat) (vs values : List α)
    (validity : List Bool) (remaining : Nat) (sv : List α) (sb : List Bool)
    (hmax : 1 ≤ max_def)
    (hspec : optionalSlotsSpec max_def defs vs = some (sv, sb))
    (hrem : slotCount max_def defs < remaining) :
    read_optional_values defs max_def vs values validity remaining
      = some (values ++ sv, validity ++ sb,
          remaining - slotCount max_def defs) := by
  induction defs generalizing vs values validity remaining sv sb with
  | nil =>
      simp only [optionalSlotsSpec, Option.some.injEq, Prod.mk.injEq] at hspec
      simp [read_optional_values, ← hspec.1, ← hspec.2, slotCount]
  | cons d rest ih =>
      by_cases hd : d = max_def
      · subst hd
        cases vs with
        | nil =>
            rw [show optionalSlotsSpec d (d :: rest) ([] : List α) = none by
              rw [optionalSlotsSpec.eq_def]; simp] at hspec
            cases hspec
        | cons v vs2 =>
            rw [spec_present] at hspec
            cases hsp : optionalSlotsSpec d rest vs2 with
            | none => rw [hsp] at hspec; cases hspec
            | some r =>
                rw [hsp] at hspec
                simp only [Option.map_some', Option.some.injEq,
                  Prod.mk.injEq] at hspec
                have hcount : slotCount d (d :: rest)
                    = slotCount d rest + 1 := by
                  simp [slotCount, List.filter_cons]
                rw [hcount] at hrem ⊢
                have hr0 : remaining ≠ 0 := by omega
                have hr1 : remaining - 1 ≠ 0 := by omega
                rw [rov_present rest d v vs2 values validity remaining hr0 hr1]
                rw [ih vs2 (values ++ [v]) (validity ++ [true])
                  (remaining - 1) r.1 r.2 hsp (by omega)]
                rw [← hspec.1, ← hspec.2]
                simp only [List.append_assoc, List.singleton_append]
                refine congrArg some ?_
                refine congrArg (Prod.mk _) ?_
                refine congrArg (Prod.mk _) ?_
                omega
      · by_cases hd1 : d = max_def - 1
        · subst hd1
          have hne : max_def - 1 ≠ max_def := hd
          rw [spec_null rest max_def vs hne] at hspec
          cases hsp : optionalSlotsSpec max_def rest vs with
          | none => rw [hsp] at hspec; cases hspec
          | some r =>
              rw [hsp] at hspec
              simp only [Option.map_some', Option.some.injEq,
                Prod.mk.injEq] at hspec
              have hcount : slotCount max_def ((max_def - 1) :: rest)
                  = slotCount max_def rest + 1 := by
                simp [slotCount, List.filter_cons, hne]
              rw [hcount] at hrem ⊢
              have hr0 : remaining ≠ 0 := by omega
              have hr1 : remaining - 1 ≠ 0 := by omega
              rw [rov_null rest max_def vs values validity remaining hne hr0
                hr1]
              rw [ih vs (values ++ [(default : α)]) (validity ++ [false])
                (remaining - 1) r.1 r.2 hsp (by omega)]
              rw [← hspec.1, ← hspec.2]
              simp only [List.append_assoc, List.singleton_append]
              refine congrArg some ?_
              refine congrArg (Prod.mk _) ?_
              refine congrArg (Prod.mk _) ?_
              omega
        · have hcount : slotCount max_def (d :: rest)
              = slotCount max_def rest := by
            simp [slotCount, List.filter_cons, hd, hd1]
          rw [spec_skip d rest max_def vs hd hd1] at hspec
          rw [hcount] at hrem ⊢
          have hr0 : remaining ≠ 0 := by omega
          rw [rov_skip d rest max_def vs values validity remaining hd hd1 hr0]
          exact ih vs values validity remaining sv sb hspec (by omega)

/-- Witness for C2's amended statement: max_def 2, levels `[2, 1, 0]`,
values `[7]`. -/
theorem c2_read_optional_values_witness :
    read_optional_values (α := Nat) [2, 1, 0] 2 [7] [] [] 5
      = some ([7, 0], [true, false], 3) := by
  have h := c2_read_optional_values (α := Nat) [2, 1, 0] 2 [7] [] []
    5 [7, 0] [true, false] (by decide) (by decide) (by decide)
  simpa using h

/-! ### C9: `extend_from_new_page` (nested_utils.rs:327-367)

`extend_from_new_page` is generic over a `Decoder` trait object; the trait
is modelled as a record of its operations, and the decoder laws the claim
relies on (`with_capacity` makes an empty state; `extend_from_state`
grows the decoded state by exactly `additional` when the page state holds
at least that many values) are hypotheses of the theorem.  A `NestedState`
is its list of layers. -/

structure DecoderSpec (St Dec : Type) where
  stateLen : St → Nat
  decLen : Dec → Nat
  with_capacity : Nat → Dec
  extend_from_state : St → Dec → Nat → St × Dec

/-- The `for nest in nested.iter().skip(1)` tail loop: for each remaining
`NestedState`, decode `num_values` fresh values.  The
`nested.last().unwrap()` inside `NestedState::num_values` panics on an
empty layer list (modelled as `none`). -/
def tailLoop {St Dec : Type} (D : DecoderSpec St Dec) :
    List (List NestedL) → St → List Dec → Option (St × List Dec)
  | [], page, acc => some (page, acc)
  | st :: rest, page, acc =>
    match st.getLast? with
    | none => none
    | some layer =>
      let nv := layer.num_values
      let pd := D.extend_from_state page (D.with_capacity nv) nv
      tailLoop D rest pd.1 (acc ++ [pd.2])

/-- `extend_from_new_page`: pop the (incomplete) last decoded state or
create one, extend it by `needed - decoded.len()` values, and check
`assert_eq!(decoded.len(), needed)` (a failing `assert_eq!` is a panic,
modelled as `none`; the `debug_assert!` on the popped state is compiled
out of release builds and is not modelled). -/
def extend_from_new_page {St Dec : Type} (D : DecoderSpec St Dec)
    (page : St) (items : List Dec) (nested : List (List NestedL)) :
    Option (St × List Dec) :=
  match (nested.getLast?).bind List.getLast? with
  | none => none
  | some lastLayer =>
    let needed := lastLayer.num_values
    let decoded := (items.getLast?).getD (D.with_capacity needed)
    let remaining := needed - D.decLen decoded
    let pd := D.extend_from_state page decoded remaining
    if D.decLen pd.2 = needed then
      tailLoop D (nested.drop 1) pd.1 (items.dropLast ++ [pd.2])
    else none

theorem tailLoop_ok {St Dec : Type} (D : DecoderSpec St Dec)
    (states : List (List NestedL)) (page : St) (acc : List Dec)
    (h : ∀ st ∈ states, st ≠ []) :
    ∃ pg tl, tailLoop D states page acc = some (pg, acc ++ tl) := by
  induction states generalizing page acc with
  | nil => exact ⟨page, [], by simp [tailLoop]⟩
  | cons st rest ih =>
      have hne : st ≠ [] := h st (by simp)
      cases hlast : st.getLast? with
      | none => exact absurd (List.getLast?_eq_none_iff.mp hlast) hne
      | some layer =>
          obtain ⟨pg, tl, htl⟩ := ih
            (D.extend_from_state page (D.with_capacity layer.num_values)
              layer.num_values).1
            (acc ++ [(D.extend_from_state page
              (D.with_capacity layer.num_values) layer.num_values).2])
            (fun s hs => h s (by simp [hs]))
          refine ⟨pg, (D.extend_from_state page
            (D.with_capacity layer.num_values) layer.num_values).2 :: tl, ?_⟩
          rw [tailLoop, hlast]
          simp only at htl ⊢
          rw [htl]
          simp

/-- **C9** (confirmed).  When the page state still holds at least
`needed - decoded.len()` values — where `needed` is the last
`NestedState`'s `num_values()` and `decoded` is the popped (strictly
shorter than `needed`, per the `debug_assert!`) or freshly created state —
`extend_from_new_page` terminates with the extended decoded state having
length exactly `needed`, so `assert_eq!(decoded.len(), needed)` never
fails. -/
theorem c9_extend_from_new_page {St Dec : Type} (D : DecoderSpec St Dec)
    (page : St) (items : List Dec) (nested : List (List NestedL))
    (lastLayer : NestedL)
    (h1 : (nested.getLast?).bind List.getLast? = some lastLayer)
    (hall : ∀ st ∈ nested, st ≠ [])
    (hcap : ∀ n, D.decLen (D.with_capacity n) = 0)
    (hext : ∀ st dec n, n ≤ D.stateLen st →
        D.decLen (D.extend_from_state st dec n).2 = D.decLen dec + n)
    (hpop : ∀ d, items.getLast? = some d →
        D.decLen d < lastLayer.num_values)
    (hpage : lastLayer.num_values - ((items.getLast?.map D.decLen).getD 0)
        ≤ D.stateLen page) :
    ∃ pg d1 tl,
      extend_from_new_page D page items nested
          = some (pg, items.dropLast ++ d1 :: tl)
      ∧ D.decLen d1 = lastLayer.num_values := by
  have hdlen : D.decLen ((items.getLast?).getD
      (D.with_capacity lastLayer.num_values))
      = (items.getLast?.map D.decLen).getD 0 := by
    cases items.getLast? with
    | none => simp [hcap]
    | some d => simp
  have hle : lastLayer.num_values
      - D.decLen ((items.getLast?).getD (D.with_capacity lastLayer.num_values))
      ≤ D.stateLen page := by rw [hdlen]; exact hpage
  have hlt : D.decLen ((items.getLast?).getD
      (D.with_capacity lastLayer.num_values)) ≤ lastLayer.num_values := by
    cases hl : items.getLast? with
    | none => simp [hcap]
    | some d => simpa using Nat.le_of_lt (hpop d hl)
  have hfull : D.decLen (D.extend_from_state page
      ((items.getLast?).getD (D.with_capacity lastLayer.num_values))
      (lastLayer.num_values - D.decLen ((items.getLast?).getD
        (D.with_capacity lastLayer.num_values)))).2
      = lastLayer.num_values := by
    rw [hext _ _ _ hle]
    omega
  obtain ⟨pg, tl, htl⟩ := tailLoop_ok D (nested.drop 1)
    (D.extend_from_state page
      ((items.getLast?).getD (D.with_capacity lastLayer.num_values))
      (lastLayer.num_values - D.decLen ((items.getLast?).getD
        (D.with_capacity lastLayer.num_values)))).1
    (items.dropLast ++ [(D.extend_from_state page
      ((items.getLast?).getD (D.with_capacity lastLayer.num_values))
      (lastLayer.num_values - D.decLen ((items.getLast?).getD
        (D.with_capacity lastLayer.num_values)))).2])
    (fun s hs => hall s (List.drop_subset 1 nested hs))
  refine ⟨pg, _, tl, ?_, hfull⟩
  rw [extend_from_new_page, h1]
  simp only [if_pos hfull]
  rw [htl]
  simp

/-- A concrete decoder for the witness: the page state and the decoded
state are value counts. -/
def natDecoder : DecoderSpec Nat Nat :=
  ⟨fun st => st, fun dec => dec, fun _ => 0, fun st dec n => (st - n, dec + n)⟩

/-- Witness for C9 at a concrete input. -/
theorem c9_extend_from_new_page_witness :
    ∃ pg d1 tl,
      extend_from_new_page natDecoder 5 [] [[NestedL.primitive false 2]]
          = some (pg, List.dropLast [] ++ d1 :: tl)
      ∧ natDecoder.decLen d1 = (NestedL.primitive false 2).num_values :=
  c9_extend_from_new_page natDecoder 5 [] [[NestedL.primitive false 2]]
    (NestedL.primitive false 2) (by decide) (by decide)
    (fun _ => rfl) (fun st dec n _ => rfl)
    (fun d h => by cases h) (by decide)

/-! ## Parquet binary dictionary decoding (`binary/basic.rs`)

`BinaryDecoder::extend_from_state` for `State::RequiredDictionary` maps
the `op` closure over the hybrid-RLE indices:

```
let op = move |index: u32| {
    let index = index as usize;
    let dict_offset_i = dict_offsets[index] as usize;
    let dict_offset_ip1 = dict_offsets[index + 1] as usize;
    &dict_values[dict_offset_i..dict_offset_ip1]
};
for x in page.values.by_ref().map(op).take(additional) { values.push(x) }
```

(the `OptionalDictionary` arm uses the identical closure).  The slice
indexing `dict_offsets[index]`/`[index + 1]` and the range slicing of
`dict_values` are unchecked: out-of-range values are Rust panics,
modelled as `none`. -/

/-- Modelled from the spec: the `Binary` pushable accumulator lives in
`binary/utils.rs`, which is not among the provided sources; §4.5 and §6.4
describe binary dictionary decoding as resolving each index via the
dictionary's offsets-and-bytes table and appending the bytes (offsets
start at 0; each push appends one offset). -/
structure BinaryAcc where
  offsets : List Nat
  values : List Nat
  deriving DecidableEq, Repr

def BinaryAcc.push (acc : BinaryAcc) (bytes : List Nat) : BinaryAcc :=
  ⟨acc.offsets ++ [acc.offsets.getLast?.getD 0 + bytes.length],
    acc.values ++ bytes⟩

/-- The `op` closure: resolve one dictionary index through the dictionary
page's offsets table.  Out-of-bounds indexing panics (`none`). -/
def dictOp (dict_offsets dict_values : List Nat) (index : Nat) :
    Option (List Nat) :=
  match dict_offsets[index]?, dict_offsets[index + 1]? with
  | some a, some b =>
      if a ≤ b ∧ b ≤ dict_values.length then
        some ((dict_values.drop a).take (b - a))
      else none
  | _, _ => none

/-- `extend_from_state` on a `RequiredDictionary` state: push up to
`additional` resolved values. -/
def extendRequiredDictionary (dict_offsets dict_values : List Nat) :
    List Nat → Nat → BinaryAcc → Option BinaryAcc
  | _, 0, acc => some acc
  | [], _, acc => some acc
  | i :: rest, n + 1, acc =>
      match dictOp dict_offsets dict_values i with
      | none => none
      | some bs =>
          extendRequiredDictionary dict_offsets dict_values rest n
            (acc.push bs)

/-- **C6 counterexample.**  The claim states that an out-of-range
dictionary index surfaces a `CorruptStream` error.  The decoder's
`extend_from_state` returns `()` — it has no error channel at all — and
the `op` closure indexes the offsets slice unchecked, so an out-of-range
index is an out-of-bounds panic (modelled as `none`): at the concrete
input below no value and no `CorruptStream` `Result` is produced. -/
theorem c6_counterexample :
    extendRequiredDictionary [0, 1] [7] [5] 1 ⟨[0], []⟩ = none
    ∧ dictOp [0, 1] [7] 5 = none := by decide

theorem dictOp_out_of_range (dict_offsets dict_values : List Nat)
    (idx : Nat) (h : dict_offsets.length ≤ idx + 1) :
    dictOp dict_offsets dict_values idx = none := by
  have h2 : dict_offsets[idx + 1]? = none :=
    List.getElem?_eq_none h
  unfold dictOp
  rw [h2]
  cases dict_offsets[idx]? <;> rfl

/-- **C6** (corrected).  For every dictionary-encoded binary page, a
decoded index out of range of the dictionary's offsets table makes the
decoder panic (unchecked slice indexing in the `op` closure) — no
`CorruptStream` error value is returned (the function has no `Result`
channel) and no decoded state is produced. -/
theorem c6_dictionary_index_panics (dict_offsets dict_values indices : List Nat)
    (additional : Nat) (acc : BinaryAcc) (idx : Nat)
    (h1 : idx ∈ indices.take additional)
    (h2 : dict_offsets.length ≤ idx + 1) :
    dictOp dict_offsets dict_values idx = none
    ∧ extendRequiredDictionary dict_offsets dict_values indices additional acc
        = none := by
  refine ⟨dictOp_out_of_range _ dict_values _ h2, ?_⟩
  induction indices generalizing additional acc with
  | nil => simp at h1
  | cons i rest ih =>
      cases additional with
      | zero => simp at h1
      | succ n =>
          rw [List.take_succ_cons, List.mem_cons] at h1
          rw [extendRequiredDictionary]
          cases hop : dictOp dict_offsets dict_values i with
          | none => rfl
          | some bs =>
              rcases h1 with h1 | h1
              · subst h1
                rw [dictOp_out_of_range _ dict_values _ h2] at hop
                cases hop
              · exact ih n (acc.push bs) h1

/-- Witness for C6's amended statement at the counterexample input. -/
theorem c6_dictionary_index_panics_witness :
    dictOp [0, 1] [7] 5 = none
    ∧ extendRequiredDictionary [0, 1] [7] [5] 1 ⟨[0], []⟩ = none :=
  c6_dictionary_index_panics [0, 1] [7] [5] 1 ⟨[0], []⟩ 5 (by decide)
    (by decide)

/-! ## The array model

A tagged variant of the arrays the IPC writer dispatches on
(serialize.rs:493-631): every physical type of the `write` match.
Primitive values are carried as their `w`-byte bit patterns (`Nat`
below `2^(8w)`); `Binary`/`LargeBinary`/`Utf8`/`LargeUtf8` share one
constructor parameterized by offset width and a `utf8` data-type tag,
exactly as the source shares `write_generic_binary::<O: Offset>`;
`List`/`LargeList` likewise. -/

inductive DType where
  | null
  | boolean
  | primitive (w : Nat)
  | binary (large : Bool) (utf8 : Bool)
  | fixedSizeBinary (size : Nat)
  | list (large : Bool) (child : DType)
  | fixedSizeList (n : Nat) (child : DType)
  | structT (children : List DType)
  | mapT (child : DType)
  | unionT (dense : Bool) (children : List DType)
  | dictionary (keyW : Nat) (id : Nat) (child : DType)

inductive AArr where
  | null (len : Nat)
  | boolean (values : List Bool) (validity : Option (List Bool))
  | primitive (w : Nat) (values : List Nat) (validity : Option (List Bool))
  | binary (large : Bool) (utf8 : Bool) (offsets : List Nat)
      (values : List Nat) (validity : Option (List Bool))
  | fixedSizeBinary (size : Nat) (values : List Nat)
      (validity : Option (List Bool))
  | list (large : Bool) (offsets : List Nat) (child : AArr)
      (validity : Option (List Bool))
  | fixedSizeList (n : Nat) (child : AArr) (validity : Option (List Bool))
  | structA (children : List AArr) (len : Nat) (validity : Option (List Bool))
  | mapA (offsets : List Nat) (child : AArr) (validity : Option (List Bool))
  | unionA (dense : Bool) (typeIds : List Nat) (offsets : Option (List Nat))
      (fields : List AArr)
  | dictionary (keyW : Nat) (id : Nat) (keys : List Nat)
      (keyValidity : Option (List Bool)) (values : AArr)

/-- The byte width of the generic `Offset` parameter (`i32`/`i64`). -/
def offW (large : Bool) : Nat := if large then 8 else 4

/-- `Array::len()`. -/
def lenA : AArr → Nat
  | .null len => len
  | .boolean vs _ => vs.length
  | .primitive _ vs _ => vs.length
  | .binary _ _ off _ _ => off.length - 1
  | .fixedSizeBinary s vs _ => vs.length / s
  | .list _ off _ _ => off.length - 1
  | .fixedSizeList n c _ => lenA c / n
  | .structA _ len _ => len
  | .mapA off _ _ => off.length - 1
  | .unionA _ tids _ _ => tids.length
  | .dictionary _ _ keys _ _ => keys.length

def nullOf (val : Option (List Bool)) : Nat :=
  match val with
  | none => 0
  | some v => v.count false

/-- `Array::null_count()` (`popcount(¬validity)`; `0` without a validity;
Union arrays carry no top-level validity, and a dictionary's validity is
its keys'). -/
def nullCountA : AArr → Nat
  | .null len => len
  | .boolean _ val => nullOf val
  | .primitive _ _ val => nullOf val
  | .binary _ _ _ _ val => nullOf val
  | .fixedSizeBinary _ _ val => nullOf val
  | .list _ _ _ val => nullOf val
  | .fixedSizeList _ _ val => nullOf val
  | .structA _ _ val => nullOf val
  | .mapA _ _ val => nullOf val
  | .unionA _ _ _ _ => 0
  | .dictionary _ _ _ kval _ => nullOf kval

/-- The top-level validity bitmap. -/
def validityA : AArr → Option (List Bool)
  | .null _ => none
  | .boolean _ val => val
  | .primitive _ _ val => val
  | .binary _ _ _ _ val => val
  | .fixedSizeBinary _ _ val => val
  | .list _ _ _ val => val
  | .fixedSizeList _ _ val => val
  | .structA _ _ val => val
  | .mapA _ _ val => val
  | .unionA _ _ _ _ => none
  | .dictionary _ _ _ kval _ => kval

mutual

def dtypeA : AArr → DType
  | .null _ => .null
  | .boolean _ _ => .boolean
  | .primitive w _ _ => .primitive w
  | .binary lg u _ _ _ => .binary lg u
  | .fixedSizeBinary s _ _ => .fixedSizeBinary s
  | .list lg _ c _ => .list lg (dtypeA c)
  | .fixedSizeList n c _ => .fixedSizeList n (dtypeA c)
  | .structA cs _ _ => .structT (dtypeList cs)
  | .mapA _ c _ => .mapT (dtypeA c)
  | .unionA dense _ _ fs => .unionT dense (dtypeList fs)
  | .dictionary kw id _ _ values => .dictionary kw id (dtypeA values)

def dtypeList : List AArr → List DType
  | [] => []
  | c :: rest => dtypeA c :: dtypeList rest

end

mutual

/-- The depth measure used for the writer's recursion (slicing preserves
it). -/
def depthA : AArr → Nat
  | .list _ _ c _ => depthA c + 1
  | .fixedSizeList _ c _ => depthA c + 1
  | .mapA _ c _ => depthA c + 1
  | .structA cs _ _ => depthList cs + 1
  | .unionA _ _ _ fs => depthList fs + 1
  | _ => 0

def depthList : List AArr → Nat
  | [] => 0
  | c :: rest => max (depthA c) (depthList rest)

end

/-- A window of a validity bitmap. -/
def winVal (val : Option (List Bool)) (o l : Nat) : Option (List Bool) :=
  val.map fun v => (v.drop o).take l

mutual

/-- `Array::slice(offset, length)`: windows the per-row vectors; for
offset-bearing arrays the offsets window has `length + 1` entries and the
child values stay whole (arrow2 slices by moving the offsets window);
`FixedSizeList` and `Struct` slice their children. -/
def sliceA : AArr → Nat → Nat → AArr
  | .null _, _, l => .null l
  | .boolean vs val, o, l => .boolean ((vs.drop o).take l) (winVal val o l)
  | .primitive w vs val, o, l =>
      .primitive w ((vs.drop o).take l) (winVal val o l)
  | .binary lg u off vals val, o, l =>
      .binary lg u ((off.drop o).take (l + 1)) vals (winVal val o l)
  | .fixedSizeBinary s vs val, o, l =>
      .fixedSizeBinary s ((vs.drop (o * s)).take (l * s)) (winVal val o l)
  | .list lg off c val, o, l =>
      .list lg ((off.drop o).take (l + 1)) c (winVal val o l)
  | .fixedSizeList n c val, o, l =>
      .fixedSizeList n (sliceA c (o * n) (l * n)) (winVal val o l)
  | .structA cs _ val, o, l => .structA (sliceList cs o l) l (winVal val o l)
  | .mapA off c val, o, l =>
      .mapA ((off.drop o).take (l + 1)) c (winVal val o l)
  | .unionA dense tids (some os) fs, o, l =>
      .unionA dense ((tids.drop o).take l) (some ((os.drop o).take l)) fs
  | .unionA dense tids none fs, o, l =>
      .unionA dense ((tids.drop o).take l) none (sliceList fs o l)
  | .dictionary kw id keys kval values, o, l =>
      .dictionary kw id ((keys.drop o).take l) (winVal kval o l) values

def sliceList : List AArr → Nat → Nat → List AArr
  | [], _, _ => []
  | c :: rest, o, l => sliceA c o l :: sliceList rest o l

end

mutual

theorem depthA_sliceA (a : AArr) (o l : Nat) : depthA (sliceA a o l) = depthA a := by
  cases a with
  | list lg off c val => simp [sliceA, depthA]
  | fixedSizeList n c val => simp [sliceA, depthA, depthA_sliceA c]
  | mapA off c val => simp [sliceA, depthA]
  | structA cs len val => simp [sliceA, depthA, depthList_sliceList cs]
  | unionA dense tids off fs =>
      cases off with
      | some os => simp [sliceA, depthA]
      | none => simp [sliceA, depthA, depthList_sliceList fs]
  | null len => simp [sliceA, depthA]
  | boolean vs val => simp [sliceA, depthA]
  | primitive w vs val => simp [sliceA, depthA]
  | binary lg u off vals val => simp [sliceA, depthA]
  | fixedSizeBinary s vs val => simp [sliceA, depthA]
  | dictionary kw id keys kval values => simp [sliceA, depthA]

theorem depthList_sliceList (cs : List AArr) (o l : Nat) :
    depthList (sliceList cs o l) = depthList cs := by
  cases cs with
  | nil => rfl
  | cons c rest =>
      simp [sliceList, depthList, depthA_sliceA c, depthList_sliceList rest]

end

/-! ### Logical content: per-slot values -/

/-- The logical value stored in one array slot (`none` = null slot). -/
inductive Val where
  | b (x : Bool)
  | n (w : Nat) (x : Nat)
  | bytes (bs : List Nat)
  | lst (xs : List (Option Val))
  | strct (fs : List (Option Val))

def validAt (val : Option (List Bool)) (i : Nat) : Bool :=
  match val with
  | none => true
  | some v => v.getD i false

mutual

/-- The list of logical slots of the array: `slotsA a` has length
`lenA a` and its `i`-th entry is the (null or present) logical value of
row `i`.  This is the equality the spec's round-trip law (§8) compares:
equal values and equal validity, slot for slot. -/
def slotsA : AArr → List (Option Val)
  | .null len => List.replicate len none
  | .boolean vs val =>
      (List.range vs.length).map fun i =>
        if validAt val i then some (.b (vs.getD i false)) else none
  | .primitive w vs val =>
      (List.range vs.length).map fun i =>
        if validAt val i then some (.n w (vs.getD i 0)) else none
  | .binary _ _ off vals val =>
      (List.range (off.length - 1)).map fun i =>
        if validAt val i then
          some (.bytes ((vals.drop (off.getD i 0)).take
            (off.getD (i + 1) 0 - off.getD i 0)))
        else none
  | .fixedSizeBinary s vs val =>
      (List.range (vs.length / s)).map fun i =>
        if validAt val i then some (.bytes ((vs.drop (i * s)).take s)) else none
  | .list _ off c val =>
      (List.range (off.length - 1)).map fun i =>
        if validAt val i then
          some (.lst (((slotsA c).drop (off.getD i 0)).take
            (off.getD (i + 1) 0 - off.getD i 0)))
        else none
  | .fixedSizeList n c val =>
      (List.range (lenA c / n)).map fun i =>
        if validAt val i then
          some (.lst (((slotsA c).drop (i * n)).take n))
        else none
  | .structA cs len val =>
      (List.range len).map fun i =>
        if validAt val i then
          some (.strct ((slotsList cs).map fun s => s.getD i none))
        else none
  | .mapA off c val =>
      (List.range (off.length - 1)).map fun i =>
        if validAt val i then
          some (.lst (((slotsA c).drop (off.getD i 0)).take
            (off.getD (i + 1) 0 - off.getD i 0)))
        else none
  | .unionA _ tids off fs =>
      (List.range tids.length).map fun i =>
        match off with
        | some os =>
            ((slotsList fs).getD (tids.getD i 0) []).getD (os.getD i 0) none
        | none => ((slotsList fs).getD (tids.getD i 0) []).getD i none
  | .dictionary _ _ keys kval values =>
      (List.range keys.length).map fun i =>
        if validAt kval i then (slotsA values).getD (keys.getD i 0) none
        else none

def slotsList : List AArr → List (List (Option Val))
  | [] => []
  | c :: rest => slotsA c :: slotsList rest

end

/-- The logical validity: the explicit bitmap, or all-true. -/
def validityBits (len : Nat) (val : Option (List Bool)) : List Bool :=
  match val with
  | none => List.replicate len true
  | some v => v

/-! ### Well-formedness (spec §3.2 invariants plus the `i64`/`usize`
bounds under which the embedding's arithmetic matches the machine's) -/

def validOk (val : Option (List Bool)) (n : Nat) : Bool :=
  match val with
  | none => true
  | some v => v.length == n

def U64 : Nat := 2 ^ 64

mutual

def wfA : AArr → Bool
  | .null _ => true
  | .boolean vs val => validOk val vs.length && decide (vs.length < U64)
  | .primitive w vs val =>
      validOk val vs.length && vs.all (fun x => x < 256 ^ w)
        && decide (0 < w) && decide (w * vs.length < U64)
  | .binary lg _ off vals val =>
      decide (off ≠ []) && decide (List.Pairwise (· ≤ ·) off)
        && decide (off.getLast?.getD 0 ≤ vals.length)
        && off.all (fun x => x < 256 ^ offW lg)
        && validOk val (off.length - 1)
        && decide (offW lg * off.length < U64) && decide (vals.length < U64)
  | .fixedSizeBinary s vs val =>
      decide (0 < s) && validOk val (vs.length / s) && decide (vs.length < U64)
  | .list lg off c val =>
      decide (off ≠ []) && decide (List.Pairwise (· ≤ ·) off)
        && decide (off.getLast?.getD 0 ≤ lenA c)
        && off.all (fun x => x < 256 ^ offW lg)
        && validOk val (off.length - 1)
        && decide (offW lg * off.length < U64) && wfA c
  | .fixedSizeList n c val =>
      decide (0 < n) && validOk val (lenA c / n)
        && decide (lenA c / n < U64) && wfA c
  | .structA cs len val =>
      validOk val len && decide (len < U64) && wfStructList cs len
  | .mapA off c val =>
      decide (off ≠ []) && decide (List.Pairwise (· ≤ ·) off)
        && decide (off.getLast?.getD 0 ≤ lenA c)
        && off.all (fun x => x < 256 ^ 4)
        && validOk val (off.length - 1)
        && decide (4 * off.length < U64) && wfA c
  | .unionA dense tids off fs =>
      (dense == off.isSome) && tids.all (fun x => x < 256)
        && decide (4 * tids.length < U64)
        && (match off with
            | some os =>
                ((os.length == tids.length) && os.all (fun x => x < 256 ^ 4))
                  && wfList fs
            | none => wfStructList fs tids.length)
  | .dictionary kw _ keys kval values =>
      decide (0 < kw) && keys.all (fun x => x < 256 ^ kw)
        && validOk kval keys.length && decide (kw * keys.length < U64)
        && wfA values

def wfList : List AArr → Bool
  | [] => true
  | c :: rest => wfA c && wfList rest

def wfStructList : List AArr → Nat → Bool
  | [], _ => true
  | c :: rest, len => wfA c && (lenA c == len) && wfStructList rest len

end

/-- The external codec collaborator is lossless. -/
def CodecOk : Option Codec → Prop
  | none => True
  | some c => ∀ bs, c.decompress (c.compress bs) = bs

mutual

/-- The `Dictionaries` collaborator holds, under each dictionary id
appearing in the array, exactly the dictionary's values array (the
separately-emitted dictionary batch of §4.3/§6.3). -/
def DictsOk (dicts : Nat → Option AArr) : AArr → Prop
  | .list _ _ c _ => DictsOk dicts c
  | .fixedSizeList _ c _ => DictsOk dicts c
  | .mapA _ c _ => DictsOk dicts c
  | .structA cs _ _ => DictsOkList dicts cs
  | .unionA _ _ _ fs => DictsOkList dicts fs
  | .dictionary _ id _ _ values => dicts id = some values ∧ DictsOk dicts values
  | _ => True

def DictsOkList (dicts : Nat → Option AArr) : List AArr → Prop
  | [] => True
  | c :: rest => DictsOk dicts c ∧ DictsOkList dicts rest

end

/-- The reader's error kinds (spec §6.5). -/
inductive Err where
  | oos
  | notYetImplemented
  | corruptStream
  | missingDictionary (id : Nat)
  | io
  deriving DecidableEq, Repr

/-! ### The IPC writer (`write`, serialize.rs:493-631)

`write` appends one `FieldNode` and dispatches on the physical type.
Panics (`first()/last().unwrap()` on empty offsets, out-of-range value
slicing, `Array::slice` out of bounds, the `todo!()` of compressed
non-native writes, bitmap length assertion) are modelled as `none`. -/

/-- Push the `FieldNode` (serialize.rs:502). -/
def pushNode (a : AArr) (s : WriterState) : WriterState :=
  { s with nodes := s.nodes ++ [⟨lenA a, nullCountA a⟩] }

theorem lex_child (x y k : Nat) :
    Prod.Lex (· < ·) (· < ·) (x, 0) (max x y, k + 1) := by
  rw [Prod.lex_def]
  have h1 := Nat.le_max_left x y
  rcases max_choice x y with h | h <;> omega

theorem lex_tail (x y k : Nat) :
    Prod.Lex (· < ·) (· < ·) (y, k + 1) (max x y, k + 2) := by
  rw [Prod.lex_def]
  have h1 := Nat.le_max_right x y
  rcases max_choice x y with h | h <;> omega

/-- `write_generic_binary` (serialize.rs:90-138): validity, normalized
offsets, sliced value bytes. -/
def write_generic_binary (w : Nat) (validity : Option (List Bool))
    (offsets values : List Nat) (nle le : Bool) (comp : Option Codec)
    (s : WriterState) : Option WriterState :=
  match write_bitmap validity (offsets.length - 1) comp s with
  | none => none
  | some s1 =>
    match offsets.head? with
    | none => none
    | some first =>
      let last := offsets.getLast?.getD 0
      match (if first = 0 then write_buffer w nle le offsets comp s1
             else some (write_buffer_from_iter w le
               (offsets.map (fun x => x - first)) comp s1)) with
      | none => none
      | some s2 =>
          if first ≤ last ∧ last ≤ values.length then
            some (write_bytes ((values.drop first).take (last - first)) comp s2)
          else none

mutual

/-- `write` (serialize.rs:493). -/
def write (a : AArr) (nle le : Bool) (comp : Option Codec)
    (s0 : WriterState) : Option WriterState :=
  let s := pushNode a s0
  match a with
  | .null _ => some s
  | .boolean vs val =>
      match write_bitmap val vs.length comp s with
      | none => none
      | some s1 => write_bitmap (some vs) vs.length comp s1
  | .primitive w vs val =>
      match write_bitmap val vs.length comp s with
      | none => none
      | some s1 => write_buffer w nle le vs comp s1
  | .binary lg _ off vals val =>
      write_generic_binary (offW lg) val off vals nle le comp s
  | .fixedSizeBinary sz vs val =>
      match write_bitmap val (vs.length / sz) comp s with
      | none => none
      | some s1 => some (write_bytes vs comp s1)
  | .list lg off c val =>
      match write_bitmap val (off.length - 1) comp s with
      | none => none
      | some s1 =>
        match off.head? with
        | none => none
        | some first =>
          let last := off.getLast?.getD 0
          match (if first = 0 then write_buffer (offW lg) nle le off comp s1
                 else some (write_buffer_from_iter (offW lg) le
                   (off.map (fun x => x - first)) comp s1)) with
          | none => none
          | some s2 =>
              if first ≤ last ∧ last ≤ lenA c then
                write (sliceA c first (last - first)) nle le comp s2
              else none
  | .fixedSizeList _ c val =>
      match write_bitmap val (lenA a) comp s with
      | none => none
      | some s1 => write c nle le comp s1
  | .structA cs len val =>
      match write_bitmap val len comp s with
      | none => none
      | some s1 => writeEach cs nle le comp s1
  | .mapA off c val =>
      match write_bitmap val (off.length - 1) comp s with
      | none => none
      | some s1 =>
        match off.head? with
        | none => none
        | some first =>
          let last := off.getLast?.getD 0
          match (if first = 0 then write_buffer 4 nle le off comp s1
                 else some (write_buffer_from_iter 4 le
                   (off.map (fun x => x - first)) comp s1)) with
          | none => none
          | some s2 =>
              if first ≤ last ∧ last ≤ lenA c then
                write (sliceA c first (last - first)) nle le comp s2
              else none
  | .unionA _ tids off fs =>
      match write_buffer 1 nle le tids comp s with
      | none => none
      | some s1 =>
        match off with
        | some os =>
            match write_buffer 4 nle le os comp s1 with
            | none => none
            | some s2 => writeEach fs nle le comp s2
        | none => writeEach fs nle le comp s1
  | .dictionary kw _ keys kval _ =>
      match write_bitmap kval keys.length comp s with
      | none => none
      | some s1 => write_buffer kw nle le keys comp s1
  termination_by (depthA a, 0)
  decreasing_by
    · simp only [depthA, depthA_sliceA]
      exact Prod.Lex.left _ _ (by omega)
    · simp only [depthA]
      exact Prod.Lex.left _ _ (by omega)
    · simp only [depthA]
      exact Prod.Lex.left _ _ (by omega)
    · simp only [depthA, depthA_sliceA]
      exact Prod.Lex.left _ _ (by omega)
    · simp only [depthA]
      exact Prod.Lex.left _ _ (by omega)
    · simp only [depthA]
      exact Prod.Lex.left _ _ (by omega)

/-- Depth-first, left-to-right child writes (struct fields and union
fields). -/
def writeEach (cs : List AArr) (nle le : Bool) (comp : Option Codec)
    (s : WriterState) : Option WriterState :=
  match cs with
  | [] => some s
  | c :: rest =>
      match write c nle le comp s with
      | none => none
      | some s1 => writeEach rest nle le comp s1
  termination_by (depthList cs, cs.length + 1)
  decreasing_by
    · simp only [depthA, depthList, List.length_cons]
      exact lex_child _ _ _
    · simp only [depthList, List.length_cons]
      exact lex_tail _ _ _

end

/-! ### The IPC reader

Modelled from the spec: the reader's per-type implementations live in
`src/io/ipc/read/array/*.rs`, which are not among the provided sources
(only the dispatcher `src/io/ipc/read/deserialize.rs` is).  The functions
below follow the spec's read contracts: §4.1 (read `length` bytes at the
buffer's offset, strip the 8-byte uncompressed-length prefix and
decompress — a size mismatch is `CorruptStream` — then interpret with the
declared endianness), §4.2 (a zero-length validity buffer is all-valid
only when the field node's `null_count` is 0, otherwise `CorruptStream`),
§4.4 (field nodes and buffers are FIFOs consumed front-first, recursion
into children consumes the same FIFOs; the `Dictionaries` collaborator
resolves dictionary ids, unknown ids fail with `MissingDictionary`), and
§7 (non-monotonic offsets are `CorruptStream`). -/

/-- Read one buffer's bytes from the body and undo the compression
framing. -/
def readBufferBytes (body : List Nat) (b : IpcBuffer)
    (comp : Option Codec) : Except Err (List Nat) :=
  if b.offset + b.length ≤ body.length then
    let bs := (body.drop b.offset).take b.length
    match comp with
    | none => .ok bs
    | some c =>
        if 8 ≤ bs.length then
          let declared := decLE (bs.take 8)
          let payload := c.decompress (bs.drop 8)
          if payload.length = declared then .ok payload
          else .error .corruptStream
        else .error .corruptStream
  else .error .io

/-- Modelled from the spec (§4.2): validity reading. -/
def read_validity (node : FieldNode) (buffers : List IpcBuffer)
    (body : List Nat) (comp : Option Codec) :
    Except Err (Option (List Bool) × List IpcBuffer) :=
  match buffers with
  | [] => .error .oos
  | b :: rest =>
      if b.length = 0 then
        if node.null_count = 0 then .ok (none, rest)
        else .error .corruptStream
      else
        match readBufferBytes body b comp with
        | .error e => .error e
        | .ok bytes =>
            if (node.length + 7) / 8 ≤ bytes.length then
              .ok (some (bytesToBits bytes node.length), rest)
            else .error .corruptStream

/-- Modelled from the spec (§4.1): a typed buffer of `count` `w`-byte
elements with the declared endianness. -/
def read_values (w count : Nat) (le : Bool) (buffers : List IpcBuffer)
    (body : List Nat) (comp : Option Codec) :
    Except Err (List Nat × List IpcBuffer) :=
  match buffers with
  | [] => .error .oos
  | b :: rest =>
      match readBufferBytes body b comp with
      | .error e => .error e
      | .ok bytes =>
          if w * count ≤ bytes.length then
            .ok (decElems le w count bytes, rest)
          else .error .corruptStream

/-- Modelled from the spec (§4.1): a raw bytes buffer of which the first
`count` bytes are the values. -/
def read_bytes_buffer (count : Nat) (buffers : List IpcBuffer)
    (body : List Nat) (comp : Option Codec) :
    Except Err (List Nat × List IpcBuffer) :=
  match buffers with
  | [] => .error .oos
  | b :: rest =>
      match readBufferBytes body b comp with
      | .error e => .error e
      | .ok bytes =>
          if count ≤ bytes.length then .ok (bytes.take count, rest)
          else .error .corruptStream

/-- Modelled from the spec (§4.2): a values bitmap (Boolean arrays). -/
def read_bitmap_values (len : Nat) (buffers : List IpcBuffer)
    (body : List Nat) (comp : Option Codec) :
    Except Err (List Bool × List IpcBuffer) :=
  match buffers with
  | [] => .error .oos
  | b :: rest =>
      match readBufferBytes body b comp with
      | .error e => .error e
      | .ok bytes =>
          if (len + 7) / 8 ≤ bytes.length then
            .ok (bytesToBits bytes len, rest)
          else .error .corruptStream

mutual

/-- Modelled from the spec (§4.4): `read`, mirroring the writer's
dispatch (`src/io/ipc/read/deserialize.rs` names the per-type readers;
their bodies are reconstructed from §4.1-§4.4). -/
def readA (dt : DType) (nodes : List FieldNode) (buffers : List IpcBuffer)
    (body : List Nat) (dicts : Nat → Option AArr) (le : Bool)
    (comp : Option Codec) :
    Except Err (AArr × List FieldNode × List IpcBuffer) :=
  match nodes with
  | [] => .error .oos
  | node :: nodes1 =>
    match dt with
    | .null => .ok (.null node.length, nodes1, buffers)
    | .boolean =>
        match read_validity node buffers body comp with
        | .error e => .error e
        | .ok (val, buf1) =>
            match read_bitmap_values node.length buf1 body comp with
            | .error e => .error e
            | .ok (vs, buf2) => .ok (.boolean vs val, nodes1, buf2)
    | .primitive w =>
        match read_validity node buffers body comp with
        | .error e => .error e
        | .ok (val, buf1) =>
            match read_values w node.length le buf1 body comp with
            | .error e => .error e
            | .ok (vs, buf2) => .ok (.primitive w vs val, nodes1, buf2)
    | .binary lg u =>
        match read_validity node buffers body comp with
        | .error e => .error e
        | .ok (val, buf1) =>
            match read_values (offW lg) (node.length + 1) le buf1 body comp with
            | .error e => .error e
            | .ok (off, buf2) =>
                if List.Pairwise (· ≤ ·) off then
                  match read_bytes_buffer (off.getLast?.getD 0) buf2 body
                      comp with
                  | .error e => .error e
                  | .ok (vals, buf3) =>
                      .ok (.binary lg u off vals val, nodes1, buf3)
                else .error .corruptStream
    | .fixedSizeBinary s =>
        match read_validity node buffers body comp with
        | .error e => .error e
        | .ok (val, buf1) =>
            match read_bytes_buffer (s * node.length) buf1 body comp with
            | .error e => .error e
            | .ok (vs, buf2) => .ok (.fixedSizeBinary s vs val, nodes1, buf2)
    | .list lg cdt =>
        match read_validity node buffers body comp with
        | .error e => .error e
        | .ok (val, buf1) =>
            match read_values (offW lg) (node.length + 1) le buf1 body comp with
            | .error e => .error e
            | .ok (off, buf2) =>
                if List.Pairwise (· ≤ ·) off then
                  match readA cdt nodes1 buf2 body dicts le comp with
                  | .error e => .error e
                  | .ok (child, nodes2, buf3) =>
                      .ok (.list lg off child val, nodes2, buf3)
                else .error .corruptStream
    | .fixedSizeList n cdt =>
        match read_validity node buffers body comp with
        | .error e => .error e
        | .ok (val, buf1) =>
            match readA cdt nodes1 buf1 body dicts le comp with
            | .error e => .error e
            | .ok (child, nodes2, buf2) =>
                .ok (.fixedSizeList n child val, nodes2, buf2)
    | .structT cdts =>
        match read_validity node buffers body comp with
        | .error e => .error e
        | .ok (val, buf1) =>
            match readEach cdts nodes1 buf1 body dicts le comp with
            | .error e => .error e
            | .ok (children, nodes2, buf2) =>
                .ok (.structA children node.length val, nodes2, buf2)
    | .mapT cdt =>
        match read_validity node buffers body comp with
        | .error e => .error e
        | .ok (val, buf1) =>
            match read_values 4 (node.length + 1) le buf1 body comp with
            | .error e => .error e
            | .ok (off, buf2) =>
                if List.Pairwise (· ≤ ·) off then
                  match readA cdt nodes1 buf2 body dicts le comp with
                  | .error e => .error e
                  | .ok (child, nodes2, buf3) =>
                      .ok (.mapA off child val, nodes2, buf3)
                else .error .corruptStream
    | .unionT dense cdts =>
        match read_values 1 node.length le buffers body comp with
        | .error e => .error e
        | .ok (tids, buf1) =>
            if dense then
              match read_values 4 node.length le buf1 body comp with
              | .error e => .error e
              | .ok (os, buf2) =>
                  match readEach cdts nodes1 buf2 body dicts le comp with
                  | .error e => .error e
                  | .ok (fields, nodes2, buf3) =>
                      .ok (.unionA true tids (some os) fields, nodes2, buf3)
            else
              match readEach cdts nodes1 buf1 body dicts le comp with
              | .error e => .error e
              | .ok (fields, nodes2, buf2) =>
                  .ok (.unionA false tids none fields, nodes2, buf2)
    | .dictionary kw id _ =>
        match read_validity node buffers body comp with
        | .error e => .error e
        | .ok (val, buf1) =>
            match read_values kw node.length le buf1 body comp with
            | .error e => .error e
            | .ok (keys, buf2) =>
                match dicts id with
                | none => .error (.missingDictionary id)
                | some values =>
                    .ok (.dictionary kw id keys val values, nodes1, buf2)

def readEach (dts : List DType) (nodes : List FieldNode)
    (buffers : List IpcBuffer) (body : List Nat) (dicts : Nat → Option AArr)
    (le : Bool) (comp : Option Codec) :
    Except Err (List AArr × List FieldNode × List IpcBuffer) :=
  match dts with
  | [] => .ok ([], nodes, buffers)
  | dt :: rest =>
      match readA dt nodes buffers body dicts le comp with
      | .error e => .error e
      | .ok (child, nodes1, buf1) =>
          match readEach rest nodes1 buf1 body dicts le comp with
          | .error e => .error e
          | .ok (children, nodes2, buf2) =>
              .ok (child :: children, nodes2, buf2)

end

/-! ### Window lemmas -/

theorem window_length {α : Type} (xs : List α) (o l : Nat)
    (hb : o + l ≤ xs.length) : ((xs.drop o).take l).length = l := by
  simp
  omega

theorem getD_window {α : Type} (xs : List α) (o l i : Nat) (d : α)
    (hi : i < l) (hb : o + i < xs.length) :
    ((xs.drop o).take l).getD i d = xs.getD (o + i) d := by
  have h1 : i < ((xs.drop o).take l).length := by simp; omega
  have h2 : o + i < xs.length := hb
  rw [List.getD_eq_getElem?_getD, List.getD_eq_getElem?_getD,
    List.getElem?_eq_getElem h1, List.getElem?_eq_getElem h2]
  congr 1
  rw [List.getElem_take, List.getElem_drop]

theorem window_window {α : Type} (xs : List α) (o1 t1 o2 t2 : Nat)
    (h : o2 + t2 ≤ t1) :
    ((((xs.drop o1).take t1).drop o2).take t2) = (xs.drop (o1 + o2)).take t2 := by
  rw [List.drop_take, List.drop_drop, List.take_take,
    Nat.min_eq_left (by omega)]

theorem validAt_winVal (val : Option (List Bool)) (o l i : Nat) (n : Nat)
    (hok : validOk val n = true) (hi : i < l) (hb : o + l ≤ n) :
    validAt (winVal val o l) i = validAt val (o + i) := by
  cases val with
  | none => rfl
  | some v =>
      simp only [validOk, beq_iff_eq] at hok
      simp only [winVal, Option.map_some', validAt]
      exact getD_window v o l i false hi (by omega)

theorem validOk_winVal (val : Option (List Bool)) (o l : Nat) (n : Nat)
    (hok : validOk val n = true) (hb : o + l ≤ n) :
    validOk (winVal val o l) l = true := by
  cases val with
  | none => rfl
  | some v =>
      simp only [validOk, beq_iff_eq] at hok
      simp only [winVal, Option.map_some', validOk, beq_iff_eq]
      rw [window_length]
      omega

theorem all_window {α : Type} (xs : List α) (o l : Nat) (p : α → Bool)
    (h : xs.all p = true) : ((xs.drop o).take l).all p = true := by
  rw [List.all_eq_true] at h ⊢
  intro x hx
  exact h x (((List.take_sublist _ _).trans (List.drop_sublist _ _)).mem hx)

theorem pairwise_window {α : Type} (r : α → α → Prop) (xs : List α)
    (o l : Nat) (h : List.Pairwise r xs) :
    List.Pairwise r ((xs.drop o).take l) :=
  h.sublist ((List.take_sublist _ _).trans (List.drop_sublist _ _))

/-- Entry `i` of a monotone offsets list is bounded by the last entry. -/
theorem pairwise_getD_le_getLast (off : List Nat) (i : Nat)
    (hmono : List.Pairwise (· ≤ ·) off) (hi : i < off.length) :
    off.getD i 0 ≤ off.getLast?.getD 0 := by
  have hne : off ≠ [] := by
    intro h; subst h; cases hi
  have hlen : 0 < off.length := List.length_pos.mpr hne
  rw [List.getD_eq_getElem?_getD, List.getElem?_eq_getElem hi,
    List.getLast?_eq_getElem?, List.getElem?_eq_getElem (by omega)]
  simp only [Option.getD_some]
  rcases Nat.eq_or_lt_of_le (show i ≤ off.length - 1 by omega) with h | h
  · subst h
    exact le_refl _
  · rw [List.pairwise_iff_getElem] at hmono
    exact hmono i (off.length - 1) hi (by omega) h

/-- The first entry of a monotone offsets list bounds entry `i`. -/
theorem pairwise_getD_ge_head (off : List Nat) (i : Nat)
    (hmono : List.Pairwise (· ≤ ·) off) (hi : i < off.length) :
    off.getD 0 0 ≤ off.getD i 0 := by
  rw [List.getD_eq_getElem?_getD, List.getD_eq_getElem?_getD,
    List.getElem?_eq_getElem hi,
    List.getElem?_eq_getElem (by omega : 0 < off.length)]
  simp only [Option.getD_some]
  cases Nat.eq_zero_or_pos i with
  | inl h => subst h; rfl
  | inr h =>
      rw [List.pairwise_iff_getElem] at hmono
      exact hmono 0 i (by omega) hi h

/-- Adjacent monotone offsets. -/
theorem pairwise_getD_mono (off : List Nat) (i j : Nat)
    (hmono : List.Pairwise (· ≤ ·) off) (hij : i ≤ j) (hj : j < off.length) :
    off.getD i 0 ≤ off.getD j 0 := by
  rw [List.getD_eq_getElem?_getD, List.getD_eq_getElem?_getD,
    List.getElem?_eq_getElem hj, List.getElem?_eq_getElem (by omega)]
  simp only [Option.getD_some]
  rcases Nat.eq_or_lt_of_le hij with h | h
  · subst h; rfl
  · rw [List.pairwise_iff_getElem] at hmono
    exact hmono i j (by omega) hj h

/-! ### Unpacking the well-formedness conjunctions -/

theorem wf_boolean_iff (vs : List Bool) (val : Option (List Bool)) :
    wfA (.boolean vs val) = true
      ↔ validOk val vs.length = true ∧ vs.length < U64 := by
  simp [wfA, Bool.and_eq_true, decide_eq_true_eq, and_assoc]

theorem wf_primitive_iff (w : Nat) (vs : List Nat) (val : Option (List Bool)) :
    wfA (.primitive w vs val) = true
      ↔ validOk val vs.length = true ∧ (∀ x ∈ vs, x < 256 ^ w)
        ∧ 0 < w ∧ w * vs.length < U64 := by
  simp [wfA, Bool.and_eq_true, decide_eq_true_eq, List.all_eq_true, and_assoc]

theorem wf_binary_iff (lg u : Bool) (off vals : List Nat)
    (val : Option (List Bool)) :
    wfA (.binary lg u off vals val) = true
      ↔ off ≠ [] ∧ List.Pairwise (· ≤ ·) off
        ∧ off.getLast?.getD 0 ≤ vals.length
        ∧ (∀ x ∈ off, x < 256 ^ offW lg)
        ∧ validOk val (off.length - 1) = true
        ∧ offW lg * off.length < U64 ∧ vals.length < U64 := by
  simp [wfA, Bool.and_eq_true, decide_eq_true_eq, List.all_eq_true, and_assoc]

theorem wf_fsb_iff (s : Nat) (vs : List Nat) (val : Option (List Bool)) :
    wfA (.fixedSizeBinary s vs val) = true
      ↔ 0 < s ∧ validOk val (vs.length / s) = true ∧ vs.length < U64 := by
  simp [wfA, Bool.and_eq_true, decide_eq_true_eq, and_assoc]

theorem wf_list_iff (lg : Bool) (off : List Nat) (c : AArr)
    (val : Option (List Bool)) :
    wfA (.list lg off c val) = true
      ↔ off ≠ [] ∧ List.Pairwise (· ≤ ·) off
        ∧ off.getLast?.getD 0 ≤ lenA c
        ∧ (∀ x ∈ off, x < 256 ^ offW lg)
        ∧ validOk val (off.length - 1) = true
        ∧ offW lg * off.length < U64 ∧ wfA c = true := by
  simp [wfA, Bool.and_eq_true, decide_eq_true_eq, List.all_eq_true, and_assoc]

theorem wf_fsl_iff (n : Nat) (c : AArr) (val : Option (List Bool)) :
    wfA (.fixedSizeList n c val) = true
      ↔ 0 < n ∧ validOk val (lenA c / n) = true ∧ lenA c / n < U64
        ∧ wfA c = true := by
  simp [wfA, Bool.and_eq_true, decide_eq_true_eq, and_assoc]

theorem wf_struct_iff (cs : List AArr) (len : Nat) (val : Option (List Bool)) :
    wfA (.structA cs len val) = true
      ↔ validOk val len = true ∧ len < U64 ∧ wfStructList cs len = true := by
  simp [wfA, Bool.and_eq_true, decide_eq_true_eq, and_assoc]

theorem wf_map_iff (off : List Nat) (c : AArr) (val : Option (List Bool)) :
    wfA (.mapA off c val) = true
      ↔ off ≠ [] ∧ List.Pairwise (· ≤ ·) off
        ∧ off.getLast?.getD 0 ≤ lenA c
        ∧ (∀ x ∈ off, x < 256 ^ 4)
        ∧ validOk val (off.length - 1) = true
        ∧ 4 * off.length < U64 ∧ wfA c = true := by
  simp [wfA, Bool.and_eq_true, decide_eq_true_eq, List.all_eq_true, and_assoc]

theorem wf_union_some_iff (dense : Bool) (tids os : List Nat)
    (fs : List AArr) :
    wfA (.unionA dense tids (some os) fs) = true
      ↔ dense = true ∧ (∀ x ∈ tids, x < 256) ∧ 4 * tids.length < U64
        ∧ os.length = tids.length ∧ (∀ x ∈ os, x < 256 ^ 4)
        ∧ wfList fs = true := by
  simp [wfA, Bool.and_eq_true, decide_eq_true_eq, List.all_eq_true, and_assoc]

theorem wf_union_none_iff (dense : Bool) (tids : List Nat) (fs : List AArr) :
    wfA (.unionA dense tids none fs) = true
      ↔ dense = false ∧ (∀ x ∈ tids, x < 256) ∧ 4 * tids.length < U64
        ∧ wfStructList fs tids.length = true := by
  simp [wfA, Bool.and_eq_true, decide_eq_true_eq, List.all_eq_true, and_assoc]

theorem wf_dict_iff (kw id : Nat) (keys : List Nat)
    (kval : Option (List Bool)) (values : AArr) :
    wfA (.dictionary kw id keys kval values) = true
      ↔ 0 < kw ∧ (∀ x ∈ keys, x < 256 ^ kw)
        ∧ validOk kval keys.length = true ∧ kw * keys.length < U64
        ∧ wfA values = true := by
  simp [wfA, Bool.and_eq_true, decide_eq_true_eq, List.all_eq_true, and_assoc]

theorem wfStructList_iff (cs : List AArr) (len : Nat) :
    wfStructList cs len = true
      ↔ ∀ c ∈ cs, wfA c = true ∧ lenA c = len := by
  induction cs with
  | nil => simp [wfStructList]
  | cons c rest ih =>
      simp only [wfStructList, Bool.and_eq_true, beq_iff_eq, ih]
      constructor
      · rintro ⟨⟨h1, h2⟩, h3⟩ x hx
        rcases List.mem_cons.mp hx with rfl | hx
        · exact ⟨h1, h2⟩
        · exact h3 x hx
      · intro h
        exact ⟨⟨(h c (by simp)).1, (h c (by simp)).2⟩,
          fun x hx => h x (by simp [hx])⟩

theorem wfList_iff (cs : List AArr) :
    wfList cs = true ↔ ∀ c ∈ cs, wfA c = true := by
  induction cs with
  | nil => simp [wfList]
  | cons c rest ih => simp [wfList, Bool.and_eq_true, ih]

/-! ### Slicing preserves length, well-formedness and slots -/

theorem lenA_sliceA (a : AArr) (o l : Nat) (hwf : wfA a = true)
    (hb : o + l ≤ lenA a) : lenA (sliceA a o l) = l := by
  cases a with
  | null len => rfl
  | boolean vs val =>
      simp only [lenA] at hb
      simp only [sliceA, lenA, List.length_take, List.length_drop]
      omega
  | primitive w vs val =>
      simp only [lenA] at hb
      simp only [sliceA, lenA, List.length_take, List.length_drop]
      omega
  | binary lg u off vals val =>
      obtain ⟨hne, -⟩ := (wf_binary_iff lg u off vals val).mp hwf
      have hpos : 0 < off.length := List.length_pos.mpr hne
      simp only [lenA] at hb
      simp only [sliceA, lenA, List.length_take, List.length_drop]
      omega
  | fixedSizeBinary s vs val =>
      obtain ⟨hs, -⟩ := (wf_fsb_iff s vs val).mp hwf
      simp only [lenA] at hb
      simp only [sliceA, lenA, List.length_take, List.length_drop]
      have h1 : (o + l) * s ≤ vs.length := by
        rw [← Nat.le_div_iff_mul_le hs]
        exact hb
      rw [Nat.add_mul] at h1
      rw [Nat.min_eq_left (by omega : l * s ≤ vs.length - o * s)]
      exact Nat.mul_div_cancel l hs
  | list lg off c val =>
      obtain ⟨hne, -⟩ := (wf_list_iff lg off c val).mp hwf
      have hpos : 0 < off.length := List.length_pos.mpr hne
      simp only [lenA] at hb
      simp only [sliceA, lenA, List.length_take, List.length_drop]
      omega
  | fixedSizeList n c val =>
      obtain ⟨hn, -, -, hwfc⟩ := (wf_fsl_iff n c val).mp hwf
      simp only [lenA] at hb
      have h1 : (o + l) * n ≤ lenA c := by
        rw [← Nat.le_div_iff_mul_le hn]
        exact hb
      rw [Nat.add_mul] at h1
      simp only [sliceA, lenA]
      rw [lenA_sliceA c (o * n) (l * n) hwfc (by omega)]
      exact Nat.mul_div_cancel l hn
  | structA cs len val => rfl
  | mapA off c val =>
      obtain ⟨hne, -⟩ := (wf_map_iff off c val).mp hwf
      have hpos : 0 < off.length := List.length_pos.mpr hne
      simp only [lenA] at hb
      simp only [sliceA, lenA, List.length_take, List.length_drop]
      omega
  | unionA dense tids off fs =>
      simp only [lenA] at hb
      cases off with
      | some os =>
          simp only [sliceA, lenA, List.length_take, List.length_drop]; omega
      | none =>
          simp only [sliceA, lenA, List.length_take, List.length_drop]; omega
  | dictionary kw id keys kval values =>
      simp only [lenA] at hb
      simp only [sliceA, lenA, List.length_take, List.length_drop]
      omega

theorem window_getLast (xs : List Nat) (o t : Nat) (hb : o + t ≤ xs.length)
    (ht : 0 < t) :
    ((xs.drop o).take t).getLast?.getD 0 = xs.getD (o + (t - 1)) 0 := by
  rw [List.getLast?_eq_getElem?, ← List.getD_eq_getElem?_getD,
    window_length xs o t hb]
  exact getD_window xs o t (t - 1) 0 (by omega) (by omega)

theorem mem_window {α : Type} {xs : List α} {o l : Nat} {x : α}
    (h : x ∈ (xs.drop o).take l) : x ∈ xs :=
  ((List.take_sublist _ _).trans (List.drop_sublist _ _)).mem h

mutual

theorem wfA_sliceA (a : AArr) (o l : Nat) (hwf : wfA a = true)
    (hb : o + l ≤ lenA a) : wfA (sliceA a o l) = true := by
  cases a with
  | null len => rfl
  | boolean vs val =>
      obtain ⟨hok, hu⟩ := (wf_boolean_iff vs val).mp hwf
      simp only [lenA] at hb
      rw [sliceA, wf_boolean_iff, window_length vs o l hb]
      exact ⟨validOk_winVal val o l vs.length hok hb, by omega⟩
  | primitive w vs val =>
      obtain ⟨hok, hall, hw, hu⟩ := (wf_primitive_iff w vs val).mp hwf
      simp only [lenA] at hb
      rw [sliceA, wf_primitive_iff, window_length vs o l hb]
      refine ⟨validOk_winVal val o l vs.length hok hb,
        fun x hx => hall x (mem_window hx), hw, ?_⟩
      calc w * l ≤ w * vs.length := Nat.mul_le_mul_left w (by omega)
        _ < U64 := hu
  | binary lg u off vals val =>
      obtain ⟨hne, hmono, hlast, hall, hok, hsz, hv⟩ :=
        (wf_binary_iff lg u off vals val).mp hwf
      have hpos : 0 < off.length := List.length_pos.mpr hne
      simp only [lenA] at hb
      have hb1 : o + (l + 1) ≤ off.length := by omega
      rw [sliceA, wf_binary_iff, window_length off o (l + 1) hb1]
      refine ⟨?_, pairwise_window _ off o (l + 1) hmono, ?_,
        fun x hx => hall x (mem_window hx), ?_, ?_, hv⟩
      · intro h
        have := congrArg List.length h
        rw [window_length off o (l + 1) hb1] at this
        simp at this
      · rw [window_getLast off o (l + 1) hb1 (by omega)]
        calc off.getD (o + (l + 1 - 1)) 0 ≤ off.getLast?.getD 0 :=
              pairwise_getD_le_getLast off _ hmono (by omega)
          _ ≤ vals.length := hlast
      · have : l + 1 - 1 = l := by omega
        rw [this]
        exact validOk_winVal val o l (off.length - 1) hok (by omega)
      · calc offW lg * (l + 1) ≤ offW lg * off.length :=
              Nat.mul_le_mul_left _ (by omega)
          _ < U64 := hsz
  | fixedSizeBinary s vs val =>
      obtain ⟨hs, hok, hu⟩ := (wf_fsb_iff s vs val).mp hwf
      simp only [lenA] at hb
      have h1 : (o + l) * s ≤ vs.length := (Nat.le_div_iff_mul_le hs).mp hb
      rw [Nat.add_mul] at h1
      rw [sliceA, wf_fsb_iff, window_length vs (o * s) (l * s) (by omega)]
      rw [Nat.mul_div_cancel l hs]
      exact ⟨hs, validOk_winVal val o l (vs.length / s) hok hb, by omega⟩
  | list lg off c val =>
      obtain ⟨hne, hmono, hlast, hall, hok, hsz, hwfc⟩ :=
        (wf_list_iff lg off c val).mp hwf
      have hpos : 0 < off.length := List.length_pos.mpr hne
      simp only [lenA] at hb
      have hb1 : o + (l + 1) ≤ off.length := by omega
      rw [sliceA, wf_list_iff, window_length off o (l + 1) hb1]
      refine ⟨?_, pairwise_window _ off o (l + 1) hmono, ?_,
        fun x hx => hall x (mem_window hx), ?_, ?_, hwfc⟩
      · intro h
        have := congrArg List.length h
        rw [window_length off o (l + 1) hb1] at this
        simp at this
      · rw [window_getLast off o (l + 1) hb1 (by omega)]
        calc off.getD (o + (l + 1 - 1)) 0 ≤ off.getLast?.getD 0 :=
              pairwise_getD_le_getLast off _ hmono (by omega)
          _ ≤ lenA c := hlast
      · have : l + 1 - 1 = l := by omega
        rw [this]
        exact validOk_winVal val o l (off.length - 1) hok (by omega)
      · calc offW lg * (l + 1) ≤ offW lg * off.length :=
              Nat.mul_le_mul_left _ (by omega)
          _ < U64 := hsz
  | fixedSizeList n c val =>
      obtain ⟨hn, hok, hu, hwfc⟩ := (wf_fsl_iff n c val).mp hwf
      simp only [lenA] at hb
      have h1 : (o + l) * n ≤ lenA c := (Nat.le_div_iff_mul_le hn).mp hb
      rw [Nat.add_mul] at h1
      rw [sliceA, wf_fsl_iff]
      rw [lenA_sliceA c (o * n) (l * n) hwfc (by omega)]
      rw [Nat.mul_div_cancel l hn]
      exact ⟨hn, validOk_winVal val o l (lenA c / n) hok hb, by omega,
        wfA_sliceA c (o * n) (l * n) hwfc (by omega)⟩
  | structA cs len val =>
      obtain ⟨hok, hu, hcs⟩ := (wf_struct_iff cs len val).mp hwf
      simp only [lenA] at hb
      rw [sliceA, wf_struct_iff]
      exact ⟨validOk_winVal val o l len hok hb, by omega,
        wfStructList_sliceList cs o l len hcs hb⟩
  | mapA off c val =>
      obtain ⟨hne, hmono, hlast, hall, hok, hsz, hwfc⟩ :=
        (wf_map_iff off c val).mp hwf
      have hpos : 0 < off.length := List.length_pos.mpr hne
      simp only [lenA] at hb
      have hb1 : o + (l + 1) ≤ off.length := by omega
      rw [sliceA, wf_map_iff, window_length off o (l + 1) hb1]
      refine ⟨?_, pairwise_window _ off o (l + 1) hmono, ?_,
        fun x hx => hall x (mem_window hx), ?_, ?_, hwfc⟩
      · intro h
        have := congrArg List.length h
        rw [window_length off o (l + 1) hb1] at this
        simp at this
      · rw [window_getLast off o (l + 1) hb1 (by omega)]
        calc off.getD (o + (l + 1 - 1)) 0 ≤ off.getLast?.getD 0 :=
              pairwise_getD_le_getLast off _ hmono (by omega)
          _ ≤ lenA c := hlast
      · have : l + 1 - 1 = l := by omega
        rw [this]
        exact validOk_winVal val o l (off.length - 1) hok (by omega)
      · calc 4 * (l + 1) ≤ 4 * off.length := Nat.mul_le_mul_left _ (by omega)
          _ < U64 := hsz
  | unionA dense tids off fs =>
      simp only [lenA] at hb
      cases off with
      | some os =>
          obtain ⟨hd, hall, hu, hlen, hallo, hfs⟩ :=
            (wf_union_some_iff dense tids os fs).mp hwf
          rw [sliceA]
          rw [wf_union_some_iff, window_length tids o l hb]
          exact ⟨hd, fun x hx => hall x (mem_window hx), by omega,
            by rw [window_length os o l (by omega)],
            fun x hx => hallo x (mem_window hx), hfs⟩
      | none =>
          obtain ⟨hd, hall, hu, hfs⟩ :=
            (wf_union_none_iff dense tids fs).mp hwf
          rw [sliceA]
          rw [wf_union_none_iff, window_length tids o l hb]
          exact ⟨hd, fun x hx => hall x (mem_window hx), by omega,
            wfStructList_sliceList fs o l tids.length hfs hb⟩
  | dictionary kw id keys kval values =>
      obtain ⟨hkw, hall, hok, hu, hwfc⟩ :=
        (wf_dict_iff kw id keys kval values).mp hwf
      simp only [lenA] at hb
      rw [sliceA, wf_dict_iff, window_length keys o l hb]
      refine ⟨hkw, fun x hx => hall x (mem_window hx),
        validOk_winVal kval o l keys.length hok hb, ?_, hwfc⟩
      calc kw * l ≤ kw * keys.length := Nat.mul_le_mul_left _ (by omega)
        _ < U64 := hu

theorem wfStructList_sliceList (cs : List AArr) (o l len : Nat)
    (hwf : wfStructList cs len = true) (hb : o + l ≤ len) :
    wfStructList (sliceList cs o l) l = true := by
  cases cs with
  | nil => rfl
  | cons c rest =>
      have h := (wfStructList_iff (c :: rest) len).mp hwf
      obtain ⟨hwc, hlc⟩ := h c (by simp)
      rw [sliceList, wfStructList]
      simp only [Bool.and_eq_true, beq_iff_eq]
      refine ⟨⟨wfA_sliceA c o l hwc (by omega), lenA_sliceA c o l hwc (by omega)⟩, ?_⟩
      exact wfStructList_sliceList rest o l len
        ((wfStructList_iff rest len).mpr fun x hx => h x (by simp [hx])) hb

end

theorem slotsA_length (a : AArr) : (slotsA a).length = lenA a := by
  cases a <;> simp [slotsA, lenA]

theorem slotsList_length (cs : List AArr) : (slotsList cs).length = cs.length := by
  induction cs with
  | nil => rfl
  | cons c rest ih => simp [slotsList, ih]

theorem slotsList_mem {cs : List AArr} {s : List (Option Val)}
    (h : s ∈ slotsList cs) : ∃ c, c ∈ cs ∧ slotsA c = s := by
  induction cs with
  | nil => cases h
  | cons c rest ih =>
      rw [slotsList, List.mem_cons] at h
      rcases h with h | h
      · exact ⟨c, by simp, h.symm⟩
      · obtain ⟨x, hx1, hx2⟩ := ih h
        exact ⟨x, by simp [hx1], hx2⟩

theorem window_map_range {α : Type} (n o l : Nat) (f : Nat → α)
    (hb : o + l ≤ n) :
    ((((List.range n).map f).drop o).take l)
      = (List.range l).map (fun i => f (o + i)) := by
  apply List.ext_getElem
  · simp
    omega
  · intro i h1 h2
    simp only [List.getElem_take, List.getElem_drop, List.getElem_map,
      List.getElem_range]

theorem getD_map_window (xs : List (List (Option Val))) (t o l : Nat) :
    (xs.map (fun s => (s.drop o).take l)).getD t []
      = (((xs.getD t []).drop o).take l) := by
  rw [List.getD_eq_getElem?_getD, List.getD_eq_getElem?_getD, List.getElem?_map]
  cases h : xs[t]? <;> simp

theorem slotsList_getD_length (fs : List AArr) (len : Nat)
    (hwf : wfStructList fs len = true) (t : Nat) (ht : t < fs.length) :
    ((slotsList fs).getD t []).length = len := by
  induction fs generalizing t with
  | nil => cases ht
  | cons c rest ih =>
      have h := (wfStructList_iff (c :: rest) len).mp hwf
      cases t with
      | zero =>
          rw [slotsList]
          simp only [List.getD_cons_zero]
          rw [slotsA_length]
          exact (h c (by simp)).2
      | succ t =>
          rw [slotsList]
          simp only [List.getD_cons_succ]
          exact ih ((wfStructList_iff rest len).mpr
            fun x hx => h x (by simp [hx])) t (by simpa using ht)

mutual

theorem slotsA_sliceA (a : AArr) (o l : Nat) (hwf : wfA a = true)
    (hb : o + l ≤ lenA a) :
    slotsA (sliceA a o l) = ((slotsA a).drop o).take l := by
  cases a with
  | null len =>
      simp only [lenA] at hb
      rw [sliceA]
      simp only [slotsA, List.drop_replicate, List.take_replicate]
      rw [Nat.min_eq_left (by omega)]
  | boolean vs val =>
      obtain ⟨hok, -⟩ := (wf_boolean_iff vs val).mp hwf
      simp only [lenA] at hb
      rw [sliceA]
      simp only [slotsA]
      rw [window_length vs o l hb, window_map_range vs.length o l _ hb]
      apply List.map_congr_left
      intro i hi
      rw [List.mem_range] at hi
      rw [validAt_winVal val o l i vs.length hok hi hb,
        getD_window vs o l i false hi (by omega)]
  | primitive w vs val =>
      obtain ⟨hok, -⟩ := (wf_primitive_iff w vs val).mp hwf
      simp only [lenA] at hb
      rw [sliceA]
      simp only [slotsA]
      rw [window_length vs o l hb, window_map_range vs.length o l _ hb]
      apply List.map_congr_left
      intro i hi
      rw [List.mem_range] at hi
      rw [validAt_winVal val o l i vs.length hok hi hb,
        getD_window vs o l i 0 hi (by omega)]
  | binary lg u off vals val =>
      obtain ⟨hne, hmono, hlast, hall, hok, -⟩ :=
        (wf_binary_iff lg u off vals val).mp hwf
      have hpos : 0 < off.length := List.length_pos.mpr hne
      simp only [lenA] at hb
      have hb1 : o + (l + 1) ≤ off.length := by omega
      rw [sliceA]
      simp only [slotsA]
      rw [window_length off o (l + 1) hb1]
      have hll : l + 1 - 1 = l := by omega
      rw [hll, window_map_range (off.length - 1) o l _ (by omega)]
      apply List.map_congr_left
      intro i hi
      rw [List.mem_range] at hi
      rw [validAt_winVal val o l i (off.length - 1) hok hi (by omega),
        getD_window off o (l + 1) i 0 (by omega) (by omega),
        getD_window off o (l + 1) (i + 1) 0 (by omega) (by omega)]
      rw [show o + (i + 1) = o + i + 1 by omega]
  | fixedSizeBinary s vs val =>
      obtain ⟨hs, hok, -⟩ := (wf_fsb_iff s vs val).mp hwf
      simp only [lenA] at hb
      have h1 : (o + l) * s ≤ vs.length := (Nat.le_div_iff_mul_le hs).mp hb
      rw [Nat.add_mul] at h1
      rw [sliceA]
      simp only [slotsA]
      rw [window_length vs (o * s) (l * s) (by omega),
        Nat.mul_div_cancel l hs, window_map_range (vs.length / s) o l _ hb]
      apply List.map_congr_left
      intro i hi
      rw [List.mem_range] at hi
      rw [validAt_winVal val o l i (vs.length / s) hok hi hb]
      rw [window_window vs (o * s) (l * s) (i * s) s
        (by rw [← Nat.succ_mul]; exact Nat.mul_le_mul_right s hi)]
      rw [show o * s + i * s = (o + i) * s by rw [Nat.add_mul]]
  | list lg off c val =>
      obtain ⟨hne, hmono, hlast, hall, hok, -⟩ :=
        (wf_list_iff lg off c val).mp hwf
      have hpos : 0 < off.length := List.length_pos.mpr hne
      simp only [lenA] at hb
      have hb1 : o + (l + 1) ≤ off.length := by omega
      rw [sliceA]
      simp only [slotsA]
      rw [window_length off o (l + 1) hb1]
      have hll : l + 1 - 1 = l := by omega
      rw [hll, window_map_range (off.length - 1) o l _ (by omega)]
      apply List.map_congr_left
      intro i hi
      rw [List.mem_range] at hi
      rw [validAt_winVal val o l i (off.length - 1) hok hi (by omega),
        getD_window off o (l + 1) i 0 (by omega) (by omega),
        getD_window off o (l + 1) (i + 1) 0 (by omega) (by omega)]
      rw [show o + (i + 1) = o + i + 1 by omega]
  | fixedSizeList n c val =>
      obtain ⟨hn, hok, -, hwfc⟩ := (wf_fsl_iff n c val).mp hwf
      simp only [lenA] at hb
      have h1 : (o + l) * n ≤ lenA c := (Nat.le_div_iff_mul_le hn).mp hb
      rw [Nat.add_mul] at h1
      rw [sliceA]
      simp only [slotsA]
      rw [lenA_sliceA c (o * n) (l * n) hwfc (by omega),
        Nat.mul_div_cancel l hn, window_map_range (lenA c / n) o l _ hb,
        slotsA_sliceA c (o * n) (l * n) hwfc (by omega)]
      apply List.map_congr_left
      intro i hi
      rw [List.mem_range] at hi
      rw [validAt_winVal val o l i (lenA c / n) hok hi hb]
      rw [window_window (slotsA c) (o * n) (l * n) (i * n) n
        (by rw [← Nat.succ_mul]; exact Nat.mul_le_mul_right n hi)]
      rw [show o * n + i * n = (o + i) * n by rw [Nat.add_mul]]
  | structA cs len val =>
      obtain ⟨hok, -, hcs⟩ := (wf_struct_iff cs len val).mp hwf
      simp only [lenA] at hb
      rw [sliceA]
      simp only [slotsA]
      rw [window_map_range len o l _ hb,
        slotsList_sliceList cs o l len hcs hb]
      apply List.map_congr_left
      intro i hi
      rw [List.mem_range] at hi
      rw [validAt_winVal val o l i len hok hi hb]
      have hmaps : ((slotsList cs).map fun s => (s.drop o).take l).map
            (fun s => s.getD i none)
          = (slotsList cs).map (fun s => s.getD (o + i) none) := by
        rw [List.map_map]
        apply List.map_congr_left
        intro s hs
        obtain ⟨c, hc, hcs2⟩ := slotsList_mem hs
        have hlc : s.length = len := by
          rw [← hcs2, slotsA_length]
          exact ((wfStructList_iff cs len).mp hcs c hc).2
        simp only [Function.comp_apply]
        exact getD_window s o l i none hi (by omega)
      rw [hmaps]
  | mapA off c val =>
      obtain ⟨hne, hmono, hlast, hall, hok, -⟩ :=
        (wf_map_iff off c val).mp hwf
      have hpos : 0 < off.length := List.length_pos.mpr hne
      simp only [lenA] at hb
      have hb1 : o + (l + 1) ≤ off.length := by omega
      rw [sliceA]
      simp only [slotsA]
      rw [window_length off o (l + 1) hb1]
      have hll : l + 1 - 1 = l := by omega
      rw [hll, window_map_range (off.length - 1) o l _ (by omega)]
      apply List.map_congr_left
      intro i hi
      rw [List.mem_range] at hi
      rw [validAt_winVal val o l i (off.length - 1) hok hi (by omega),
        getD_window off o (l + 1) i 0 (by omega) (by omega),
        getD_window off o (l + 1) (i + 1) 0 (by omega) (by omega)]
      rw [show o + (i + 1) = o + i + 1 by omega]
  | unionA dense tids off fs =>
      simp only [lenA] at hb
      cases off with
      | some os =>
          obtain ⟨-, -, -, hlen, -, -⟩ :=
            (wf_union_some_iff dense tids os fs).mp hwf
          rw [sliceA]
          simp only [slotsA]
          rw [window_length tids o l hb, window_map_range tids.length o l _ hb]
          apply List.map_congr_left
          intro i hi
          rw [List.mem_range] at hi
          rw [getD_window tids o l i 0 hi (by omega),
            getD_window os o l i 0 hi (by omega)]
      | none =>
          obtain ⟨-, -, -, hfs⟩ := (wf_union_none_iff dense tids fs).mp hwf
          rw [sliceA]
          simp only [slotsA]
          rw [window_length tids o l hb, window_map_range tids.length o l _ hb,
            slotsList_sliceList fs o l tids.length hfs hb]
          apply List.map_congr_left
          intro i hi
          rw [List.mem_range] at hi
          rw [getD_window tids o l i 0 hi (by omega), getD_map_window]
          by_cases ht : tids.getD (o + i) 0 < fs.length
          · have hlen := slotsList_getD_length fs tids.length hfs _ ht
            exact getD_window _ o l i none hi (by rw [hlen]; omega)
          · have h0 : (slotsList fs).getD (tids.getD (o + i) 0) []
                = ([] : List (Option Val)) := by
              rw [List.getD_eq_getElem?_getD,
                List.getElem?_eq_none (by rw [slotsList_length]; omega)]
              rfl
            rw [h0]
            simp
  | dictionary kw id keys kval values =>
      obtain ⟨-, -, hok, -, -⟩ :=
        (wf_dict_iff kw id keys kval values).mp hwf
      simp only [lenA] at hb
      rw [sliceA]
      simp only [slotsA]
      rw [window_length keys o l hb, window_map_range keys.length o l _ hb]
      apply List.map_congr_left
      intro i hi
      rw [List.mem_range] at hi
      rw [validAt_winVal kval o l i keys.length hok hi hb,
        getD_window keys o l i 0 hi (by omega)]

theorem slotsList_sliceList (cs : List AArr) (o l len : Nat)
    (hwf : wfStructList cs len = true) (hb : o + l ≤ len) :
    slotsList (sliceList cs o l)
      = (slotsList cs).map (fun s => (s.drop o).take l) := by
  cases cs with
  | nil => rfl
  | cons c rest =>
      have h := (wfStructList_iff (c :: rest) len).mp hwf
      obtain ⟨hwc, hlc⟩ := h c (by simp)
      rw [sliceList, slotsList, slotsList, List.map_cons]
      rw [slotsA_sliceA c o l hwc (by omega)]
      rw [slotsList_sliceList rest o l len
        ((wfStructList_iff rest len).mpr fun x hx => h x (by simp [hx])) hb]

end

/-! ### Round-trip infrastructure: buffer-level read-back of each write
primitive -/

/-- The running offset equals the body length.  Every write appends at
the body's end and advances the offset by the appended (padded) size, so
this holds of every state the writer threads, starting from the empty
one. -/
def StOk (s : WriterState) : Prop := s.offset = s.arrow_data.length

/-- The second state's body extends the first's. -/
def ExtD (s s' : WriterState) : Prop :=
  ∃ d, s'.arrow_data = s.arrow_data ++ d

/-- The body handed to the reader extends this state's body (later
writes only append bytes). -/
def BodyOk (s : WriterState) (body : List Nat) : Prop :=
  ∃ d, body = s.arrow_data ++ d

theorem extD_refl (s : WriterState) : ExtD s s := ⟨[], by simp⟩

theorem extD_trans {s1 s2 s3 : WriterState} (h1 : ExtD s1 s2)
    (h2 : ExtD s2 s3) : ExtD s1 s3 := by
  obtain ⟨d1, hd1⟩ := h1
  obtain ⟨d2, hd2⟩ := h2
  exact ⟨d1 ++ d2, by rw [hd2, hd1, List.append_assoc]⟩

theorem bodyOk_of_extD {s s' : WriterState} {body : List Nat}
    (h1 : ExtD s s') (h2 : BodyOk s' body) : BodyOk s body := by
  obtain ⟨d1, hd1⟩ := h1
  obtain ⟨d2, hd2⟩ := h2
  exact ⟨d1 ++ d2, by rw [hd2, hd1, List.append_assoc]⟩

/-- The byte payload a write primitive appends for raw content `raw`:
the compression framing of §4.1 (8-byte little-endian uncompressed
length, then the codec output), or the raw bytes themselves. -/
def framed (comp : Option Codec) (raw : List Nat) : List Nat :=
  match comp with
  | none => raw
  | some c => encLE 8 raw.length ++ c.compress raw

theorem write_bytes_framed (bytes : List Nat) (comp : Option Codec)
    (s : WriterState) :
    write_bytes bytes comp s = finishInto s (framed comp bytes) := by
  cases comp <;> rfl

theorem _write_buffer_eq (w : Nat) (nle le : Bool) (buffer : List Nat) :
    _write_buffer w nle le buffer = encodeElems le w buffer := by
  unfold _write_buffer
  by_cases h : le = nle
  · rw [if_pos h, h]
  · rw [if_neg h]

theorem write_buffer_framed (w : Nat) (nle le : Bool) (vals : List Nat)
    (comp : Option Codec) (s s' : WriterState)
    (hw : write_buffer w nle le vals comp s = some s') :
    s' = finishInto s (framed comp (encodeElems le w vals)) := by
  cases comp with
  | none =>
      simp only [write_buffer, Option.some.injEq] at hw
      rw [← hw, _write_buffer_eq]
      rfl
  | some c =>
      simp only [write_buffer, _write_compressed_buffer] at hw
      by_cases h : le = nle
      · subst h
        simp only [if_pos rfl, eq_self_iff_true, if_true,
          Option.some.injEq] at hw
        rw [← hw]
        simp [framed]
      · simp [if_neg h] at hw

theorem write_buffer_from_iter_framed (w : Nat) (le : Bool)
    (vals : List Nat) (comp : Option Codec) (s : WriterState) :
    write_buffer_from_iter w le vals comp s
      = finishInto s (framed comp (encodeElems le w vals)) := by
  have hi : _write_buffer_from_iter w le vals = encodeElems le w vals := by
    unfold _write_buffer_from_iter
    cases le <;> simp
  cases comp with
  | none => simp [write_buffer_from_iter, hi, framed]
  | some c =>
      simp [write_buffer_from_iter, _write_compressed_buffer_from_iter, hi,
        framed]

/-- Core read-back: the buffer record `finishInto` emits points exactly
at the payload it appended, and `readBufferBytes` undoes the framing. -/
theorem finishInto_read (s : WriterState) (raw : List Nat)
    (comp : Option Codec) (hok : CodecOk comp) (hst : StOk s)
    (hu : raw.length < U64) :
    StOk (finishInto s (framed comp raw))
    ∧ (finishInto s (framed comp raw)).nodes = s.nodes
    ∧ ExtD s (finishInto s (framed comp raw))
    ∧ (finishInto s (framed comp raw)).buffers
        = s.buffers ++ [⟨s.offset, (framed comp raw).length⟩]
    ∧ ∀ body, BodyOk (finishInto s (framed comp raw)) body →
        readBufferBytes body ⟨s.offset, (framed comp raw).length⟩ comp
          = .ok raw := by
  obtain ⟨hbuf, hlen, hoff, hnodes⟩ := finishInto_goal s (framed comp raw) _ rfl
  have hst0 : s.offset = s.arrow_data.length := hst
  refine ⟨?_, hnodes, ?_, hbuf, ?_⟩
  · show _ = _
    rw [hoff, hlen, hst0]
  · exact ⟨framed comp raw
        ++ List.replicate (pad_to_8 (framed comp raw).length) 0,
      by rw [finishInto_data, List.append_assoc]⟩
  · intro body hbody
    obtain ⟨d, hd⟩ := hbody
    rw [finishInto_data] at hd
    have hbody2 : body = s.arrow_data
        ++ (framed comp raw
            ++ (List.replicate (pad_to_8 (framed comp raw).length) 0 ++ d)) := by
      rw [hd]
      simp [List.append_assoc]
    have hwin : (body.drop s.offset).take (framed comp raw).length
        = framed comp raw := by
      rw [hbody2, hst0, List.drop_left' rfl, List.take_left' rfl]
    have hb : s.offset + (framed comp raw).length ≤ body.length := by
      rw [hbody2, hst0]
      simp only [List.length_append]
      omega
    simp only [readBufferBytes, if_pos hb, hwin]
    cases comp with
    | none => rfl
    | some c =>
        have hcc : ∀ bs, c.decompress (c.compress bs) = bs := hok
        have h8 : (8 : Nat) ≤ (framed (some c) raw).length := by
          simp [framed]
        have htake : ((framed (some c) raw).take 8) = encLE 8 raw.length := by
          simp only [framed]
          exact List.take_left' (encLE_length 8 raw.length)
        have hdrop : ((framed (some c) raw).drop 8) = c.compress raw := by
          simp only [framed]
          exact List.drop_left' (encLE_length 8 raw.length)
        have hdec : decLE ((framed (some c) raw).take 8) = raw.length := by
          rw [htake, decLE_encLE]
          have h256 : (256 : Nat) ^ 8 = U64 := by norm_num [U64]
          rw [h256]
          exact Nat.mod_eq_of_lt hu
        simp only [hdec, hdrop, hcc raw, if_pos h8]
        simp

/-- What one buffer-producing write primitive does to the state: keeps
the offset invariant, leaves the nodes alone, appends body bytes, and
appends exactly one buffer record. -/
def OpOut (s s' : WriterState) (b : IpcBuffer) : Prop :=
  StOk s' ∧ s'.nodes = s.nodes ∧ ExtD s s' ∧ s'.buffers = s.buffers ++ [b]

theorem write_buffer_read (w : Nat) (nle le : Bool) (vals : List Nat)
    (comp : Option Codec) (s s' : WriterState)
    (hw : write_buffer w nle le vals comp s = some s')
    (hok : CodecOk comp) (hst : StOk s)
    (hall : ∀ x ∈ vals, x < 256 ^ w) (hu : w * vals.length < U64) :
    ∃ b, OpOut s s' b
    ∧ ∀ count bs body, count = vals.length → BodyOk s' body →
        read_values w count le (b :: bs) body comp = .ok (vals, bs) := by
  have hs' := write_buffer_framed w nle le vals comp s s' hw
  subst hs'
  have hu2 : (encodeElems le w vals).length < U64 := by
    rw [encodeElems_length]; exact hu
  obtain ⟨h1, h2, h3, h4, h5⟩ :=
    finishInto_read s (encodeElems le w vals) comp hok hst hu2
  refine ⟨_, ⟨h1, h2, h3, h4⟩, ?_⟩
  intro count bs body hcount hbody
  subst hcount
  have hread := h5 body hbody
  simp only [read_values, hread]
  have hle : w * vals.length ≤ (encodeElems le w vals).length := by
    rw [encodeElems_length]
  rw [if_pos hle]
  have hdec := decElems_encodeElems le w vals [] hall
  rw [List.append_nil] at hdec
  rw [hdec]

theorem write_buffer_from_iter_read (w : Nat) (le : Bool) (vals : List Nat)
    (comp : Option Codec) (s s' : WriterState)
    (hw : write_buffer_from_iter w le vals comp s = s')
    (hok : CodecOk comp) (hst : StOk s)
    (hall : ∀ x ∈ vals, x < 256 ^ w) (hu : w * vals.length < U64) :
    ∃ b, OpOut s s' b
    ∧ ∀ count bs body, count = vals.length → BodyOk s' body →
        read_values w count le (b :: bs) body comp = .ok (vals, bs) := by
  rw [write_buffer_from_iter_framed] at hw
  subst hw
  have hu2 : (encodeElems le w vals).length < U64 := by
    rw [encodeElems_length]; exact hu
  obtain ⟨h1, h2, h3, h4, h5⟩ :=
    finishInto_read s (encodeElems le w vals) comp hok hst hu2
  refine ⟨_, ⟨h1, h2, h3, h4⟩, ?_⟩
  intro count bs body hcount hbody
  subst hcount
  have hread := h5 body hbody
  simp only [read_values, hread]
  have hle : w * vals.length ≤ (encodeElems le w vals).length := by
    rw [encodeElems_length]
  rw [if_pos hle]
  have hdec := decElems_encodeElems le w vals [] hall
  rw [List.append_nil] at hdec
  rw [hdec]

theorem write_bytes_read (bytes : List Nat) (comp : Option Codec)
    (s s' : WriterState) (hw : write_bytes bytes comp s = s')
    (hok : CodecOk comp) (hst : StOk s) (hu : bytes.length < U64) :
    ∃ b, OpOut s s' b
    ∧ ∀ count bs body, count ≤ bytes.length → BodyOk s' body →
        read_bytes_buffer count (b :: bs) body comp
          = .ok (bytes.take count, bs) := by
  rw [write_bytes_framed] at hw
  subst hw
  obtain ⟨h1, h2, h3, h4, h5⟩ := finishInto_read s bytes comp hok hst hu
  refine ⟨_, ⟨h1, h2, h3, h4⟩, ?_⟩
  intro count bs body hcount hbody
  have hread := h5 body hbody
  simp only [read_bytes_buffer, hread]
  rw [if_pos hcount]

theorem write_bitmap_values_read (vs : List Bool) (comp : Option Codec)
    (s s' : WriterState)
    (hw : write_bitmap (some vs) vs.length comp s = some s')
    (hok : CodecOk comp) (hst : StOk s) (hu : vs.length < U64) :
    ∃ b, OpOut s s' b
    ∧ ∀ bs body, BodyOk s' body →
        read_bitmap_values vs.length (b :: bs) body comp = .ok (vs, bs) := by
  simp only [write_bitmap, if_pos rfl, eq_self_iff_true, if_true,
    Option.some.injEq] at hw
  rw [write_bytes_framed] at hw
  subst hw
  have hu2 : (bitsToBytes vs).length < U64 := by
    rw [bitsToBytes_length]; omega
  obtain ⟨h1, h2, h3, h4, h5⟩ :=
    finishInto_read s (bitsToBytes vs) comp hok hst hu2
  refine ⟨_, ⟨h1, h2, h3, h4⟩, ?_⟩
  intro bs body hbody
  have hread := h5 body hbody
  simp only [read_bitmap_values, hread]
  have hle : (vs.length + 7) / 8 ≤ (bitsToBytes vs).length := by
    rw [bitsToBytes_length]
  rw [if_pos hle, bytesToBits_bitsToBytes]

/-- What the validity bitmap reads back as: identical, except that an
uncompressed empty bitmap (a zero-length buffer) reads back as a missing
validity. -/
def roundVal (comp : Option Codec) (len : Nat) :
    Option (List Bool) → Option (List Bool)
  | none => none
  | some bits =>
      match comp with
      | none => if len = 0 then none else some bits
      | some _ => some bits

theorem validAt_roundVal (comp : Option Codec) (len : Nat)
    (val : Option (List Bool)) (i : Nat) (hi : i < len) :
    validAt (roundVal comp len val) i = validAt val i := by
  cases val with
  | none => rfl
  | some bits =>
      cases comp with
      | some c => rfl
      | none =>
          simp only [roundVal]
          by_cases h0 : len = 0
          · exact absurd hi (by omega)
          · rw [if_neg h0]

theorem nullOf_roundVal (comp : Option Codec) (len : Nat)
    (val : Option (List Bool)) (hvo : validOk val len = true) :
    nullOf (roundVal comp len val) = nullOf val := by
  cases val with
  | none => rfl
  | some bits =>
      cases comp with
      | some c => rfl
      | none =>
          simp only [roundVal]
          by_cases h0 : len = 0
          · rw [if_pos h0]
            simp only [validOk, beq_iff_eq] at hvo
            have hb : bits = [] := List.length_eq_zero.mp (by omega)
            subst hb
            rfl
          · rw [if_neg h0]

theorem validityBits_roundVal (comp : Option Codec) (len : Nat)
    (val : Option (List Bool)) (hvo : validOk val len = true) :
    validityBits len (roundVal comp len val) = validityBits len val := by
  cases val with
  | none => rfl
  | some bits =>
      cases comp with
      | some c => rfl
      | none =>
          simp only [roundVal]
          by_cases h0 : len = 0
          · rw [if_pos h0]
            simp only [validOk, beq_iff_eq] at hvo
            have hb : bits = [] := List.length_eq_zero.mp (by omega)
            subst hb
            subst h0
            rfl
          · rw [if_neg h0]

theorem validOk_roundVal (comp : Option Codec) (len : Nat)
    (val : Option (List Bool)) (hvo : validOk val len = true) :
    validOk (roundVal comp len val) len = true := by
  cases val with
  | none => rfl
  | some bits =>
      cases comp with
      | some c => exact hvo
      | none =>
          simp only [roundVal]
          by_cases h0 : len = 0
          · rw [if_pos h0]
            rfl
          · rw [if_neg h0]
            exact hvo

theorem write_bitmap_read (val : Option (List Bool)) (len : Nat)
    (comp : Option Codec) (s s' : WriterState) (node : FieldNode)
    (hw : write_bitmap val len comp s = some s')
    (hok : CodecOk comp) (hst : StOk s)
    (hnc : node.null_count = nullOf val) (hnl : node.length = len)
    (hu : len < U64) :
    ∃ b, OpOut s s' b
    ∧ ∀ bs body, BodyOk s' body →
        read_validity node (b :: bs) body comp
          = .ok (roundVal comp len val, bs) := by
  cases val with
  | none =>
      simp only [write_bitmap, Option.some.injEq] at hw
      subst hw
      refine ⟨⟨s.offset, 0⟩, ⟨hst, rfl, ⟨[], by simp⟩, rfl⟩, ?_⟩
      intro bs body hbody
      simp only [read_validity, if_pos rfl, eq_self_iff_true, if_true]
      rw [if_pos (show node.null_count = 0 by rw [hnc]; rfl)]
      rfl
  | some bits =>
      simp only [write_bitmap] at hw
      by_cases hbl : bits.length = len
      · rw [if_pos hbl] at hw
        simp only [Option.some.injEq] at hw
        rw [write_bytes_framed] at hw
        subst hw
        have hu2 : (bitsToBytes bits).length < U64 := by
          rw [bitsToBytes_length]; omega
        obtain ⟨h1, h2, h3, h4, h5⟩ :=
          finishInto_read s (bitsToBytes bits) comp hok hst hu2
        refine ⟨_, ⟨h1, h2, h3, h4⟩, ?_⟩
        intro bs body hbody
        have hread := h5 body hbody
        cases comp with
        | some c =>
            simp only [read_validity]
            have hne0 : ¬ ((framed (some c) (bitsToBytes bits)).length = 0) := by
              simp only [framed, List.length_append, encLE_length]
              omega
            rw [if_neg hne0]
            simp only [hread]
            have hle : (node.length + 7) / 8 ≤ (bitsToBytes bits).length := by
              rw [bitsToBytes_length, hnl, hbl]
            rw [if_pos hle, hnl, ← hbl, bytesToBits_bitsToBytes]
            simp [roundVal]
        | none =>
            by_cases hlen0 : len = 0
            · subst hlen0
              have hb0 : bits = [] := List.length_eq_zero.mp hbl
              subst hb0
              simp only [read_validity]
              have h0len : (framed none (bitsToBytes ([] : List Bool))).length
                  = 0 := by
                simp [framed]
              rw [if_pos h0len, if_pos (by rw [hnc]; rfl)]
              simp [roundVal]
            · simp only [read_validity]
              have hne0 : ¬ ((framed none (bitsToBytes bits)).length = 0) := by
                show ¬ ((bitsToBytes bits).length = 0)
                rw [bitsToBytes_length]
                omega
              rw [if_neg hne0]
              simp only [hread]
              have hle : (node.length + 7) / 8 ≤ (bitsToBytes bits).length := by
                rw [bitsToBytes_length, hnl, hbl]
              rw [if_pos hle, hnl, ← hbl, bytesToBits_bitsToBytes]
              simp [roundVal, hbl, hlen0]
      · rw [if_neg hbl] at hw
        cases hw

mutual

theorem dtypeA_sliceA (a : AArr) (o l : Nat) :
    dtypeA (sliceA a o l) = dtypeA a := by
  cases a with
  | null len => rfl
  | boolean vs val => rfl
  | primitive w vs val => rfl
  | binary lg u off vals val => rfl
  | fixedSizeBinary s vs val => rfl
  | list lg off c val => rfl
  | fixedSizeList n c val => simp [sliceA, dtypeA, dtypeA_sliceA c]
  | structA cs len val => simp [sliceA, dtypeA, dtypeList_sliceList cs]
  | mapA off c val => rfl
  | unionA dense tids off fs =>
      cases off with
      | some os => rfl
      | none => simp [sliceA, dtypeA, dtypeList_sliceList fs]
  | dictionary kw id keys kval values => rfl

theorem dtypeList_sliceList (cs : List AArr) (o l : Nat) :
    dtypeList (sliceList cs o l) = dtypeList cs := by
  cases cs with
  | nil => rfl
  | cons c rest =>
      simp [sliceList, dtypeList, dtypeA_sliceA c, dtypeList_sliceList rest]

end

mutual

theorem dictsOk_sliceA (dicts : Nat → Option AArr) (a : AArr) (o l : Nat)
    (h : DictsOk dicts a) : DictsOk dicts (sliceA a o l) := by
  cases a with
  | null len => trivial
  | boolean vs val => trivial
  | primitive w vs val => trivial
  | binary lg u off vals val => trivial
  | fixedSizeBinary s vs val => trivial
  | list lg off c val => exact h
  | fixedSizeList n c val => exact dictsOk_sliceA dicts c (o * n) (l * n) h
  | structA cs len val => exact dictsOk_sliceList dicts cs o l h
  | mapA off c val => exact h
  | unionA dense tids off fs =>
      cases off with
      | some os => exact h
      | none => exact dictsOk_sliceList dicts fs o l h
  | dictionary kw id keys kval values => exact h

theorem dictsOk_sliceList (dicts : Nat → Option AArr) (cs : List AArr)
    (o l : Nat) (h : DictsOkList dicts cs) :
    DictsOkList dicts (sliceList cs o l) := by
  cases cs with
  | nil => trivial
  | cons c rest =>
      exact ⟨dictsOk_sliceA dicts c o l h.1, dictsOk_sliceList dicts rest o l h.2⟩

end

/-- Logical equality of the read-back array with the written one: same
data type, same length, the same logical value and validity at every
slot, the same null count, and the same effective validity bits — the
`read(write(A)) == A` sense of spec §8. -/
def relA (B a : AArr) : Prop :=
  dtypeA B = dtypeA a ∧ lenA B = lenA a ∧ slotsA B = slotsA a
    ∧ nullCountA B = nullCountA a
    ∧ validityBits (lenA a) (validityA B) = validityBits (lenA a) (validityA a)

def relList : List AArr → List AArr → Prop
  | [], [] => True
  | B :: Bs, c :: cs => relA B c ∧ relList Bs cs
  | _, _ => False

theorem relList_slotsList {Bs cs : List AArr} (h : relList Bs cs) :
    slotsList Bs = slotsList cs := by
  induction Bs generalizing cs with
  | nil =>
      cases cs with
      | nil => rfl
      | cons c cs => exact h.elim
  | cons B Bs ih =>
      cases cs with
      | nil => exact h.elim
      | cons c cs =>
          obtain ⟨h1, h2⟩ := h
          rw [slotsList, slotsList, h1.2.2.1, ih h2]

theorem relList_dtypeList {Bs cs : List AArr} (h : relList Bs cs) :
    dtypeList Bs = dtypeList cs := by
  induction Bs generalizing cs with
  | nil =>
      cases cs with
      | nil => rfl
      | cons c cs => exact h.elim
  | cons B Bs ih =>
      cases cs with
      | nil => exact h.elim
      | cons c cs =>
          obtain ⟨h1, h2⟩ := h
          rw [dtypeList, dtypeList, h1.1, ih h2]

theorem wfList_of_wfStructList {cs : List AArr} {len : Nat}
    (h : wfStructList cs len = true) : wfList cs = true := by
  induction cs with
  | nil => rfl
  | cons c rest ih =>
      have h2 := (wfStructList_iff (c :: rest) len).mp h
      rw [wfList, Bool.and_eq_true]
      exact ⟨(h2 c (by simp)).1,
        ih ((wfStructList_iff rest len).mpr fun x hx => h2 x (by simp [hx]))⟩

/-! ### Offset-normalization window arithmetic -/

theorem getD_map_sub (off : List Nat) (first i : Nat) :
    (off.map (fun x => x - first)).getD i 0 = off.getD i 0 - first := by
  rw [List.getD_eq_getElem?_getD, List.getD_eq_getElem?_getD,
    List.getElem?_map]
  cases h : off[i]? <;> simp

theorem head?_getD_eq (off : List Nat) : off.head?.getD 0 = off.getD 0 0 := by
  cases off <;> rfl

theorem getLast_map_sub (off : List Nat) (first : Nat) (hne : off ≠ []) :
    (off.map fun x => x - first).getLast?.getD 0
      = off.getLast?.getD 0 - first := by
  rw [List.getLast?_map]
  cases h : off.getLast? with
  | none =>
      exact absurd (List.getLast?_eq_none_iff.mp h) hne
  | some y => rfl

theorem map_sub_zero (off : List Nat) : off.map (fun x => x - 0) = off := by
  simp

theorem pairwise_map_sub (off : List Nat) (first : Nat)
    (h : List.Pairwise (· ≤ ·) off) :
    List.Pairwise (· ≤ ·) (off.map (fun x => x - first)) :=
  h.map _ (fun a b hab => Nat.sub_le_sub_right hab first)

theorem window_norm {α : Type} (xs : List α) (first oi oj : Nat)
    (last : Nat) (h1 : first ≤ oi) (h2 : oi ≤ oj) (h3 : oj ≤ last) :
    ((((xs.drop first).take (last - first)).drop (oi - first)).take (oj - oi))
      = (xs.drop oi).take (oj - oi) := by
  rw [window_window xs first (last - first) (oi - first) (oj - oi) (by omega)]
  rw [show first + (oi - first) = oi from by omega]

theorem slots_offsets_norm {α : Type} (off : List Nat) (xs : List α)
    (first i : Nat) (hmono : List.Pairwise (· ≤ ·) off)
    (hfirst : first = off.getD 0 0) (hi : i + 1 < off.length) :
    ((((xs.drop first).take (off.getLast?.getD 0 - first)).drop
        ((off.map fun x => x - first).getD i 0)).take
        ((off.map fun x => x - first).getD (i + 1) 0
          - (off.map fun x => x - first).getD i 0))
      = (xs.drop (off.getD i 0)).take (off.getD (i + 1) 0 - off.getD i 0) := by
  have e1 := getD_map_sub off first i
  have e2 := getD_map_sub off first (i + 1)
  have g1 : first ≤ off.getD i 0 := by
    rw [hfirst]
    exact pairwise_getD_ge_head off i hmono (by omega)
  have g2 : off.getD i 0 ≤ off.getD (i + 1) 0 :=
    pairwise_getD_mono off i (i + 1) hmono (by omega) hi
  have g3 : off.getD (i + 1) 0 ≤ off.getLast?.getD 0 :=
    pairwise_getD_le_getLast off (i + 1) hmono hi
  rw [e1, e2, show (off.getD (i + 1) 0 - first) - (off.getD i 0 - first)
    = off.getD (i + 1) 0 - off.getD i 0 from by omega]
  exact window_norm xs first _ _ _ g1 g2 g3

theorem extD_pushNode (a : AArr) (s : WriterState) :
    ExtD s (pushNode a s) := ⟨[], by simp [pushNode]⟩

theorem map_range_if_validAt {β : Type} (len : Nat)
    (val val2 : Option (List Bool)) (g : Nat → Option β)
    (h : ∀ i, i < len → validAt val2 i = validAt val i) :
    ((List.range len).map fun i => if validAt val2 i then g i else none)
      = ((List.range len).map fun i => if validAt val i then g i else none) := by
  apply List.map_congr_left
  intro i hi
  rw [List.mem_range] at hi
  rw [h i hi]

theorem window_take {α : Type} (vs : List α) (s q i : Nat) (hi : i < q) :
    (((vs.take (s * q)).drop (i * s)).take s) = ((vs.drop (i * s)).take s) := by
  rw [List.drop_take, List.take_take]
  congr 1
  have h1 : i * s + s ≤ s * q := by
    calc i * s + s = (i + 1) * s := by ring
      _ ≤ q * s := Nat.mul_le_mul_right s hi
      _ = s * q := mul_comm ..
  omega

theorem slots_binary_norm (lg u : Bool) (off vals : List Nat)
    (val val2 : Option (List Bool)) (first : Nat)
    (hne : off ≠ []) (hmono : List.Pairwise (· ≤ ·) off)
    (hfirst : first = off.getD 0 0)
    (hval : ∀ i, i < off.length - 1 → validAt val2 i = validAt val i) :
    slotsA (.binary lg u (off.map fun x => x - first)
        ((vals.drop first).take (off.getLast?.getD 0 - first)) val2)
      = slotsA (.binary lg u off vals val) := by
  have hpos : 0 < off.length := List.length_pos.mpr hne
  simp only [slotsA, List.length_map]
  apply List.map_congr_left
  intro i hi
  rw [List.mem_range] at hi
  rw [hval i hi]
  refine if_congr Iff.rfl ?_ rfl
  exact congrArg some (congrArg Val.bytes
    (slots_offsets_norm off vals first i hmono hfirst (by omega)))

theorem slots_list_norm (lg : Bool) (off : List Nat) (c2 c : AArr)
    (val val2 : Option (List Bool)) (first : Nat)
    (hne : off ≠ []) (hmono : List.Pairwise (· ≤ ·) off)
    (hfirst : first = off.getD 0 0)
    (hslots : slotsA c2
      = ((slotsA c).drop first).take (off.getLast?.getD 0 - first))
    (hval : ∀ i, i < off.length - 1 → validAt val2 i = validAt val i) :
    slotsA (.list lg (off.map fun x => x - first) c2 val2)
      = slotsA (.list lg off c val) := by
  have hpos : 0 < off.length := List.length_pos.mpr hne
  simp only [slotsA, List.length_map]
  apply List.map_congr_left
  intro i hi
  rw [List.mem_range] at hi
  rw [hval i hi]
  refine if_congr Iff.rfl ?_ rfl
  rw [hslots]
  exact congrArg some (congrArg Val.lst
    (slots_offsets_norm off (slotsA c) first i hmono hfirst (by omega)))

theorem slots_map_norm (off : List Nat) (c2 c : AArr)
    (val val2 : Option (List Bool)) (first : Nat)
    (hne : off ≠ []) (hmono : List.Pairwise (· ≤ ·) off)
    (hfirst : first = off.getD 0 0)
    (hslots : slotsA c2
      = ((slotsA c).drop first).take (off.getLast?.getD 0 - first))
    (hval : ∀ i, i < off.length - 1 → validAt val2 i = validAt val i) :
    slotsA (.mapA (off.map fun x => x - first) c2 val2)
      = slotsA (.mapA off c val) := by
  have hpos : 0 < off.length := List.length_pos.mpr hne
  simp only [slotsA, List.length_map]
  apply List.map_congr_left
  intro i hi
  rw [List.mem_range] at hi
  rw [hval i hi]
  refine if_congr Iff.rfl ?_ rfl
  rw [hslots]
  exact congrArg some (congrArg Val.lst
    (slots_offsets_norm off (slotsA c) first i hmono hfirst (by omega)))

mutual

/-- Main round-trip lemma: a successful `write` appends field nodes,
buffer records and body bytes that `readA` (at the array's data type,
with the same endianness, compression and dictionaries) consumes exactly,
producing an array logically equal to the written one. -/
theorem write_read (a : AArr) (nle le : Bool) (comp : Option Codec)
    (dicts : Nat → Option AArr) (s0 s1 : WriterState)
    (hw : write a nle le comp s0 = some s1)
    (hwf : wfA a = true) (hok : CodecOk comp) (hd : DictsOk dicts a)
    (hst : StOk s0) :
    StOk s1 ∧ ExtD s0 s1
    ∧ ∃ nd bd B,
        s1.nodes = s0.nodes ++ nd ∧ s1.buffers = s0.buffers ++ bd
        ∧ relA B a
        ∧ ∀ ns bs body, BodyOk s1 body →
            readA (dtypeA a) (nd ++ ns) (bd ++ bs) body dicts le comp
              = .ok (B, ns, bs) := by
  cases a with
  | null len =>
      simp only [write, Option.some.injEq] at hw
      subst hw
      refine ⟨hst, extD_pushNode _ _, [⟨len, len⟩], [], .null len,
        rfl, by simp [pushNode], ⟨rfl, rfl, rfl, rfl, rfl⟩, ?_⟩
      intro ns bs body hbody
      simp [dtypeA, readA]
  | boolean vs val =>
      obtain ⟨hvo, hu⟩ := (wf_boolean_iff vs val).mp hwf
      simp only [write] at hw
      cases hbm : write_bitmap val vs.length comp
          (pushNode (.boolean vs val) s0) with
      | none => rw [hbm] at hw; cases hw
      | some sA =>
          simp only [hbm] at hw
          obtain ⟨b1, ⟨hA1, hA2, hA3, hA4⟩, hAr⟩ :=
            write_bitmap_read val vs.length comp _ sA ⟨vs.length, nullOf val⟩
              hbm hok hst rfl rfl hu
          obtain ⟨b2, ⟨hB1, hB2, hB3, hB4⟩, hBr⟩ :=
            write_bitmap_values_read vs comp sA s1 hw hok hA1 hu
          refine ⟨hB1, extD_trans (extD_pushNode _ _) (extD_trans hA3 hB3),
            [⟨vs.length, nullOf val⟩], [b1, b2],
            .boolean vs (roundVal comp vs.length val), ?_, ?_, ?_, ?_⟩
          · rw [hB2, hA2]; rfl
          · rw [hB4, hA4]; simp [pushNode, lenA, nullCountA]
          · refine ⟨rfl, rfl, ?_, nullOf_roundVal comp vs.length val hvo,
              validityBits_roundVal comp vs.length val hvo⟩
            simp only [slotsA]
            exact map_range_if_validAt vs.length val _ _
              (fun i hi => validAt_roundVal comp vs.length val i hi)
          · intro ns bs body hbody
            have hv := hAr (b2 :: bs) body (bodyOk_of_extD hB3 hbody)
            have hb := hBr bs body hbody
            simp only [dtypeA, readA, List.append_eq, List.cons_append, List.nil_append, hv, hb]
  | primitive w vs val =>
      obtain ⟨hvo, hall, hwpos, hu⟩ := (wf_primitive_iff w vs val).mp hwf
      have hulen : vs.length < U64 :=
        lt_of_le_of_lt (Nat.le_mul_of_pos_left vs.length hwpos) hu
      simp only [write] at hw
      cases hbm : write_bitmap val vs.length comp
          (pushNode (.primitive w vs val) s0) with
      | none => rw [hbm] at hw; cases hw
      | some sA =>
          simp only [hbm] at hw
          obtain ⟨b1, ⟨hA1, hA2, hA3, hA4⟩, hAr⟩ :=
            write_bitmap_read val vs.length comp _ sA ⟨vs.length, nullOf val⟩
              hbm hok hst rfl rfl hulen
          obtain ⟨b2, ⟨hB1, hB2, hB3, hB4⟩, hBr⟩ :=
            write_buffer_read w nle le vs comp sA s1 hw hok hA1 hall hu
          refine ⟨hB1, extD_trans (extD_pushNode _ _) (extD_trans hA3 hB3),
            [⟨vs.length, nullOf val⟩], [b1, b2],
            .primitive w vs (roundVal comp vs.length val), ?_, ?_, ?_, ?_⟩
          · rw [hB2, hA2]; rfl
          · rw [hB4, hA4]; simp [pushNode, lenA, nullCountA]
          · refine ⟨rfl, rfl, ?_, nullOf_roundVal comp vs.length val hvo,
              validityBits_roundVal comp vs.length val hvo⟩
            simp only [slotsA]
            exact map_range_if_validAt vs.length val _ _
              (fun i hi => validAt_roundVal comp vs.length val i hi)
          · intro ns bs body hbody
            have hv := hAr (b2 :: bs) body (bodyOk_of_extD hB3 hbody)
            have hb := hBr vs.length bs body rfl hbody
            simp only [dtypeA, readA, List.append_eq, List.cons_append, List.nil_append, hv, hb]
  | binary lg u off vals val =>
      obtain ⟨hne, hmono, hlast, hall, hvo, husz, huv⟩ :=
        (wf_binary_iff lg u off vals val).mp hwf
      have hpos : 0 < off.length := List.length_pos.mpr hne
      have how : 0 < offW lg := by cases lg <;> simp [offW]
      have hulen : off.length - 1 < U64 := by
        have h1 : off.length ≤ offW lg * off.length :=
          Nat.le_mul_of_pos_left off.length how
        omega
      have hfl : off.getD 0 0 ≤ off.getLast?.getD 0 :=
        pairwise_getD_le_getLast off 0 hmono hpos
      simp only [write, write_generic_binary] at hw
      cases hbm : write_bitmap val (off.length - 1) comp
          (pushNode (.binary lg u off vals val) s0) with
      | none => rw [hbm] at hw; cases hw
      | some sA =>
          simp only [hbm] at hw
          obtain ⟨first, hf⟩ : ∃ f, off.head? = some f := by
            cases off with
            | nil => exact absurd rfl hne
            | cons x xs => exact ⟨x, rfl⟩
          have hfirst : first = off.getD 0 0 := by
            rw [← head?_getD_eq, hf]
            rfl
          simp only [hf] at hw
          have hg1 : first ≤ off.getLast?.getD 0 := by rw [hfirst]; exact hfl
          have hguard : first ≤ off.getLast?.getD 0
              ∧ off.getLast?.getD 0 ≤ vals.length := ⟨hg1, hlast⟩
          obtain ⟨b1, ⟨hA1, hA2, hA3, hA4⟩, hAr⟩ :=
            write_bitmap_read val (off.length - 1) comp _ sA
              ⟨off.length - 1, nullOf val⟩ hbm hok hst rfl rfl hulen
          have hvalid : ∀ i, i < off.length - 1 →
              validAt (roundVal comp (off.length - 1) val) i = validAt val i :=
            fun i hi => validAt_roundVal comp (off.length - 1) val i hi
          have hwinlen : ((vals.drop first).take
              (off.getLast?.getD 0 - first)).length
              = off.getLast?.getD 0 - first := by
            rw [List.length_take, List.length_drop]
            omega
          have huv2 : ((vals.drop first).take
              (off.getLast?.getD 0 - first)).length < U64 := by
            rw [hwinlen]; omega
          by_cases hf0 : first = 0
          · rw [if_pos hf0] at hw
            cases hwo : write_buffer (offW lg) nle le off comp sA with
            | none => rw [hwo] at hw; cases hw
            | some sB =>
                simp only [hwo] at hw
                rw [if_pos hguard] at hw
                simp only [Option.some.injEq] at hw
                obtain ⟨b2, ⟨hB1, hB2, hB3, hB4⟩, hBr⟩ :=
                  write_buffer_read (offW lg) nle le off comp sA sB hwo hok hA1
                    hall husz
                obtain ⟨b3, ⟨hC1, hC2, hC3, hC4⟩, hCr⟩ :=
                  write_bytes_read ((vals.drop first).take
                    (off.getLast?.getD 0 - first)) comp sB s1 hw hok hB1 huv2
                have htk : ((vals.drop first).take
                    (off.getLast?.getD 0 - first)).take (off.getLast?.getD 0)
                    = (vals.drop first).take (off.getLast?.getD 0 - first) := by
                  rw [List.take_take, Nat.min_eq_right (Nat.sub_le _ _)]
                have hmap : off.map (fun x => x - first) = off := by
                  rw [hf0]
                  exact map_sub_zero off
                refine ⟨hC1, extD_trans (extD_pushNode _ _)
                    (extD_trans hA3 (extD_trans hB3 hC3)),
                  [⟨off.length - 1, nullOf val⟩], [b1, b2, b3],
                  .binary lg u off ((vals.drop first).take
                    (off.getLast?.getD 0 - first))
                    (roundVal comp (off.length - 1) val), ?_, ?_, ?_, ?_⟩
                · rw [hC2, hB2, hA2]; rfl
                · rw [hC4, hB4, hA4]; simp [pushNode]
                · refine ⟨rfl, rfl, ?_,
                    nullOf_roundVal comp (off.length - 1) val hvo,
                    validityBits_roundVal comp (off.length - 1) val hvo⟩
                  have hs := slots_binary_norm lg u off vals val
                    (roundVal comp (off.length - 1) val) first hne hmono hfirst
                    hvalid
                  rw [hmap] at hs
                  exact hs
                · intro ns bs body hbody
                  have hv := hAr (b2 :: (b3 :: bs)) body
                    (bodyOk_of_extD (extD_trans hB3 hC3) hbody)
                  have ho := hBr (off.length - 1 + 1) (b3 :: bs) body
                    (by omega) (bodyOk_of_extD hC3 hbody)
                  have hby := hCr (off.getLast?.getD 0) bs body
                    (by rw [hwinlen]; omega) hbody
                  rw [htk] at hby
                  simp only [dtypeA, readA, List.append_eq, List.cons_append,
                    List.nil_append, hv, ho, hby, if_pos hmono]
          · simp only [if_neg hf0] at hw
            rw [if_pos hguard] at hw
            simp only [Option.some.injEq] at hw
            have hall2 : ∀ x ∈ off.map (fun x => x - first),
                x < 256 ^ offW lg := by
              intro x hx
              rw [List.mem_map] at hx
              obtain ⟨y, hy, rfl⟩ := hx
              exact lt_of_le_of_lt (Nat.sub_le y first) (hall y hy)
            have husz2 : offW lg * (off.map fun x => x - first).length
                < U64 := by
              rw [List.length_map]; exact husz
            obtain ⟨b2, ⟨hB1, hB2, hB3, hB4⟩, hBr⟩ :=
              write_buffer_from_iter_read (offW lg) le
                (off.map fun x => x - first) comp sA _ rfl hok hA1 hall2 husz2
            obtain ⟨b3, ⟨hC1, hC2, hC3, hC4⟩, hCr⟩ :=
              write_bytes_read ((vals.drop first).take
                (off.getLast?.getD 0 - first)) comp _ s1 hw hok hB1 huv2
            have hlast2 : (off.map fun x => x - first).getLast?.getD 0
                = off.getLast?.getD 0 - first := getLast_map_sub off first hne
            have htk : ((vals.drop first).take
                (off.getLast?.getD 0 - first)).take
                (off.getLast?.getD 0 - first)
                = (vals.drop first).take (off.getLast?.getD 0 - first) := by
              rw [List.take_take, Nat.min_self]
            have hmono2 : List.Pairwise (· ≤ ·) (off.map fun x => x - first) :=
              pairwise_map_sub off first hmono
            refine ⟨hC1, extD_trans (extD_pushNode _ _)
                (extD_trans hA3 (extD_trans hB3 hC3)),
              [⟨off.length - 1, nullOf val⟩], [b1, b2, b3],
              .binary lg u (off.map fun x => x - first)
                ((vals.drop first).take (off.getLast?.getD 0 - first))
                (roundVal comp (off.length - 1) val), ?_, ?_, ?_, ?_⟩
            · rw [hC2, hB2, hA2]; rfl
            · rw [hC4, hB4, hA4]; simp [pushNode]
            · refine ⟨rfl, ?_, ?_,
                nullOf_roundVal comp (off.length - 1) val hvo,
                validityBits_roundVal comp (off.length - 1) val hvo⟩
              · show (off.map fun x => x - first).length - 1 = off.length - 1
                rw [List.length_map]
              · exact slots_binary_norm lg u off vals val
                  (roundVal comp (off.length - 1) val) first hne hmono hfirst
                  hvalid
            · intro ns bs body hbody
              have hv := hAr (b2 :: (b3 :: bs)) body
                (bodyOk_of_extD (extD_trans hB3 hC3) hbody)
              have ho := hBr (off.length - 1 + 1) (b3 :: bs) body
                (by rw [List.length_map]; omega) (bodyOk_of_extD hC3 hbody)
              have hby := hCr ((off.map fun x => x - first).getLast?.getD 0)
                bs body (by rw [hlast2, hwinlen]) hbody
              have hby2 : read_bytes_buffer
                  ((off.map fun x => x - first).getLast?.getD 0) (b3 :: bs)
                  body comp
                  = .ok ((vals.drop first).take
                      (off.getLast?.getD 0 - first), bs) := by
                rw [hby, hlast2, htk]
              simp only [dtypeA, readA, List.append_eq, List.cons_append,
                List.nil_append, hv, ho, hby2, if_pos hmono2]
  | fixedSizeBinary sz vs val =>
      obtain ⟨hs, hvo, hu⟩ := (wf_fsb_iff sz vs val).mp hwf
      have hq : vs.length / sz < U64 := lt_of_le_of_lt (Nat.div_le_self _ _) hu
      have hcount : sz * (vs.length / sz) ≤ vs.length := by
        calc sz * (vs.length / sz) = (vs.length / sz) * sz := mul_comm ..
          _ ≤ vs.length := Nat.div_mul_le_self _ _
      simp only [write] at hw
      cases hbm : write_bitmap val (vs.length / sz) comp
          (pushNode (.fixedSizeBinary sz vs val) s0) with
      | none => rw [hbm] at hw; cases hw
      | some sA =>
          simp only [hbm, Option.some.injEq] at hw
          obtain ⟨b1, ⟨hA1, hA2, hA3, hA4⟩, hAr⟩ :=
            write_bitmap_read val (vs.length / sz) comp _ sA
              ⟨vs.length / sz, nullOf val⟩ hbm hok hst rfl rfl hq
          obtain ⟨b2, ⟨hB1, hB2, hB3, hB4⟩, hBr⟩ :=
            write_bytes_read vs comp sA s1 hw hok hA1 hu
          have hlen2 : (vs.take (sz * (vs.length / sz))).length / sz
              = vs.length / sz := by
            rw [List.length_take, Nat.min_eq_left hcount,
              Nat.mul_div_cancel_left _ hs]
          refine ⟨hB1, extD_trans (extD_pushNode _ _) (extD_trans hA3 hB3),
            [⟨vs.length / sz, nullOf val⟩], [b1, b2],
            .fixedSizeBinary sz (vs.take (sz * (vs.length / sz)))
              (roundVal comp (vs.length / sz) val), ?_, ?_, ?_, ?_⟩
          · rw [hB2, hA2]; rfl
          · rw [hB4, hA4]; simp [pushNode, lenA, nullCountA]
          · refine ⟨rfl, ?_, ?_, nullOf_roundVal comp (vs.length / sz) val hvo,
              validityBits_roundVal comp (vs.length / sz) val hvo⟩
            · show (vs.take (sz * (vs.length / sz))).length / sz
                = vs.length / sz
              exact hlen2
            · simp only [slotsA, hlen2]
              apply List.map_congr_left
              intro i hi
              rw [List.mem_range] at hi
              rw [validAt_roundVal comp (vs.length / sz) val i hi]
              refine if_congr Iff.rfl ?_ rfl
              exact congrArg some (congrArg Val.bytes
                (window_take vs sz (vs.length / sz) i hi))
          · intro ns bs body hbody
            have hv := hAr (b2 :: bs) body (bodyOk_of_extD hB3 hbody)
            have hb := hBr (sz * (vs.length / sz)) bs body hcount hbody
            simp only [dtypeA, readA, List.append_eq, List.cons_append, List.nil_append, hv, hb]
  | list lg off c val =>
      obtain ⟨hne, hmono, hlast, hall, hvo, husz, hwfc⟩ :=
        (wf_list_iff lg off c val).mp hwf
      have hpos : 0 < off.length := List.length_pos.mpr hne
      have how : 0 < offW lg := by cases lg <;> simp [offW]
      have hulen : off.length - 1 < U64 := by
        have h1 : off.length ≤ offW lg * off.length :=
          Nat.le_mul_of_pos_left off.length how
        omega
      have hfl : off.getD 0 0 ≤ off.getLast?.getD 0 :=
        pairwise_getD_le_getLast off 0 hmono hpos
      simp only [write] at hw
      cases hbm : write_bitmap val (off.length - 1) comp
          (pushNode (.list lg off c val) s0) with
      | none => rw [hbm] at hw; cases hw
      | some sA =>
          simp only [hbm] at hw
          obtain ⟨first, hf⟩ : ∃ f, off.head? = some f := by
            cases off with
            | nil => exact absurd rfl hne
            | cons x xs => exact ⟨x, rfl⟩
          have hfirst : first = off.getD 0 0 := by
            rw [← head?_getD_eq, hf]
            rfl
          simp only [hf] at hw
          have hg1 : first ≤ off.getLast?.getD 0 := by rw [hfirst]; exact hfl
          have hguard : first ≤ off.getLast?.getD 0
              ∧ off.getLast?.getD 0 ≤ lenA c := ⟨hg1, hlast⟩
          have hbound : first + (off.getLast?.getD 0 - first) ≤ lenA c := by
            omega
          obtain ⟨b1, ⟨hA1, hA2, hA3, hA4⟩, hAr⟩ :=
            write_bitmap_read val (off.length - 1) comp _ sA
              ⟨off.length - 1, nullOf val⟩ hbm hok hst rfl rfl hulen
          have hvalid : ∀ i, i < off.length - 1 →
              validAt (roundVal comp (off.length - 1) val) i = validAt val i :=
            fun i hi => validAt_roundVal comp (off.length - 1) val i hi
          have hwfc2 : wfA (sliceA c first (off.getLast?.getD 0 - first))
              = true := wfA_sliceA c first _ hwfc hbound
          have hd2 : DictsOk dicts (sliceA c first
              (off.getLast?.getD 0 - first)) :=
            dictsOk_sliceA dicts c first _ hd
          by_cases hf0 : first = 0
          · rw [if_pos hf0] at hw
            cases hwo : write_buffer (offW lg) nle le off comp sA with
            | none => rw [hwo] at hw; cases hw
            | some sB =>
                simp only [hwo] at hw
                rw [if_pos hguard] at hw
                obtain ⟨b2, ⟨hB1, hB2, hB3, hB4⟩, hBr⟩ :=
                  write_buffer_read (offW lg) nle le off comp sA sB hwo hok hA1
                    hall husz
                obtain ⟨hC1, hC3, ndC, bdC, BC, hCn, hCb, hCrel, hCr⟩ :=
                  write_read (sliceA c first (off.getLast?.getD 0 - first))
                    nle le comp dicts sB s1 hw hwfc2 hok hd2 hB1
                have hsl : slotsA BC
                    = ((slotsA c).drop first).take
                      (off.getLast?.getD 0 - first) := by
                  rw [hCrel.2.2.1, slotsA_sliceA c first _ hwfc hbound]
                have hmap : off.map (fun x => x - first) = off := by
                  rw [hf0]
                  exact map_sub_zero off
                refine ⟨hC1, extD_trans (extD_pushNode _ _)
                    (extD_trans hA3 (extD_trans hB3 hC3)),
                  ⟨off.length - 1, nullOf val⟩ :: ndC, b1 :: b2 :: bdC,
                  .list lg off BC (roundVal comp (off.length - 1) val),
                  ?_, ?_, ?_, ?_⟩
                · rw [hCn, hB2, hA2]; simp [pushNode, lenA, nullCountA]
                · rw [hCb, hB4, hA4]; simp [pushNode]
                · refine ⟨?_, rfl, ?_,
                    nullOf_roundVal comp (off.length - 1) val hvo,
                    validityBits_roundVal comp (off.length - 1) val hvo⟩
                  · show DType.list lg (dtypeA BC) = DType.list lg (dtypeA c)
                    rw [hCrel.1, dtypeA_sliceA]
                  · have hs := slots_list_norm lg off BC c val
                      (roundVal comp (off.length - 1) val) first hne hmono
                      hfirst hsl hvalid
                    rw [hmap] at hs
                    exact hs
                · intro ns bs body hbody
                  have hv := hAr (b2 :: (bdC ++ bs)) body
                    (bodyOk_of_extD (extD_trans hB3 hC3) hbody)
                  have ho := hBr (off.length - 1 + 1) (bdC ++ bs) body
                    (by omega) (bodyOk_of_extD hC3 hbody)
                  have hcr2 := hCr ns bs body hbody
                  rw [dtypeA_sliceA] at hcr2
                  simp only [dtypeA, readA, List.append_eq, List.cons_append,
                    List.nil_append, hv, ho, hcr2, if_pos hmono]
          · simp only [if_neg hf0] at hw
            rw [if_pos hguard] at hw
            have hall2 : ∀ x ∈ off.map (fun x => x - first),
                x < 256 ^ offW lg := by
              intro x hx
              rw [List.mem_map] at hx
              obtain ⟨y, hy, rfl⟩ := hx
              exact lt_of_le_of_lt (Nat.sub_le y first) (hall y hy)
            have husz2 : offW lg * (off.map fun x => x - first).length
                < U64 := by
              rw [List.length_map]; exact husz
            obtain ⟨b2, ⟨hB1, hB2, hB3, hB4⟩, hBr⟩ :=
              write_buffer_from_iter_read (offW lg) le
                (off.map fun x => x - first) comp sA _ rfl hok hA1 hall2 husz2
            obtain ⟨hC1, hC3, ndC, bdC, BC, hCn, hCb, hCrel, hCr⟩ :=
              write_read (sliceA c first (off.getLast?.getD 0 - first))
                nle le comp dicts _ s1 hw hwfc2 hok hd2 hB1
            have hsl : slotsA BC
                = ((slotsA c).drop first).take
                  (off.getLast?.getD 0 - first) := by
              rw [hCrel.2.2.1, slotsA_sliceA c first _ hwfc hbound]
            have hmono2 : List.Pairwise (· ≤ ·) (off.map fun x => x - first) :=
              pairwise_map_sub off first hmono
            refine ⟨hC1, extD_trans (extD_pushNode _ _)
                (extD_trans hA3 (extD_trans hB3 hC3)),
              ⟨off.length - 1, nullOf val⟩ :: ndC, b1 :: b2 :: bdC,
              .list lg (off.map fun x => x - first) BC
                (roundVal comp (off.length - 1) val), ?_, ?_, ?_, ?_⟩
            · rw [hCn, hB2, hA2]; simp [pushNode, lenA, nullCountA]
            · rw [hCb, hB4, hA4]; simp [pushNode]
            · refine ⟨?_, ?_, ?_,
                nullOf_roundVal comp (off.length - 1) val hvo,
                validityBits_roundVal comp (off.length - 1) val hvo⟩
              · show DType.list lg (dtypeA BC) = DType.list lg (dtypeA c)
                rw [hCrel.1, dtypeA_sliceA]
              · show (off.map fun x => x - first).length - 1 = off.length - 1
                rw [List.length_map]
              · exact slots_list_norm lg off BC c val
                  (roundVal comp (off.length - 1) val) first hne hmono hfirst
                  hsl hvalid
            · intro ns bs body hbody
              have hv := hAr (b2 :: (bdC ++ bs)) body
                (bodyOk_of_extD (extD_trans hB3 hC3) hbody)
              have ho := hBr (off.length - 1 + 1) (bdC ++ bs) body
                (by rw [List.length_map]; omega) (bodyOk_of_extD hC3 hbody)
              have hcr2 := hCr ns bs body hbody
              rw [dtypeA_sliceA] at hcr2
              simp only [dtypeA, readA, List.append_eq, List.cons_append,
                List.nil_append, hv, ho, hcr2, if_pos hmono2]
  | fixedSizeList n c val =>
      obtain ⟨hn, hvo, hu, hwfc⟩ := (wf_fsl_iff n c val).mp hwf
      simp only [write, lenA] at hw
      cases hbm : write_bitmap val (lenA c / n) comp
          (pushNode (.fixedSizeList n c val) s0) with
      | none => rw [hbm] at hw; cases hw
      | some sA =>
          simp only [hbm] at hw
          obtain ⟨b1, ⟨hA1, hA2, hA3, hA4⟩, hAr⟩ :=
            write_bitmap_read val (lenA c / n) comp _ sA
              ⟨lenA c / n, nullOf val⟩ hbm hok hst rfl rfl hu
          obtain ⟨hB1, hB3, ndC, bdC, BC, hCn, hCb, hCrel, hCr⟩ :=
            write_read c nle le comp dicts sA s1 hw hwfc hok hd hA1
          refine ⟨hB1, extD_trans (extD_pushNode _ _) (extD_trans hA3 hB3),
            ⟨lenA c / n, nullOf val⟩ :: ndC, b1 :: bdC,
            .fixedSizeList n BC (roundVal comp (lenA c / n) val), ?_, ?_, ?_, ?_⟩
          · rw [hCn, hA2]; simp [pushNode, lenA, nullCountA]
          · rw [hCb, hA4]; simp [pushNode, lenA, nullCountA]
          · refine ⟨?_, ?_, ?_, nullOf_roundVal comp (lenA c / n) val hvo,
              validityBits_roundVal comp (lenA c / n) val hvo⟩
            · show DType.fixedSizeList n (dtypeA BC)
                = DType.fixedSizeList n (dtypeA c)
              rw [hCrel.1]
            · show lenA BC / n = lenA c / n
              rw [hCrel.2.1]
            · simp only [slotsA, hCrel.2.1, hCrel.2.2.1]
              exact map_range_if_validAt (lenA c / n) val _ _
                (fun i hi => validAt_roundVal comp (lenA c / n) val i hi)
          · intro ns bs body hbody
            have hv := hAr (bdC ++ bs) body (bodyOk_of_extD hB3 hbody)
            have hc := hCr ns bs body hbody
            simp only [dtypeA, readA, List.append_eq, List.cons_append, List.nil_append, hv, hc]
  | structA cs len val =>
      obtain ⟨hvo, hu, hcs⟩ := (wf_struct_iff cs len val).mp hwf
      simp only [write] at hw
      cases hbm : write_bitmap val len comp
          (pushNode (.structA cs len val) s0) with
      | none => rw [hbm] at hw; cases hw
      | some sA =>
          simp only [hbm] at hw
          obtain ⟨b1, ⟨hA1, hA2, hA3, hA4⟩, hAr⟩ :=
            write_bitmap_read val len comp _ sA ⟨len, nullOf val⟩
              hbm hok hst rfl rfl hu
          obtain ⟨hB1, hB3, ndC, bdC, Bs, hBn, hBb, hBrel, hBr⟩ :=
            writeEach_read cs nle le comp dicts sA s1 hw
              (wfList_of_wfStructList hcs) hok hd hA1
          refine ⟨hB1, extD_trans (extD_pushNode _ _) (extD_trans hA3 hB3),
            ⟨len, nullOf val⟩ :: ndC, b1 :: bdC,
            .structA Bs len (roundVal comp len val), ?_, ?_, ?_, ?_⟩
          · rw [hBn, hA2]; simp [pushNode, lenA, nullCountA]
          · rw [hBb, hA4]; simp [pushNode, lenA, nullCountA]
          · refine ⟨?_, rfl, ?_, nullOf_roundVal comp len val hvo,
              validityBits_roundVal comp len val hvo⟩
            · show DType.structT (dtypeList Bs) = DType.structT (dtypeList cs)
              rw [relList_dtypeList hBrel]
            · simp only [slotsA, relList_slotsList hBrel]
              exact map_range_if_validAt len val _ _
                (fun i hi => validAt_roundVal comp len val i hi)
          · intro ns bs body hbody
            have hv := hAr (bdC ++ bs) body (bodyOk_of_extD hB3 hbody)
            have hb := hBr ns bs body hbody
            simp only [dtypeA, readA, List.append_eq, List.cons_append, List.nil_append, hv, hb]
  | mapA off c val =>
      obtain ⟨hne, hmono, hlast, hall, hvo, husz, hwfc⟩ :=
        (wf_map_iff off c val).mp hwf
      have hpos : 0 < off.length := List.length_pos.mpr hne
      have hulen : off.length - 1 < U64 := by omega
      have hfl : off.getD 0 0 ≤ off.getLast?.getD 0 :=
        pairwise_getD_le_getLast off 0 hmono hpos
      simp only [write] at hw
      cases hbm : write_bitmap val (off.length - 1) comp
          (pushNode (.mapA off c val) s0) with
      | none => rw [hbm] at hw; cases hw
      | some sA =>
          simp only [hbm] at hw
          obtain ⟨first, hf⟩ : ∃ f, off.head? = some f := by
            cases off with
            | nil => exact absurd rfl hne
            | cons x xs => exact ⟨x, rfl⟩
          have hfirst : first = off.getD 0 0 := by
            rw [← head?_getD_eq, hf]
            rfl
          simp only [hf] at hw
          have hg1 : first ≤ off.getLast?.getD 0 := by rw [hfirst]; exact hfl
          have hguard : first ≤ off.getLast?.getD 0
              ∧ off.getLast?.getD 0 ≤ lenA c := ⟨hg1, hlast⟩
          have hbound : first + (off.getLast?.getD 0 - first) ≤ lenA c := by
            omega
          obtain ⟨b1, ⟨hA1, hA2, hA3, hA4⟩, hAr⟩ :=
            write_bitmap_read val (off.length - 1) comp _ sA
              ⟨off.length - 1, nullOf val⟩ hbm hok hst rfl rfl hulen
          have hvalid : ∀ i, i < off.length - 1 →
              validAt (roundVal comp (off.length - 1) val) i = validAt val i :=
            fun i hi => validAt_roundVal comp (off.length - 1) val i hi
          have hwfc2 : wfA (sliceA c first (off.getLast?.getD 0 - first))
              = true := wfA_sliceA c first _ hwfc hbound
          have hd2 : DictsOk dicts (sliceA c first
              (off.getLast?.getD 0 - first)) :=
            dictsOk_sliceA dicts c first _ hd
          by_cases hf0 : first = 0
          · rw [if_pos hf0] at hw
            cases hwo : write_buffer 4 nle le off comp sA with
            | none => rw [hwo] at hw; cases hw
            | some sB =>
                simp only [hwo] at hw
                rw [if_pos hguard] at hw
                obtain ⟨b2, ⟨hB1, hB2, hB3, hB4⟩, hBr⟩ :=
                  write_buffer_read 4 nle le off comp sA sB hwo hok hA1
                    hall husz
                obtain ⟨hC1, hC3, ndC, bdC, BC, hCn, hCb, hCrel, hCr⟩ :=
                  write_read (sliceA c first (off.getLast?.getD 0 - first))
                    nle le comp dicts sB s1 hw hwfc2 hok hd2 hB1
                have hsl : slotsA BC
                    = ((slotsA c).drop first).take
                      (off.getLast?.getD 0 - first) := by
                  rw [hCrel.2.2.1, slotsA_sliceA c first _ hwfc hbound]
                have hmap : off.map (fun x => x - first) = off := by
                  rw [hf0]
                  exact map_sub_zero off
                refine ⟨hC1, extD_trans (extD_pushNode _ _)
                    (extD_trans hA3 (extD_trans hB3 hC3)),
                  ⟨off.length - 1, nullOf val⟩ :: ndC, b1 :: b2 :: bdC,
                  .mapA off BC (roundVal comp (off.length - 1) val),
                  ?_, ?_, ?_, ?_⟩
                · rw [hCn, hB2, hA2]; simp [pushNode, lenA, nullCountA]
                · rw [hCb, hB4, hA4]; simp [pushNode]
                · refine ⟨?_, rfl, ?_,
                    nullOf_roundVal comp (off.length - 1) val hvo,
                    validityBits_roundVal comp (off.length - 1) val hvo⟩
                  · show DType.mapT (dtypeA BC) = DType.mapT (dtypeA c)
                    rw [hCrel.1, dtypeA_sliceA]
                  · have hs := slots_map_norm off BC c val
                      (roundVal comp (off.length - 1) val) first hne hmono
                      hfirst hsl hvalid
                    rw [hmap] at hs
                    exact hs
                · intro ns bs body hbody
                  have hv := hAr (b2 :: (bdC ++ bs)) body
                    (bodyOk_of_extD (extD_trans hB3 hC3) hbody)
                  have ho := hBr (off.length - 1 + 1) (bdC ++ bs) body
                    (by omega) (bodyOk_of_extD hC3 hbody)
                  have hcr2 := hCr ns bs body hbody
                  rw [dtypeA_sliceA] at hcr2
                  simp only [dtypeA, readA, List.append_eq, List.cons_append,
                    List.nil_append, hv, ho, hcr2, if_pos hmono]
          · simp only [if_neg hf0] at hw
            rw [if_pos hguard] at hw
            have hall2 : ∀ x ∈ off.map (fun x => x - first),
                x < 256 ^ 4 := by
              intro x hx
              rw [List.mem_map] at hx
              obtain ⟨y, hy, rfl⟩ := hx
              exact lt_of_le_of_lt (Nat.sub_le y first) (hall y hy)
            have husz2 : 4 * (off.map fun x => x - first).length < U64 := by
              rw [List.length_map]; exact husz
            obtain ⟨b2, ⟨hB1, hB2, hB3, hB4⟩, hBr⟩ :=
              write_buffer_from_iter_read 4 le
                (off.map fun x => x - first) comp sA _ rfl hok hA1 hall2 husz2
            obtain ⟨hC1, hC3, ndC, bdC, BC, hCn, hCb, hCrel, hCr⟩ :=
              write_read (sliceA c first (off.getLast?.getD 0 - first))
                nle le comp dicts _ s1 hw hwfc2 hok hd2 hB1
            have hsl : slotsA BC
                = ((slotsA c).drop first).take
                  (off.getLast?.getD 0 - first) := by
              rw [hCrel.2.2.1, slotsA_sliceA c first _ hwfc hbound]
            have hmono2 : List.Pairwise (· ≤ ·) (off.map fun x => x - first) :=
              pairwise_map_sub off first hmono
            refine ⟨hC1, extD_trans (extD_pushNode _ _)
                (extD_trans hA3 (extD_trans hB3 hC3)),
              ⟨off.length - 1, nullOf val⟩ :: ndC, b1 :: b2 :: bdC,
              .mapA (off.map fun x => x - first) BC
                (roundVal comp (off.length - 1) val), ?_, ?_, ?_, ?_⟩
            · rw [hCn, hB2, hA2]; simp [pushNode, lenA, nullCountA]
            · rw [hCb, hB4, hA4]; simp [pushNode]
            · refine ⟨?_, ?_, ?_,
                nullOf_roundVal comp (off.length - 1) val hvo,
                validityBits_roundVal comp (off.length - 1) val hvo⟩
              · show DType.mapT (dtypeA BC) = DType.mapT (dtypeA c)
                rw [hCrel.1, dtypeA_sliceA]
              · show (off.map fun x => x - first).length - 1 = off.length - 1
                rw [List.length_map]
              · exact slots_map_norm off BC c val
                  (roundVal comp (off.length - 1) val) first hne hmono hfirst
                  hsl hvalid
            · intro ns bs body hbody
              have hv := hAr (b2 :: (bdC ++ bs)) body
                (bodyOk_of_extD (extD_trans hB3 hC3) hbody)
              have ho := hBr (off.length - 1 + 1) (bdC ++ bs) body
                (by rw [List.length_map]; omega) (bodyOk_of_extD hC3 hbody)
              have hcr2 := hCr ns bs body hbody
              rw [dtypeA_sliceA] at hcr2
              simp only [dtypeA, readA, List.append_eq, List.cons_append,
                List.nil_append, hv, ho, hcr2, if_pos hmono2]
  | unionA dense tids off fs =>
      simp only [write] at hw
      cases hwb : write_buffer 1 nle le tids comp
          (pushNode (.unionA dense tids off fs) s0) with
      | none => rw [hwb] at hw; cases hw
      | some sA =>
          cases off with
          | some os =>
              obtain ⟨hdense, hall, hu, hlen, hallo, hfs⟩ :=
                (wf_union_some_iff dense tids os fs).mp hwf
              subst hdense
              simp only [hwb] at hw
              cases hwo : write_buffer 4 nle le os comp sA with
              | none => rw [hwo] at hw; cases hw
              | some sB =>
                  simp only [hwo] at hw
                  have hall1 : ∀ x ∈ tids, x < 256 ^ 1 := by simpa using hall
                  obtain ⟨b1, ⟨hA1, hA2, hA3, hA4⟩, hAr⟩ :=
                    write_buffer_read 1 nle le tids comp _ sA hwb hok hst
                      hall1 (by omega)
                  obtain ⟨b2, ⟨hB1, hB2, hB3, hB4⟩, hBr⟩ :=
                    write_buffer_read 4 nle le os comp sA sB hwo hok hA1
                      hallo (by rw [hlen]; omega)
                  obtain ⟨hC1, hC3, ndC, bdC, Bs, hCn, hCb, hCrel, hCr⟩ :=
                    writeEach_read fs nle le comp dicts sB s1 hw hfs hok hd hB1
                  refine ⟨hC1,
                    extD_trans (extD_pushNode _ _)
                      (extD_trans hA3 (extD_trans hB3 hC3)),
                    ⟨tids.length, 0⟩ :: ndC, b1 :: b2 :: bdC,
                    .unionA true tids (some os) Bs, ?_, ?_, ?_, ?_⟩
                  · rw [hCn, hB2, hA2]; simp [pushNode, lenA, nullCountA, nullOf]
                  · rw [hCb, hB4, hA4]; simp [pushNode, lenA, nullCountA]
                  · refine ⟨?_, rfl, ?_, rfl, rfl⟩
                    · show DType.unionT true (dtypeList Bs)
                        = DType.unionT true (dtypeList fs)
                      rw [relList_dtypeList hCrel]
                    · simp only [slotsA, relList_slotsList hCrel]
                  · intro ns bs body hbody
                    have hv := hAr tids.length (b2 :: (bdC ++ bs)) body rfl
                      (bodyOk_of_extD (extD_trans hB3 hC3) hbody)
                    have ho := hBr tids.length (bdC ++ bs) body hlen.symm
                      (bodyOk_of_extD hC3 hbody)
                    have hb := hCr ns bs body hbody
                    simp only [dtypeA, readA, List.append_eq, List.cons_append,
                      List.nil_append, hv, ho, hb, eq_self_iff_true, if_true]
          | none =>
              obtain ⟨hdense, hall, hu, hfs⟩ :=
                (wf_union_none_iff dense tids fs).mp hwf
              subst hdense
              simp only [hwb] at hw
              have hall1 : ∀ x ∈ tids, x < 256 ^ 1 := by simpa using hall
              obtain ⟨b1, ⟨hA1, hA2, hA3, hA4⟩, hAr⟩ :=
                write_buffer_read 1 nle le tids comp _ sA hwb hok hst
                  hall1 (by omega)
              obtain ⟨hC1, hC3, ndC, bdC, Bs, hCn, hCb, hCrel, hCr⟩ :=
                writeEach_read fs nle le comp dicts sA s1 hw
                  (wfList_of_wfStructList hfs) hok hd hA1
              refine ⟨hC1,
                extD_trans (extD_pushNode _ _) (extD_trans hA3 hC3),
                ⟨tids.length, 0⟩ :: ndC, b1 :: bdC,
                .unionA false tids none Bs, ?_, ?_, ?_, ?_⟩
              · rw [hCn, hA2]; simp [pushNode, lenA, nullCountA, nullOf]
              · rw [hCb, hA4]; simp [pushNode, lenA, nullCountA]
              · refine ⟨?_, rfl, ?_, rfl, rfl⟩
                · show DType.unionT false (dtypeList Bs)
                    = DType.unionT false (dtypeList fs)
                  rw [relList_dtypeList hCrel]
                · simp only [slotsA, relList_slotsList hCrel]
              · intro ns bs body hbody
                have hv := hAr tids.length (bdC ++ bs) body rfl
                  (bodyOk_of_extD hC3 hbody)
                have hb := hCr ns bs body hbody
                simp only [dtypeA, readA, List.append_eq, List.cons_append, List.nil_append, hv, hb,
                  Bool.false_eq_true, if_false]
  | dictionary kw id keys kval values =>
      obtain ⟨hkw, hall, hvo, hu, hwfv⟩ :=
        (wf_dict_iff kw id keys kval values).mp hwf
      have hulen : keys.length < U64 :=
        lt_of_le_of_lt (Nat.le_mul_of_pos_left keys.length hkw) hu
      have hdic : dicts id = some values := hd.1
      simp only [write] at hw
      cases hbm : write_bitmap kval keys.length comp
          (pushNode (.dictionary kw id keys kval values) s0) with
      | none => rw [hbm] at hw; cases hw
      | some sA =>
          simp only [hbm] at hw
          obtain ⟨b1, ⟨hA1, hA2, hA3, hA4⟩, hAr⟩ :=
            write_bitmap_read kval keys.length comp _ sA
              ⟨keys.length, nullOf kval⟩ hbm hok hst rfl rfl hulen
          obtain ⟨b2, ⟨hB1, hB2, hB3, hB4⟩, hBr⟩ :=
            write_buffer_read kw nle le keys comp sA s1 hw hok hA1 hall hu
          refine ⟨hB1, extD_trans (extD_pushNode _ _) (extD_trans hA3 hB3),
            [⟨keys.length, nullOf kval⟩], [b1, b2],
            .dictionary kw id keys (roundVal comp keys.length kval) values,
            ?_, ?_, ?_, ?_⟩
          · rw [hB2, hA2]; rfl
          · rw [hB4, hA4]; simp [pushNode, lenA, nullCountA]
          · refine ⟨rfl, rfl, ?_,
              nullOf_roundVal comp keys.length kval hvo,
              validityBits_roundVal comp keys.length kval hvo⟩
            simp only [slotsA]
            exact map_range_if_validAt keys.length kval _ _
              (fun i hi => validAt_roundVal comp keys.length kval i hi)
          · intro ns bs body hbody
            have hv := hAr (b2 :: bs) body (bodyOk_of_extD hB3 hbody)
            have hb := hBr keys.length bs body rfl hbody
            simp only [dtypeA, readA, List.append_eq, List.cons_append, List.nil_append,
              hv, hb, hdic]
  termination_by (depthA a, 0)
  decreasing_by
    all_goals
      (subst_vars
       try simp only [depthA, depthA_sliceA, depthList, List.length_cons]
       first
       | exact Prod.Lex.left _ _ (by omega)
       | exact lex_child _ _ _
       | exact lex_tail _ _ _)

/-- Round-trip for a left-to-right sequence of child writes. -/
theorem writeEach_read (cs : List AArr) (nle le : Bool) (comp : Option Codec)
    (dicts : Nat → Option AArr) (s0 s1 : WriterState)
    (hw : writeEach cs nle le comp s0 = some s1)
    (hwf : wfList cs = true) (hok : CodecOk comp) (hd : DictsOkList dicts cs)
    (hst : StOk s0) :
    StOk s1 ∧ ExtD s0 s1
    ∧ ∃ nd bd Bs,
        s1.nodes = s0.nodes ++ nd ∧ s1.buffers = s0.buffers ++ bd
        ∧ relList Bs cs
        ∧ ∀ ns bs body, BodyOk s1 body →
            readEach (dtypeList cs) (nd ++ ns) (bd ++ bs) body dicts le comp
              = .ok (Bs, ns, bs) := by
  cases cs with
  | nil =>
      simp only [writeEach, Option.some.injEq] at hw
      subst hw
      refine ⟨hst, extD_refl _, [], [], [], by simp, by simp, trivial, ?_⟩
      intro ns bs body hbody
      simp [dtypeList, readEach]
  | cons c rest =>
      simp only [writeEach] at hw
      cases hwc : write c nle le comp s0 with
      | none => rw [hwc] at hw; cases hw
      | some sA =>
          simp only [hwc] at hw
          simp only [wfList, Bool.and_eq_true] at hwf
          obtain ⟨hA1, hA3, ndC, bdC, BC, hCn, hCb, hCrel, hCr⟩ :=
            write_read c nle le comp dicts s0 sA hwc hwf.1 hok hd.1 hst
          obtain ⟨hB1, hB3, ndR, bdR, Bs, hBn, hBb, hBrel, hBr⟩ :=
            writeEach_read rest nle le comp dicts sA s1 hw hwf.2 hok hd.2 hA1
          refine ⟨hB1, extD_trans hA3 hB3, ndC ++ ndR, bdC ++ bdR, BC :: Bs,
            ?_, ?_, ⟨hCrel, hBrel⟩, ?_⟩
          · rw [hBn, hCn, List.append_assoc]
          · rw [hBb, hCb, List.append_assoc]
          · intro ns bs body hbody
            have hc := hCr (ndR ++ ns) (bdR ++ bs) body
              (bodyOk_of_extD hB3 hbody)
            have hb := hBr ns bs body hbody
            simp only [dtypeList, readEach, List.append_eq, List.append_assoc, List.nil_append, hc, hb]
  termination_by (depthList cs, cs.length + 1)
  decreasing_by
    all_goals
      (subst_vars
       try simp only [depthA, depthA_sliceA, depthList, List.length_cons]
       first
       | exact Prod.Lex.left _ _ (by omega)
       | exact lex_child _ _ _
       | exact lex_tail _ _ _)

end

/-- C1: for every well-formed array of a type the IPC writer supports,
writing it (field nodes, buffer table, body bytes) and reading those back
with the same endianness and compression settings — with lossless codecs
and a dictionary registry holding the array's dictionaries — yields an
array equal to the original: equal data type, equal logical values and
validity slot for slot, equal null count, and equal effective validity
bits.  The reader consumes the node and buffer FIFOs exactly. -/
theorem c1_ipc_round_trip (a : AArr) (nle le : Bool) (comp : Option Codec)
    (dicts : Nat → Option AArr) (s1 : WriterState)
    (hwf : wfA a = true) (hok : CodecOk comp) (hd : DictsOk dicts a)
    (hw : write a nle le comp emptyWriter = some s1) :
    ∃ B, readA (dtypeA a) s1.nodes s1.buffers s1.arrow_data dicts le comp
        = .ok (B, [], [])
      ∧ dtypeA B = dtypeA a ∧ lenA B = lenA a ∧ slotsA B = slotsA a
      ∧ nullCountA B = nullCountA a
      ∧ validityBits (lenA a) (validityA B)
          = validityBits (lenA a) (validityA a) := by
  obtain ⟨h1, h2, nd, bd, B, hn, hb, hrel, hr⟩ :=
    write_read a nle le comp dicts emptyWriter s1 hw hwf hok hd rfl
  refine ⟨B, ?_, hrel.1, hrel.2.1, hrel.2.2.1, hrel.2.2.2.1, hrel.2.2.2.2⟩
  have hread := hr [] [] s1.arrow_data ⟨[], by simp⟩
  rw [hn, hb]
  simpa [emptyWriter] using hread

theorem c1_ipc_round_trip_witness :
    ∃ s1, write (.primitive 1 [5, 7] none) true true none emptyWriter
        = some s1
    ∧ ∃ B, readA (dtypeA (.primitive 1 [5, 7] none)) s1.nodes s1.buffers
          s1.arrow_data (fun _ => none) true none = .ok (B, [], [])
        ∧ dtypeA B = dtypeA (.primitive 1 [5, 7] none)
        ∧ lenA B = lenA (.primitive 1 [5, 7] none)
        ∧ slotsA B = slotsA (.primitive 1 [5, 7] none)
        ∧ nullCountA B = nullCountA (.primitive 1 [5, 7] none)
        ∧ validityBits (lenA (.primitive 1 [5, 7] none)) (validityA B)
            = validityBits (lenA (.primitive 1 [5, 7] none))
              (validityA (.primitive 1 [5, 7] none)) := by
  have hw : write (.primitive 1 [5, 7] none) true true none emptyWriter
      = some ⟨[⟨0, 0⟩, ⟨0, 2⟩], [5, 7, 0, 0, 0, 0, 0, 0], [⟨2, 0⟩], 8⟩ := by
    simp only [write]
    rfl
  exact ⟨_, hw, c1_ipc_round_trip (.primitive 1 [5, 7] none) true true none
    (fun _ => none) _ (by decide) trivial trivial hw⟩

/-- C5: offset normalization.  First, `write_generic_binary` emits (after
the validity buffer) an offsets buffer that decodes to the input offsets
with `offsets[0]` subtracted from every entry — hence starting at zero,
and unchanged when `offsets[0] = 0` — and a values buffer holding exactly
the bytes of `[offsets[0], offsets[len])`.  Second, the writer's List
case with a non-zero first offset recurses into the child sliced to
`[first, last)` after writing the same normalized offsets. -/
theorem c5_offset_normalization
    (w : Nat) (validity : Option (List Bool)) (offsets values : List Nat)
    (nle le : Bool) (comp : Option Codec) (s s1 : WriterState)
    (lg : Bool) (off : List Nat) (c : AArr) (val : Option (List Bool))
    (s0 sA : WriterState) (first : Nat)
    (hok : CodecOk comp) (hsok : StOk s)
    (hw : write_generic_binary w validity offsets values nle le comp s
      = some s1)
    (hall : ∀ x ∈ offsets, x < 256 ^ w)
    (hmono : List.Pairwise (· ≤ ·) offsets)
    (husz : w * offsets.length < U64) (huv : values.length < U64)
    (hne : offsets ≠ []) (hwpos : 0 < w)
    (hf : off.head? = some first) (hf0 : first ≠ 0)
    (hbm : write_bitmap val (off.length - 1) comp
      (pushNode (.list lg off c val) s0) = some sA)
    (hg1 : first ≤ off.getLast?.getD 0) (hg2 : off.getLast?.getD 0 ≤ lenA c) :
    (∃ b1 b2 b3,
      s1.buffers = s.buffers ++ [b1, b2, b3]
      ∧ (offsets.map fun x => x - offsets.getD 0 0).getD 0 0 = 0
      ∧ (offsets.getD 0 0 = 0 →
          offsets.map (fun x => x - offsets.getD 0 0) = offsets)
      ∧ ∀ body, BodyOk s1 body →
          read_values w offsets.length le [b2] body comp
            = .ok (offsets.map fun x => x - offsets.getD 0 0, [])
          ∧ read_bytes_buffer
              (offsets.getLast?.getD 0 - offsets.getD 0 0) [b3] body comp
            = .ok ((values.drop (offsets.getD 0 0)).take
                (offsets.getLast?.getD 0 - offsets.getD 0 0), []))
    ∧ write (.list lg off c val) nle le comp s0
        = write (sliceA c first (off.getLast?.getD 0 - first)) nle le comp
            (write_buffer_from_iter (offW lg) le
              (off.map fun x => x - first) comp sA) := by
  constructor
  · simp only [write_generic_binary] at hw
    have hpos : 0 < offsets.length := List.length_pos.mpr hne
    cases hbm2 : write_bitmap validity (offsets.length - 1) comp s with
    | none => rw [hbm2] at hw; cases hw
    | some sV =>
        simp only [hbm2] at hw
        obtain ⟨fst, hfst⟩ : ∃ f, offsets.head? = some f := by
          cases offsets with
          | nil => exact absurd rfl hne
          | cons x xs => exact ⟨x, rfl⟩
        have hfg : fst = offsets.getD 0 0 := by
          rw [← head?_getD_eq, hfst]
          rfl
        simp only [hfst] at hw
        have hfl : fst ≤ offsets.getLast?.getD 0 := by
          rw [hfg]
          exact pairwise_getD_le_getLast offsets 0 hmono hpos
        have hulen2 : offsets.length - 1 < U64 := by
          have h1 := Nat.le_mul_of_pos_left offsets.length hwpos
          omega
        obtain ⟨b1, ⟨hA1, hA2, hA3, hA4⟩, hAr⟩ :=
          write_bitmap_read validity (offsets.length - 1) comp s sV
            ⟨offsets.length - 1, nullOf validity⟩ hbm2 hok hsok rfl rfl hulen2
        by_cases hb0 : fst = 0
        · rw [if_pos hb0] at hw
          cases hwo : write_buffer w nle le offsets comp sV with
          | none => rw [hwo] at hw; cases hw
          | some sO =>
              simp only [hwo] at hw
              by_cases hgv : offsets.getLast?.getD 0 ≤ values.length
              · rw [if_pos ⟨hfl, hgv⟩] at hw
                simp only [Option.some.injEq] at hw
                obtain ⟨b2, ⟨hB1, hB2, hB3, hB4⟩, hBr⟩ :=
                  write_buffer_read w nle le offsets comp sV sO hwo hok hA1
                    hall husz
                have hwinlen : ((values.drop fst).take
                    (offsets.getLast?.getD 0 - fst)).length
                    = offsets.getLast?.getD 0 - fst := by
                  rw [List.length_take, List.length_drop]
                  omega
                have huv2 : ((values.drop fst).take
                    (offsets.getLast?.getD 0 - fst)).length < U64 := by
                  rw [hwinlen]; omega
                obtain ⟨b3, ⟨hC1, hC2, hC3, hC4⟩, hCr⟩ :=
                  write_bytes_read ((values.drop fst).take
                    (offsets.getLast?.getD 0 - fst)) comp sO s1 hw hok hB1 huv2
                refine ⟨b1, b2, b3, ?_, ?_, ?_, ?_⟩
                · rw [hC4, hB4, hA4]
                  simp
                · rw [getD_map_sub]
                  omega
                · intro h0
                  rw [h0]
                  exact map_sub_zero offsets
                · intro body hbody
                  constructor
                  · have hval := hBr offsets.length [] body rfl
                      (bodyOk_of_extD hC3 hbody)
                    rw [show offsets.map (fun x => x - offsets.getD 0 0)
                        = offsets from by
                      rw [← hfg, hb0]
                      exact map_sub_zero offsets]
                    exact hval
                  · have hby := hCr
                      (offsets.getLast?.getD 0 - offsets.getD 0 0) [] body
                      (by rw [hwinlen]; omega) hbody
                    have htk : ((values.drop fst).take
                        (offsets.getLast?.getD 0 - fst)).take
                        (offsets.getLast?.getD 0 - offsets.getD 0 0)
                        = (values.drop (offsets.getD 0 0)).take
                          (offsets.getLast?.getD 0 - offsets.getD 0 0) := by
                      rw [← hfg, List.take_take, Nat.min_self]
                    rw [hby, htk]
              · rw [if_neg (fun hcon => hgv hcon.2)] at hw
                cases hw
        · simp only [if_neg hb0] at hw
          by_cases hgv : offsets.getLast?.getD 0 ≤ values.length
          · rw [if_pos ⟨hfl, hgv⟩] at hw
            simp only [Option.some.injEq] at hw
            have hall2 : ∀ x ∈ offsets.map (fun x => x - fst),
                x < 256 ^ w := by
              intro x hx
              rw [List.mem_map] at hx
              obtain ⟨y, hy, rfl⟩ := hx
              exact lt_of_le_of_lt (Nat.sub_le y fst) (hall y hy)
            have husz2 : w * (offsets.map fun x => x - fst).length < U64 := by
              rw [List.length_map]
              exact husz
            obtain ⟨b2, ⟨hB1, hB2, hB3, hB4⟩, hBr⟩ :=
              write_buffer_from_iter_read w le (offsets.map fun x => x - fst)
                comp sV _ rfl hok hA1 hall2 husz2
            have hwinlen : ((values.drop fst).take
                (offsets.getLast?.getD 0 - fst)).length
                = offsets.getLast?.getD 0 - fst := by
              rw [List.length_take, List.length_drop]
              omega
            have huv2 : ((values.drop fst).take
                (offsets.getLast?.getD 0 - fst)).length < U64 := by
              rw [hwinlen]; omega
            obtain ⟨b3, ⟨hC1, hC2, hC3, hC4⟩, hCr⟩ :=
              write_bytes_read ((values.drop fst).take
                (offsets.getLast?.getD 0 - fst)) comp _ s1 hw hok hB1 huv2
            refine ⟨b1, b2, b3, ?_, ?_, ?_, ?_⟩
            · rw [hC4, hB4, hA4]
              simp
            · rw [getD_map_sub]
              omega
            · intro h0
              rw [h0]
              exact map_sub_zero offsets
            · intro body hbody
              constructor
              · have hval := hBr offsets.length [] body
                  (by rw [List.length_map]) (bodyOk_of_extD hC3 hbody)
                rw [← hfg]
                exact hval
              · have hby := hCr
                  (offsets.getLast?.getD 0 - offsets.getD 0 0) [] body
                  (by rw [hwinlen]; omega) hbody
                have htk : ((values.drop fst).take
                    (offsets.getLast?.getD 0 - fst)).take
                    (offsets.getLast?.getD 0 - offsets.getD 0 0)
                    = (values.drop (offsets.getD 0 0)).take
                      (offsets.getLast?.getD 0 - offsets.getD 0 0) := by
                  rw [← hfg, List.take_take, Nat.min_self]
                rw [hby, htk]
          · rw [if_neg (fun hcon => hgv hcon.2)] at hw
            cases hw
  · simp only [write, hbm, hf, if_neg hf0, if_pos (⟨hg1, hg2⟩ :
      first ≤ off.getLast?.getD 0 ∧ off.getLast?.getD 0 ≤ lenA c)]

theorem c5_offset_normalization_witness :
    (∃ b1 b2 b3,
      (⟨[⟨0, 0⟩, ⟨0, 2⟩, ⟨8, 1⟩],
          [0, 1, 0, 0, 0, 0, 0, 0, 8, 0, 0, 0, 0, 0, 0, 0], [], 16⟩
        : WriterState).buffers = emptyWriter.buffers ++ [b1, b2, b3]
      ∧ (([1, 2].map fun x => x - [1, 2].getD 0 0)).getD 0 0 = 0
      ∧ ([1, 2].getD 0 0 = 0 →
          [1, 2].map (fun x => x - [1, 2].getD 0 0) = [1, 2])
      ∧ ∀ body, BodyOk ⟨[⟨0, 0⟩, ⟨0, 2⟩, ⟨8, 1⟩],
            [0, 1, 0, 0, 0, 0, 0, 0, 8, 0, 0, 0, 0, 0, 0, 0], [], 16⟩ body →
          read_values 1 [1, 2].length true [b2] body none
            = .ok ([1, 2].map fun x => x - [1, 2].getD 0 0, [])
          ∧ read_bytes_buffer ([1, 2].getLast?.getD 0 - [1, 2].getD 0 0)
              [b3] body none
            = .ok (([9, 8].drop ([1, 2].getD 0 0)).take
                ([1, 2].getLast?.getD 0 - [1, 2].getD 0 0), []))
    ∧ write (.list false [1, 2] (.primitive 1 [3, 4] none) none) true true
        none emptyWriter
      = write (sliceA (.primitive 1 [3, 4] none) 1
          ([1, 2].getLast?.getD 0 - 1)) true true none
          (write_buffer_from_iter (offW false) true
            ([1, 2].map fun x => x - 1) none ⟨[⟨0, 0⟩], [], [⟨1, 0⟩], 0⟩) :=
  c5_offset_normalization 1 none [1, 2] [9, 8] true true none emptyWriter
    ⟨[⟨0, 0⟩, ⟨0, 2⟩, ⟨8, 1⟩],
      [0, 1, 0, 0, 0, 0, 0, 0, 8, 0, 0, 0, 0, 0, 0, 0], [], 16⟩
    false [1, 2] (.primitive 1 [3, 4] none) none emptyWriter
    ⟨[⟨0, 0⟩], [], [⟨1, 0⟩], 0⟩ 1
    trivial rfl rfl (by decide) (by decide) (by decide) (by decide)
    (by decide) (by decide) rfl (by decide) rfl (by decide) (by decide)

end Arrow2
